import Mathlib

/-!
Shallow embedding of the revision-control core of the `jj` repository:
the histogram diff engine (`src/lib/src/diff.rs`), the absorb hunk
splitter (`src/lib/src/absorb.rs`), the composite index
(`src/lib/src/default_index/composite.rs`) and the commit builder
(`src/lib/src/commit_builder.rs`), together with theorems checking the
natural-language specification against the embedded code.

Machine integers (`usize`, `u32`) are modelled as `Nat`: none of the
embedded algorithms rely on wrap-around arithmetic (all additions are
list index computations that stay far below 2^64 for any realizable
input, and the embedding works with unbounded lists anyway).
-/

set_option maxHeartbeats 1000000

/-- Embedding of Rust's `std::ops::Range<usize>`: a half-open byte or
token range `start..stop` (the Rust field `end` is a Lean keyword, so it
is called `stop` here). -/
structure Rg where
  start : Nat
  stop : Nat
deriving DecidableEq, Repr

/-- `Range::is_empty()`: true when `start >= end`. -/
def Rg.isEmpty (r : Rg) : Bool := decide (r.stop ≤ r.start)

/-! ## `find_lcs` (`src/lib/src/diff.rs` lines 374-418)

The Rust function keeps a `chain` array of triples
`(longest chain length ending here, left position, previous right position)`
using `usize::MAX` as the "no previous" sentinel.  We model the chain as a
list of `(right index, entry)` pairs with the most recently written entry
first (the inner scan of the Rust code walks indices `right_pos-1, ..., 0`,
which is exactly the order of this list), and the sentinel as `Option.none`.
-/

/-- One `chain` entry: `(len, left_pos, previous_right_pos)`. -/
structure ChainEntry where
  clen : Nat
  cleft : Nat
  cprev : Option Nat
deriving DecidableEq, Repr

/-- The inner loop of `find_lcs`: scan previously written chain entries
(most recent first), tracking `longest_from_here` and
`previous_right_pos`; on finding a chain longer than `global_longest` the
Rust code updates the global state and breaks, which we signal with the
`Bool` component of the result. -/
def lcsScan (leftPos gLongest : Nat) :
    List (Nat × ChainEntry) → Nat → Option Nat → Nat × Option Nat × Bool
  | [], lfh, prp => (lfh, prp, false)
  | (i, e) :: rest, lfh, prp =>
    if e.cleft < leftPos then
      let len := e.clen + 1
      if lfh < len then
        if gLongest < len then (len, some i, true)
        else lcsScan leftPos gLongest rest len (some i)
      else lcsScan leftPos gLongest rest lfh prp
    else lcsScan leftPos gLongest rest lfh prp

/-- The outer loop of `find_lcs`: fills the chain (kept newest-first) and
tracks `global_longest` / `global_longest_right_pos`. -/
def lcsOuter : List Nat → Nat → List (Nat × ChainEntry) → Nat → Nat →
    List (Nat × ChainEntry) × Nat
  | [], _, chainRev, _, gPos => (chainRev, gPos)
  | leftPos :: rest, rightPos, chainRev, gLongest, gPos =>
    match lcsScan leftPos gLongest chainRev 1 none with
    | (lfh, prp, updated) =>
      lcsOuter rest (rightPos + 1) ((rightPos, ⟨lfh, leftPos, prp⟩) :: chainRev)
        (if updated then lfh else gLongest) (if updated then rightPos else gPos)

/-- `chain[i]` lookup in the newest-first chain list. -/
def chainLookup (chain : List (Nat × ChainEntry)) (i : Nat) : Option ChainEntry :=
  (chain.find? (fun p => p.1 == i)).map (·.2)

/-- The backtracking loop at the end of `find_lcs`.  The Rust loop pushes
`(left_pos, right_pos)` pairs and reverses at the end; prepending to an
accumulator produces the same (earliest-first) order.  The loop follows
strictly decreasing `previous_right_pos` links, so `fuel := chain.length`
is always enough; the fuel-exhaustion branch is unreachable. -/
def lcsBacktrack (chain : List (Nat × ChainEntry)) :
    Nat → Nat → List (Nat × Nat) → List (Nat × Nat)
  | 0, _, acc => acc
  | fuel + 1, rightPos, acc =>
    match chainLookup chain rightPos with
    | none => acc
    | some e =>
      match e.cprev with
      | none => (e.cleft, rightPos) :: acc
      | some p => lcsBacktrack chain fuel p ((e.cleft, rightPos) :: acc)

/-- `find_lcs` (`diff.rs:374`): given `input` where `input[i]` is the left
position of right element `i`, return a longest strictly increasing chain
of `(left_pos, right_pos)` pairs. -/
def findLcs (input : List Nat) : List (Nat × Nat) :=
  match input with
  | [] => []
  | _ :: _ =>
    match lcsOuter input 0 [] 0 0 with
    | (chain, gPos) => lcsBacktrack chain chain.length gPos []

example : findLcs [2, 1, 0] = [(2, 0)] := by decide
example : findLcs [0, 1, 2] = [(0, 0), (1, 1), (2, 2)] := by decide
example : findLcs [0, 1, 4, 2, 3, 5, 6] =
    [(0, 0), (1, 1), (2, 3), (3, 4), (5, 5), (6, 6)] := by decide
example : findLcs [0, 1, 4, 3, 2, 5, 6] =
    [(0, 0), (1, 1), (2, 4), (5, 5), (6, 6)] := by decide
example : findLcs [0, 1, 3, 4, 2, 5, 6] =
    [(0, 0), (1, 1), (3, 2), (4, 3), (5, 5), (6, 6)] := by decide
example : findLcs [0, 4, 2, 9, 6, 5, 1, 3, 7, 8] =
    [(0, 0), (1, 6), (3, 7), (7, 8), (8, 9)] := by decide

/-! ## Composite index ancestry (`src/lib/src/default_index/composite.rs`)

For ancestry queries only the graph data reachable through
`entry_by_pos` matters: the generation number and the parent positions of
each index position.  A composite index over `n` commits is therefore
modelled as the two lookup functions; positions are `Fin n` (Rust panics
on invalid positions, which the dependent index type rules out). -/

/-- Graph view of a `CompositeIndex` over `n` commits. -/
structure IdxModel (n : Nat) where
  gen : Fin n → Nat
  parents : Fin n → List (Fin n)

/-- `a` is an ancestor of `d` (reachable from `d` by repeatedly following
parent edges; every position reaches itself). -/
inductive ReachesTo {n : Nat} (idx : IdxModel n) : Fin n → Fin n → Prop
  | refl (a : Fin n) : ReachesTo idx a a
  | step {d p a : Fin n} : p ∈ idx.parents d → ReachesTo idx p a → ReachesTo idx d a

/-- The work-stack loop of `CompositeIndex::is_ancestor_pos`
(`composite.rs:291`).  The Rust `Vec` pops from its end and `extend`s
parents onto the end; popping from the head of a list after prepending
the reversed parent list visits the same elements in the same order. -/
def isAncestorLoop {n : Nat} (idx : IdxModel n) (ancestorPos : Fin n) :
    List (Fin n) → Finset (Fin n) → Bool
  | [], _ => false
  | d :: work, visited =>
    if d = ancestorPos then true
    else if d ∈ visited then isAncestorLoop idx ancestorPos work visited
    else if idx.gen d ≤ idx.gen ancestorPos then
      isAncestorLoop idx ancestorPos work (insert d visited)
    else
      isAncestorLoop idx ancestorPos ((idx.parents d).reverse ++ work) (insert d visited)
termination_by work visited => (n - visited.card, work.length)
decreasing_by
  · exact Prod.Lex.right _ (Nat.lt_succ_self _)
  · refine Prod.Lex.left _ _ ?_
    have hlt : visited.card < n := by
      have hle : (insert d visited).card ≤ Fintype.card (Fin n) := Finset.card_le_univ _
      have : visited.card + 1 ≤ n := by
        rwa [Finset.card_insert_of_not_mem (by assumption), Fintype.card_fin] at hle
      omega
    have : (insert d visited).card = visited.card + 1 :=
      Finset.card_insert_of_not_mem (by assumption)
    omega
  · refine Prod.Lex.left _ _ ?_
    have hlt : visited.card < n := by
      have hle : (insert d visited).card ≤ Fintype.card (Fin n) := Finset.card_le_univ _
      have : visited.card + 1 ≤ n := by
        rwa [Finset.card_insert_of_not_mem (by assumption), Fintype.card_fin] at hle
      omega
    have : (insert d visited).card = visited.card + 1 :=
      Finset.card_insert_of_not_mem (by assumption)
    omega

/-- `CompositeIndex::is_ancestor_pos(ancestor_pos, descendant_pos)`. -/
def isAncestorPos {n : Nat} (idx : IdxModel n) (ancestorPos descendantPos : Fin n) : Bool :=
  isAncestorLoop idx ancestorPos [descendantPos] ∅

/-- If the generation number strictly decreases along parent edges and `a`
is reachable from `d` by at least one edge, then `gen a < gen d`. -/
theorem ReachesTo.gen_lt {n : Nat} {idx : IdxModel n}
    (hgen : ∀ x p, p ∈ idx.parents x → idx.gen p < idx.gen x) :
    ∀ {d a : Fin n}, ReachesTo idx d a → d ≠ a → idx.gen a < idx.gen d := by
  intro d a h
  induction h with
  | refl a => intro hne; exact absurd rfl hne
  | @step d p a hp hr ih =>
    intro _
    rcases eq_or_ne p a with heq | hne
    · exact heq ▸ hgen _ _ hp
    · exact lt_trans (ih hne) (hgen _ _ hp)

/-- Soundness of the work-stack loop: a `true` answer means some stacked
position reaches the ancestor. -/
theorem isAncestorLoop_sound {n : Nat} (idx : IdxModel n) (a : Fin n) :
    ∀ work visited, isAncestorLoop idx a work visited = true →
      ∃ w ∈ work, ReachesTo idx w a := by
  intro work visited
  induction work, visited using isAncestorLoop.induct idx a with
  | case1 visited => intro h; simp [isAncestorLoop] at h
  | case2 work visited =>
    intro _; exact ⟨a, List.mem_cons_self .., ReachesTo.refl a⟩
  | case3 d work visited hda hv ih =>
    intro h
    rw [isAncestorLoop, if_neg hda, if_pos hv] at h
    obtain ⟨w, hw, hr⟩ := ih h
    exact ⟨w, List.mem_cons_of_mem _ hw, hr⟩
  | case4 d work visited hda hv hgen ih =>
    intro h
    rw [isAncestorLoop, if_neg hda, if_neg hv, if_pos hgen] at h
    obtain ⟨w, hw, hr⟩ := ih h
    exact ⟨w, List.mem_cons_of_mem _ hw, hr⟩
  | case5 d work visited hda hv hgen ih =>
    intro h
    rw [isAncestorLoop, if_neg hda, if_neg hv, if_neg hgen] at h
    obtain ⟨w, hw, hr⟩ := ih h
    rcases List.mem_append.mp hw with hw | hw
    · exact ⟨d, List.mem_cons_self ..,
        ReachesTo.step (List.mem_reverse.mp hw) hr⟩
    · exact ⟨w, List.mem_cons_of_mem _ hw, hr⟩

/-- Invariant of the work-stack loop: the target was never visited, and a
visited position was either pruned by generation number or has all its
parents scheduled or visited. -/
def LoopInv {n : Nat} (idx : IdxModel n) (a : Fin n)
    (work : List (Fin n)) (visited : Finset (Fin n)) : Prop :=
  a ∉ visited ∧
    ∀ v ∈ visited, idx.gen v ≤ idx.gen a ∨
      ∀ p ∈ idx.parents v, p ∈ visited ∨ p ∈ work

/-- When the loop has drained its stack, no visited position reaches the
ancestor (it would have been found). -/
theorem loopInv_closed {n : Nat} {idx : IdxModel n} {a : Fin n}
    (hgen : ∀ x p, p ∈ idx.parents x → idx.gen p < idx.gen x)
    {visited : Finset (Fin n)}
    (hinv : LoopInv idx a [] visited) :
    ∀ v ∈ visited, ¬ ReachesTo idx v a := by
  intro v hv
  generalize hgv : idx.gen v = g
  revert v
  induction g using Nat.strong_induction_on with
  | _ g ih =>
    intro v hv hgv hr
    have hva : v ≠ a := fun h => hinv.1 (h ▸ hv)
    rcases hinv.2 v hv with hle | hpar
    · exact absurd (ReachesTo.gen_lt hgen hr hva) (not_lt.mpr (hgv ▸ hle))
    · cases hr with
      | refl => exact hva rfl
      | step hp hr' =>
        rcases hpar _ hp with hpv | hpw
        · exact ih _ (hgv ▸ hgen _ _ hp) _ hpv rfl hr'
        · simp at hpw

/-- Completeness of the work-stack loop: under the loop invariant, a
`false` answer means no scheduled or visited position reaches the
ancestor. -/
theorem isAncestorLoop_complete {n : Nat} (idx : IdxModel n) (a : Fin n)
    (hgen : ∀ x p, p ∈ idx.parents x → idx.gen p < idx.gen x) :
    ∀ work visited, isAncestorLoop idx a work visited = false →
      LoopInv idx a work visited →
      ∀ w, (w ∈ work ∨ w ∈ visited) → ¬ ReachesTo idx w a := by
  intro work visited
  induction work, visited using isAncestorLoop.induct idx a with
  | case1 visited =>
    intro _ hinv w hw
    rcases hw with hw | hw
    · simp at hw
    · exact loopInv_closed hgen hinv w hw
  | case2 work visited =>
    intro h
    rw [isAncestorLoop, if_pos rfl] at h
    exact absurd h (by simp)
  | case3 d work visited hda hv ih =>
    intro h hinv w hw
    rw [isAncestorLoop, if_neg hda, if_pos hv] at h
    have hinv' : LoopInv idx a work visited := by
      refine ⟨hinv.1, fun v hvv => ?_⟩
      rcases hinv.2 v hvv with hle | hpar
      · exact Or.inl hle
      · refine Or.inr fun p hp => ?_
        rcases hpar p hp with hpv | hpw
        · exact Or.inl hpv
        · rcases List.mem_cons.mp hpw with rfl | hpw
          · exact Or.inl hv
          · exact Or.inr hpw
    refine ih h hinv' w ?_
    rcases hw with hw | hw
    · rcases List.mem_cons.mp hw with rfl | hw
      · exact Or.inr hv
      · exact Or.inl hw
    · exact Or.inr hw
  | case4 d work visited hda hv hgle ih =>
    intro h hinv w hw
    rw [isAncestorLoop, if_neg hda, if_neg hv, if_pos hgle] at h
    have hinv' : LoopInv idx a work (insert d visited) := by
      refine ⟨?_, fun v hvv => ?_⟩
      · intro hmem
        rcases Finset.mem_insert.mp hmem with rfl | hmem
        · exact hda rfl
        · exact hinv.1 hmem
      · rcases Finset.mem_insert.mp hvv with rfl | hvv
        · exact Or.inl hgle
        · rcases hinv.2 v hvv with hle | hpar
          · exact Or.inl hle
          · refine Or.inr fun p hp => ?_
            rcases hpar p hp with hpv | hpw
            · exact Or.inl (Finset.mem_insert_of_mem hpv)
            · rcases List.mem_cons.mp hpw with rfl | hpw
              · exact Or.inl (Finset.mem_insert_self _ _)
              · exact Or.inr hpw
    refine ih h hinv' w ?_
    rcases hw with hw | hw
    · rcases List.mem_cons.mp hw with rfl | hw
      · exact Or.inr (Finset.mem_insert_self _ _)
      · exact Or.inl hw
    · exact Or.inr (Finset.mem_insert_of_mem hw)
  | case5 d work visited hda hv hgle ih =>
    intro h hinv w hw
    rw [isAncestorLoop, if_neg hda, if_neg hv, if_neg hgle] at h
    have hinv' : LoopInv idx a ((idx.parents d).reverse ++ work) (insert d visited) := by
      refine ⟨?_, fun v hvv => ?_⟩
      · intro hmem
        rcases Finset.mem_insert.mp hmem with rfl | hmem
        · exact hda rfl
        · exact hinv.1 hmem
      · rcases Finset.mem_insert.mp hvv with rfl | hvv
        · refine Or.inr fun p hp => Or.inr ?_
          exact List.mem_append.mpr (Or.inl (List.mem_reverse.mpr hp))
        · rcases hinv.2 v hvv with hle | hpar
          · exact Or.inl hle
          · refine Or.inr fun p hp => ?_
            rcases hpar p hp with hpv | hpw
            · exact Or.inl (Finset.mem_insert_of_mem hpv)
            · rcases List.mem_cons.mp hpw with rfl | hpw
              · exact Or.inl (Finset.mem_insert_self _ _)
              · exact Or.inr (List.mem_append.mpr (Or.inr hpw))
    refine ih h hinv' w ?_
    rcases hw with hw | hw
    · rcases List.mem_cons.mp hw with rfl | hw
      · exact Or.inr (Finset.mem_insert_self _ _)
      · exact Or.inl (List.mem_append.mpr (Or.inr hw))
    · exact Or.inr (Finset.mem_insert_of_mem hw)

/-- Claim C5: assuming the generation-number invariant (generation
strictly decreases along every parent edge, as implied by
`generation = 1 + max over parents`), `is_ancestor_pos(a, d)` returns
`true` if and only if `a` is reachable from `d` by repeatedly following
parent edges (every position being reachable from itself). -/
theorem claim_C5_is_ancestor_pos {n : Nat} (idx : IdxModel n) (a d : Fin n)
    (hgen : ∀ x p, p ∈ idx.parents x → idx.gen p < idx.gen x) :
    isAncestorPos idx a d = true ↔ ReachesTo idx d a := by
  constructor
  · intro h
    obtain ⟨w, hw, hr⟩ := isAncestorLoop_sound idx a [d] ∅ h
    simp only [List.mem_singleton] at hw
    exact hw ▸ hr
  · intro hr
    by_contra hne
    have hfalse : isAncestorLoop idx a [d] ∅ = false :=
      Bool.not_eq_true _ ▸ hne
    exact isAncestorLoop_complete idx a hgen [d] ∅ hfalse
      ⟨Finset.not_mem_empty a, by simp⟩ d (Or.inl (List.mem_singleton.mpr rfl)) hr

/-- Test graph from the spec's scenario: commits `A,B,C,D` at positions
`0,1,2,3` with generations `1,2,2,3`, `D`'s parents `B,C`, and `B`, `C`
both children of `A`. -/
def idx4 : IdxModel 4 where
  gen := ![1, 2, 2, 3]
  parents := ![[], [0], [0], [1, 2]]

/-- Witness for C5 at a concrete index. -/
theorem claim_C5_witness :
    isAncestorPos idx4 0 3 = true ↔ ReachesTo idx4 3 0 :=
  claim_C5_is_ancestor_pos idx4 0 3 (by decide)

/-! ## Commit builder (`src/lib/src/commit_builder.rs`)

Identifiers are opaque byte strings, modelled as lists of naturals.  The
backend store is content addressed: `write_to_store` is modelled as an
abstract id assignment `idOf : BCommit → CommitId` (signing only munges
the stored bytes and never fails in a way relevant to the claims, so it
is not modelled).  The `MutableRepo` collaborator (`repo.rs` is not part
of the sources; its operations `add_head`, `set_predecessors`,
`set_rewritten_commit`, `record_abandoned_commit_with_parents` and the
index query `has_id` are modelled from the spec, section 6, as bookkeeping
on explicit state). -/

abbrev CommitId := List Nat
abbrev ChangeId := List Nat
abbrev TreeId := Nat

/-- `backend::Signature`. -/
structure SignatureM where
  sname : String
  semail : String
  stimestamp : Int
deriving DecidableEq, Repr

/-- `backend::Commit`: the fields staged by the builder (the secure
signature is cleared by `write_to_store` and not modelled). -/
structure BCommit where
  parents : List CommitId
  predecessors : List CommitId
  rootTree : TreeId
  changeId : ChangeId
  description : String
  author : SignatureM
  committer : SignatureM
deriving DecidableEq, Repr

/-- `commit::Commit`: an id together with the stored data. -/
structure CommitM where
  cid : CommitId
  cdata : BCommit
deriving DecidableEq, Repr

/-- Modelled from the spec: `MutableRepo` bookkeeping state touched by
`DetachedCommitBuilder::write`/`abandon` (spec section 6 lists
`add_head`, `set_predecessors`, `set_rewritten_commit`,
`record_abandoned_commit_with_parents` as the collaborator operations;
`repo.rs` itself is not among the sources). -/
structure RepoM where
  backedByDefaultIndex : Bool
  indexIds : List CommitId
  headIds : List CommitId
  predsMap : List (CommitId × List CommitId)
  rewrittenMap : List (CommitId × CommitId)
  abandonedMap : List (CommitId × List CommitId)
deriving DecidableEq, Repr

/-- Modelled from the spec: `mut_repo.index().has_id(id)` for a repo
backed by the default index: membership in the indexed commit ids. -/
def RepoM.hasId (repo : RepoM) (cid : CommitId) : Bool := repo.indexIds.contains cid

/-- Modelled from the spec: `add_head` makes the new commit visible (and
indexed). -/
def RepoM.addHead (repo : RepoM) (c : CommitM) : RepoM :=
  { repo with headIds := repo.headIds ++ [c.cid], indexIds := repo.indexIds ++ [c.cid] }

/-- Modelled from the spec: `set_predecessors` records the predecessor
mapping of a newly written commit. -/
def RepoM.setPredecessors (repo : RepoM) (cid : CommitId) (preds : List CommitId) : RepoM :=
  { repo with predsMap := repo.predsMap ++ [(cid, preds)] }

/-- Modelled from the spec: `set_rewritten_commit`. -/
def RepoM.setRewrittenCommit (repo : RepoM) (old new : CommitId) : RepoM :=
  { repo with rewrittenMap := repo.rewrittenMap ++ [(old, new)] }

/-- Modelled from the spec: `record_abandoned_commit_with_parents`. -/
def RepoM.recordAbandonedCommitWithParents (repo : RepoM) (old : CommitId)
    (parents : List CommitId) : RepoM :=
  { repo with abandonedMap := repo.abandonedMap ++ [(old, parents)] }

/-- `DetachedCommitBuilder` (the `store`, `rng` and `sign_settings` fields
are not modelled: the rng is passed in as the concrete generated change id
where needed, and signing does not affect the claims). -/
structure DCBM where
  commit : BCommit
  rewriteSource : Option CommitM
deriving DecidableEq, Repr

/-- `UserSettings::USER_NAME_PLACEHOLDER` (value from upstream jj; the
settings module is not among the sources). -/
def userNamePlaceholder : String := "(no name configured)"

/-- `UserSettings::USER_EMAIL_PLACEHOLDER`. -/
def userEmailPlaceholder : String := "(no email configured)"

/-- `DetachedCommitBuilder::for_new_commit` (`commit_builder.rs:171`):
`newChangeId` stands for `rng.new_change_id(..)` and `sig` for
`settings.signature()`. -/
def DCBM.forNewCommit (newChangeId : ChangeId) (sig : SignatureM)
    (parents : List CommitId) (treeId : TreeId) : DCBM :=
  { commit :=
      { parents := parents
        predecessors := []
        rootTree := treeId
        changeId := newChangeId
        description := ""
        author := sig
        committer := sig }
    rewriteSource := none }

/-- `DetachedCommitBuilder::for_rewrite_from` (`commit_builder.rs:203`):
`sig` is `settings.signature()`, and `predecessorIsDiscardable` stands for
`predecessor.is_discardable(repo).unwrap_or_default()` (a backend query). -/
def DCBM.forRewriteFrom (sig : SignatureM) (predecessorIsDiscardable : Bool)
    (predecessor : CommitM) : DCBM :=
  let c0 := predecessor.cdata
  let c1 := { c0 with predecessors := [predecessor.cid], committer := sig }
  let authorName :=
    if c1.author.sname = "" ∨ c1.author.sname = userNamePlaceholder then
      c1.committer.sname
    else c1.author.sname
  let authorEmail :=
    if c1.author.semail = "" ∨ c1.author.semail = userEmailPlaceholder then
      c1.committer.semail
    else c1.author.semail
  let c2 := { c1 with author := { c1.author with sname := authorName, semail := authorEmail } }
  let c3 :=
    if c2.author.sname = c2.committer.sname ∧ c2.author.semail = c2.committer.semail ∧
        predecessorIsDiscardable then
      { c2 with author := { c2.author with stimestamp := c2.committer.stimestamp } }
    else c2
  { commit := c3, rewriteSource := some predecessor }

/-- Builder mutations applied between construction and
`write()`/`abandon()` (each models the corresponding `set_*` method of
`DetachedCommitBuilder`; `genNewChangeId` carries the id produced by the
rng). -/
inductive BOp
  | setParents (ps : List CommitId)
  | setPredecessors (ps : List CommitId)
  | setTreeId (t : TreeId)
  | setChangeId (c : ChangeId)
  | genNewChangeId (c : ChangeId)
  | setDescription (s : String)
  | setAuthor (a : SignatureM)
  | setCommitter (a : SignatureM)
deriving DecidableEq, Repr

/-- Applies one builder mutation. -/
def DCBM.applyBOp (b : DCBM) : BOp → DCBM
  | .setParents ps => { b with commit := { b.commit with parents := ps } }
  | .setPredecessors ps => { b with commit := { b.commit with predecessors := ps } }
  | .setTreeId t => { b with commit := { b.commit with rootTree := t } }
  | .setChangeId c => { b with commit := { b.commit with changeId := c } }
  | .genNewChangeId c => { b with commit := { b.commit with changeId := c } }
  | .setDescription s => { b with commit := { b.commit with description := s } }
  | .setAuthor a => { b with commit := { b.commit with author := a } }
  | .setCommitter a => { b with commit := { b.commit with committer := a } }

/-- Applies a sequence of builder mutations. -/
def DCBM.applyBOps (b : DCBM) : List BOp → DCBM
  | [] => b
  | op :: ops => (b.applyBOp op).applyBOps ops

/-- `DetachedCommitBuilder::write` (`commit_builder.rs:352`).  The Rust
method mutates `mut_repo` in place and returns
`BackendResult<Commit>`; the model returns the result together with the
repo state after the call (unchanged on the error path, exactly as in the
source where the guard returns before any bookkeeping). -/
def DCBM.write (idOf : BCommit → CommitId) (b : DCBM) (repo : RepoM) :
    Except String CommitM × RepoM :=
  let commit : CommitM := ⟨idOf b.commit, b.commit⟩
  if repo.backedByDefaultIndex && repo.hasId commit.cid then
    (Except.error "Newly-created commit already exists", repo)
  else
    let repo1 := repo.addHead commit
    let repo2 := repo1.setPredecessors commit.cid b.commit.predecessors
    let repo3 :=
      match b.rewriteSource with
      | some rs =>
        if rs.cdata.changeId = commit.cdata.changeId then
          repo2.setRewrittenCommit rs.cid commit.cid
        else repo2
      | none => repo2
    (Except.ok commit, repo3)

/-- `DetachedCommitBuilder::abandon` (`commit_builder.rs:386`), also
reached through `CommitBuilder::abandon`. -/
def DCBM.abandon (b : DCBM) (repo : RepoM) : RepoM :=
  match b.rewriteSource with
  | some rs =>
    if rs.cdata.changeId = b.commit.changeId then
      repo.recordAbandonedCommitWithParents rs.cid b.commit.parents
    else repo
  | none => repo

/-- True on the `Ok` branch of a write result. -/
def isOkE (e : Except String CommitM) : Bool :=
  match e with
  | .ok _ => true
  | .error _ => false

/-- Concrete toy content addressing for the C9 counterexample. -/
def idOfC9 : BCommit → CommitId := fun _ => [7]

/-- Concrete builder for the C9 counterexample. -/
def bC9 : DCBM := DCBM.forNewCommit [1] ⟨"a", "a@b", 0⟩ [[2]] 0

/-- Concrete repo for the C9 counterexample: not backed by the default
index, with the about-to-be-written id already present in its index. -/
def repoC9 : RepoM :=
  { backedByDefaultIndex := false
    indexIds := [[7]]
    headIds := []
    predsMap := []
    rewrittenMap := []
    abandonedMap := [] }

/-- Counterexample to claim C9 as stated: for a repo that is not backed
by the default index, `write` does not error even though the new commit's
id already exists in the repo's index — the duplicate is recorded (the
guard in `commit_builder.rs:356` tests
`is_backed_by_default_index() && index().has_id(..)`). -/
theorem claim_C9_counterexample :
    repoC9.hasId (idOfC9 bC9.commit) = true ∧
      isOkE (DCBM.write idOfC9 bC9 repoC9).1 = true ∧
      (DCBM.write idOfC9 bC9 repoC9).2 ≠ repoC9 := by decide

/-- Claim C9 (amended): for a repo backed by the default index, writing a
commit whose id already exists in the index returns an error and leaves
the repo unchanged (no head added, no predecessor mapping recorded). -/
theorem claim_C9_write_existing_id_errors
    (idOf : BCommit → CommitId) (b : DCBM) (repo : RepoM)
    (hbacked : repo.backedByDefaultIndex = true)
    (hid : repo.hasId (idOf b.commit) = true) :
    isOkE (DCBM.write idOf b repo).1 = false ∧ (DCBM.write idOf b repo).2 = repo := by
  constructor <;> simp [DCBM.write, hbacked, hid, RepoM.hasId, isOkE] <;>
    simp [RepoM.hasId] at hid <;> simp [hid]

/-- Witness for the amended C9 at concrete inputs. -/
theorem claim_C9_witness :
    isOkE (DCBM.write idOfC9 bC9 { repoC9 with backedByDefaultIndex := true }).1 = false ∧
      (DCBM.write idOfC9 bC9 { repoC9 with backedByDefaultIndex := true }).2 =
        { repoC9 with backedByDefaultIndex := true } :=
  claim_C9_write_existing_id_errors idOfC9 bC9 _ (by decide) (by decide)

/-- Builder mutations never touch the `rewrite_source` field. -/
theorem applyBOps_rewriteSource (b : DCBM) (ops : List BOp) :
    (b.applyBOps ops).rewriteSource = b.rewriteSource := by
  induction ops generalizing b with
  | nil => rfl
  | cons op ops ih =>
    rw [DCBM.applyBOps, ih]
    cases op <;> rfl

/-- Claim C10: `abandon` records an abandoned commit only for a builder
created by `for_rewrite_from` whose current change id equals the rewrite
source's change id; a builder created by `for_new_commit` (after any
sequence of setter calls) leaves the repo unchanged, and a rewrite
builder records `record_abandoned_commit_with_parents(source.id,
current parents)` exactly when the change ids agree. -/
theorem claim_C10_abandon :
    (∀ (newChangeId : ChangeId) (sig : SignatureM) (parents : List CommitId)
        (treeId : TreeId) (ops : List BOp) (repo : RepoM),
      ((DCBM.forNewCommit newChangeId sig parents treeId).applyBOps ops).abandon repo
        = repo) ∧
    (∀ (sig : SignatureM) (disc : Bool) (pred : CommitM) (ops : List BOp) (repo : RepoM),
      ((DCBM.forRewriteFrom sig disc pred).applyBOps ops).abandon repo =
        if pred.cdata.changeId
            = ((DCBM.forRewriteFrom sig disc pred).applyBOps ops).commit.changeId then
          repo.recordAbandonedCommitWithParents pred.cid
            ((DCBM.forRewriteFrom sig disc pred).applyBOps ops).commit.parents
        else repo) := by
  constructor
  · intro newChangeId sig parents treeId ops repo
    unfold DCBM.abandon
    rw [applyBOps_rewriteSource]
    rfl
  · intro sig disc pred ops repo
    unfold DCBM.abandon
    rw [applyBOps_rewriteSource]
    rfl

/-- Claim C8: `find_lcs([2,1,0])` returns exactly `[(2, 0)]` — for a
fully-reversed sequence the computed longest common subsequence has
length 1, and the returned pair is (left position 2, right position 0). -/
theorem claim_C8_find_lcs_reversed : findLcs [2, 1, 0] = [(2, 0)] := by decide

/-! ## Commit id prefix resolution (`composite.rs:473`)

`HexPrefix` and the per-segment binary search live in files outside the
given sources (`object_id.rs`, `readonly.rs`), so prefixes and the
per-segment resolution are modelled from the spec: a segment stores a set
of commit ids, and a prefix resolves to `NoMatch` / `SingleMatch` /
`AmbiguousMatch` according to how many stored ids it is a prefix of.
Ids and prefixes are sequences of hex digits, compared digit-wise
(byte-wise comparison of the underlying ids orders exactly like the
digit-wise comparison of their hex expansions). -/

/-- `PrefixResolution<CommitId>`. -/
inductive PfxRes
  | noMatch
  | singleMatch (cid : CommitId)
  | ambiguousMatch
deriving DecidableEq, Repr

/-- Modelled from the spec: `PrefixResolution::plus` (in `object_id.rs`,
not among the sources) — combining matches from two disjoint id sets:
any ambiguity stays ambiguous, and two single matches are ambiguous. -/
def PfxRes.plus : PfxRes → PfxRes → PfxRes
  | .noMatch, b => b
  | a, .noMatch => a
  | .ambiguousMatch, _ => .ambiguousMatch
  | _, .ambiguousMatch => .ambiguousMatch
  | .singleMatch _, .singleMatch _ => .ambiguousMatch

/-- Modelled from the spec: per-segment
`IndexSegment::resolve_commit_id_prefix` — how many of the segment's ids
have the given hex prefix. -/
def segResolveIdPfx (seg : List CommitId) (pfx : List Nat) : PfxRes :=
  match seg.filter (fun cid => pfx.isPrefixOf cid) with
  | [] => .noMatch
  | [cid] => .singleMatch cid
  | _ => .ambiguousMatch

/-- `CompositeIndex::resolve_commit_id_prefix` (`composite.rs:473`): fold
segment results with `plus`, short-circuiting once ambiguous. -/
def resolveCommitIdPfx (segs : List (List CommitId)) (pfx : List Nat) : PfxRes :=
  segs.foldl
    (fun acc seg =>
      if acc = PfxRes.ambiguousMatch then acc else acc.plus (segResolveIdPfx seg pfx))
    PfxRes.noMatch

/-- The resolve fold never leaves the ambiguous state. -/
theorem resolveFold_amb (segs : List (List CommitId)) (pfx : List Nat) :
    segs.foldl
      (fun acc seg =>
        if acc = PfxRes.ambiguousMatch then acc else acc.plus (segResolveIdPfx seg pfx))
      PfxRes.ambiguousMatch = PfxRes.ambiguousMatch := by
  induction segs with
  | nil => rfl
  | cons s segs ih => simpa using ih

/-- Starting the resolve fold from a single match can only return that
same single match (or not a single match at all). -/
theorem resolveFold_from_single (segs : List (List CommitId)) (pfx : List Nat) :
    ∀ j k, segs.foldl
      (fun acc seg =>
        if acc = PfxRes.ambiguousMatch then acc else acc.plus (segResolveIdPfx seg pfx))
      (PfxRes.singleMatch j) = PfxRes.singleMatch k → k = j := by
  induction segs with
  | nil => intro j k h; cases h; rfl
  | cons s segs ih =>
    intro j k h
    rw [List.foldl_cons] at h
    simp only [reduceCtorEq, if_false] at h
    cases hseg : segResolveIdPfx s pfx with
    | noMatch => rw [hseg] at h; exact ih j k h
    | singleMatch m =>
      rw [hseg] at h
      rw [show (PfxRes.singleMatch j).plus (PfxRes.singleMatch m) = PfxRes.ambiguousMatch
        from rfl] at h
      exact absurd (resolveFold_amb segs pfx ▸ h) (by simp)
    | ambiguousMatch =>
      rw [hseg] at h
      rw [show (PfxRes.singleMatch j).plus PfxRes.ambiguousMatch = PfxRes.ambiguousMatch
        from rfl] at h
      exact absurd (resolveFold_amb segs pfx ▸ h) (by simp)

/-- Filtering a segment by a longer prefix: a no-match segment stays a
no-match. -/
theorem segResolve_noMatch_mono {seg : List CommitId} {p p' : List Nat}
    (hpp : p.isPrefixOf p' = true)
    (h : segResolveIdPfx seg p = PfxRes.noMatch) :
    segResolveIdPfx seg p' = PfxRes.noMatch := by
  unfold segResolveIdPfx at h ⊢
  have hmono : (seg.filter (fun cid => p'.isPrefixOf cid)).Sublist
      (seg.filter (fun cid => p.isPrefixOf cid)) := by
    refine List.monotone_filter_right seg (fun cid hc => ?_)
    rw [List.isPrefixOf_iff_prefix] at hpp hc ⊢
    exact hpp.trans hc
  rcases hfilter : seg.filter (fun cid => p.isPrefixOf cid) with _ | ⟨x, xs⟩
  · rw [hfilter, List.sublist_nil] at hmono
    rw [hmono]
  · rw [hfilter] at h
    cases xs <;> simp at h

/-- Filtering a segment by a longer prefix of the same single match: the
single match is preserved. -/
theorem segResolve_single_mono {seg : List CommitId} {p p' : List Nat} {cid : CommitId}
    (hpp : p.isPrefixOf p' = true) (hpid : p'.isPrefixOf cid = true)
    (h : segResolveIdPfx seg p = PfxRes.singleMatch cid) :
    segResolveIdPfx seg p' = PfxRes.singleMatch cid := by
  unfold segResolveIdPfx at h ⊢
  have hmono : (seg.filter (fun c => p'.isPrefixOf c)).Sublist
      (seg.filter (fun c => p.isPrefixOf c)) := by
    refine List.monotone_filter_right seg (fun c hc => ?_)
    rw [List.isPrefixOf_iff_prefix] at hpp hc ⊢
    exact hpp.trans hc
  rcases hfilter : seg.filter (fun c => p.isPrefixOf c) with _ | ⟨x, xs⟩
  · rw [hfilter] at h; simp at h
  · rw [hfilter] at h
    rcases xs with _ | _
    · -- the single p-filter element is cid
      have hx : x = cid := by
        simpa using h
      subst hx
      have hmem : x ∈ seg := by
        have := List.filter_sublist (p := fun c => p.isPrefixOf c) seg
        exact this.mem (hfilter ▸ List.mem_singleton_self x)
      have hmem' : x ∈ seg.filter (fun c => p'.isPrefixOf c) :=
        List.mem_filter.mpr ⟨hmem, hpid⟩
      rw [hfilter] at hmono
      rcases List.sublist_singleton.mp hmono with hnil | hone
      · rw [hnil] at hmem'; simp at hmem'
      · rw [hone]
    · simp at h

/-- Claim C6: if `resolve_commit_id_prefix(p)` returns `SingleMatch id`,
then for every longer prefix `p'` extending `p` that is still a prefix of
that id, `resolve_commit_id_prefix(p')` returns `SingleMatch id` or
`NoMatch` — never a single match of a different id.  (The proof shows the
stronger fact that the result stays exactly `SingleMatch id`.) -/
theorem claim_C6_prefix_monotone (segs : List (List CommitId)) (p p' : List Nat)
    (cid : CommitId)
    (hpp : p.isPrefixOf p' = true) (hpid : p'.isPrefixOf cid = true)
    (h : resolveCommitIdPfx segs p = PfxRes.singleMatch cid) :
    resolveCommitIdPfx segs p' = PfxRes.singleMatch cid ∨
      resolveCommitIdPfx segs p' = PfxRes.noMatch := by
  left
  unfold resolveCommitIdPfx at h ⊢
  -- generalized over the accumulator relation
  suffices hgen : ∀ segs (acc acc' : PfxRes),
      (acc = PfxRes.noMatch ∧ acc' = PfxRes.noMatch) ∨
        (acc = PfxRes.singleMatch cid ∧ acc' = PfxRes.singleMatch cid) →
      List.foldl
        (fun acc seg =>
          if acc = PfxRes.ambiguousMatch then acc else acc.plus (segResolveIdPfx seg p))
        acc segs = PfxRes.singleMatch cid →
      List.foldl
        (fun acc seg =>
          if acc = PfxRes.ambiguousMatch then acc else acc.plus (segResolveIdPfx seg p'))
        acc' segs = PfxRes.singleMatch cid by
    exact hgen segs PfxRes.noMatch PfxRes.noMatch (Or.inl ⟨rfl, rfl⟩) h
  intro segs
  induction segs with
  | nil =>
    intro acc acc' hrel h
    rcases hrel with ⟨ha, ha'⟩ | ⟨ha, ha'⟩
    · rw [ha] at h; cases h
    · rw [ha'] ; rw [ha] at h; exact h
  | cons s segs ih =>
    intro acc acc' hrel h
    rw [List.foldl_cons] at h ⊢
    rcases hrel with ⟨ha, ha'⟩ | ⟨ha, ha'⟩
    · subst ha; subst ha'
      simp only [reduceCtorEq, if_false] at h ⊢
      cases hseg : segResolveIdPfx s p with
      | noMatch =>
        rw [hseg] at h
        rw [segResolve_noMatch_mono hpp hseg]
        exact ih _ _ (Or.inl ⟨rfl, rfl⟩) h
      | singleMatch j =>
        rw [hseg] at h
        obtain rfl := resolveFold_from_single segs p j cid h
        rw [segResolve_single_mono hpp hpid hseg]
        exact ih _ _ (Or.inr ⟨rfl, rfl⟩) h
      | ambiguousMatch =>
        rw [hseg] at h
        rw [show PfxRes.noMatch.plus PfxRes.ambiguousMatch = PfxRes.ambiguousMatch from rfl]
          at h
        exact absurd (resolveFold_amb segs p ▸ h) (by simp)
    · subst ha; subst ha'
      simp only [reduceCtorEq, if_false] at h ⊢
      cases hseg : segResolveIdPfx s p with
      | noMatch =>
        rw [hseg] at h
        rw [segResolve_noMatch_mono hpp hseg]
        exact ih _ _ (Or.inr ⟨rfl, rfl⟩) h
      | singleMatch j =>
        rw [hseg] at h
        rw [show (PfxRes.singleMatch cid).plus (PfxRes.singleMatch j)
          = PfxRes.ambiguousMatch from rfl] at h
        exact absurd (resolveFold_amb segs p ▸ h) (by simp)
      | ambiguousMatch =>
        rw [hseg] at h
        rw [show (PfxRes.singleMatch cid).plus PfxRes.ambiguousMatch
          = PfxRes.ambiguousMatch from rfl] at h
        exact absurd (resolveFold_amb segs p ▸ h) (by simp)

/-- Witness for C6 at a concrete two-segment index. -/
theorem claim_C6_witness :
    resolveCommitIdPfx [[[1, 2, 3], [4, 5]], [[4, 7]]] [1] = PfxRes.singleMatch [1, 2, 3] ∨
      resolveCommitIdPfx [[[1, 2, 3], [4, 5]], [[4, 7]]] [1] = PfxRes.noMatch :=
  claim_C6_prefix_monotone [[[1, 2, 3], [4, 5]], [[4, 7]]] [1] [1] [1, 2, 3]
    (by decide) (by decide) (by decide)

/-! ## Shortest unique commit id prefix (`composite.rs:465` and `:212`)

`hex_util::common_hex_len` and the per-segment neighbor search
(`readonly.rs`) are outside the given sources and are modelled from the
spec: a segment, asked for the neighbors of `id`, returns the largest
stored id below `id` and the smallest stored id above `id` (lexicographic
order).  Ids are again sequences of hex digits with the lexicographic
`LinearOrder` on `List Nat`. -/

/-- `acc.into_iter().chain(other).max()` on two optional ids. -/
def optMaxId : Option CommitId → Option CommitId → Option CommitId
  | none, b => b
  | some a, none => some a
  | some a, some b => some (max a b)

/-- `acc.into_iter().chain(other).min()` on two optional ids. -/
def optMinId : Option CommitId → Option CommitId → Option CommitId
  | none, b => b
  | some a, none => some a
  | some a, some b => some (min a b)

/-- Componentwise merge of `(prev, next)` neighbor candidates: the body
of the `reduce` in `composite.rs:218`. -/
def mergePN (a b : Option CommitId × Option CommitId) :
    Option CommitId × Option CommitId :=
  (optMaxId a.1 b.1, optMinId a.2 b.2)

/-- Maximum element of a list of ids, `none` when empty. -/
def listMaxId : List CommitId → Option CommitId
  | [] => none
  | x :: xs =>
    match listMaxId xs with
    | none => some x
    | some m => some (max x m)

/-- Minimum element of a list of ids, `none` when empty. -/
def listMinId : List CommitId → Option CommitId
  | [] => none
  | x :: xs =>
    match listMinId xs with
    | none => some x
    | some m => some (min x m)

/-- Modelled from the spec: per-segment
`IndexSegment::resolve_neighbor_commit_ids` — the stored ids immediately
below and above `id` in lexicographic order. -/
def segNeighborIds (seg : List CommitId) (cid : CommitId) :
    Option CommitId × Option CommitId :=
  (listMaxId (seg.filter (fun x => decide (x < cid))),
    listMinId (seg.filter (fun x => decide (cid < x))))

/-- `CompositeIndex::resolve_neighbor_commit_ids` (`composite.rs:212`):
per-segment neighbors reduced with (max of previous candidates, min of
next candidates).  The Rust `reduce(..).unwrap()` requires at least one
segment; an empty segment list returns `(none, none)` here (unreachable:
a composite index always has at least one segment). -/
def resolveNeighborCommitIds (segs : List (List CommitId)) (cid : CommitId) :
    Option CommitId × Option CommitId :=
  match segs.map (fun s => segNeighborIds s cid) with
  | [] => (none, none)
  | r :: rs => rs.foldl mergePN r

/-- Modelled from the spec: `hex_util::common_hex_len` — the number of
common leading hex digits of two ids. -/
def commonHexLen : List Nat → List Nat → Nat
  | a :: as, b :: bs => if a = b then commonHexLen as bs + 1 else 0
  | _, _ => 0

/-- `<&CompositeIndex as Index>::shortest_unique_commit_id_prefix_len`
(`composite.rs:465`): `max` over the existing neighbors of
`common_hex_len + 1`, or `0` with no neighbor. -/
def shortestUniqueCommitIdPfxLen (segs : List (List CommitId)) (cid : CommitId) : Nat :=
  match resolveNeighborCommitIds segs cid with
  | (prevId, nextId) =>
    ((prevId.toList ++ nextId.toList).map (fun x => commonHexLen cid x + 1)).foldr max 0

/-- `optMaxId` is associative. -/
theorem optMaxId_assoc (a b c : Option CommitId) :
    optMaxId (optMaxId a b) c = optMaxId a (optMaxId b c) := by
  cases a <;> cases b <;> cases c <;> simp [optMaxId, max_assoc]

/-- `optMinId` is associative. -/
theorem optMinId_assoc (a b c : Option CommitId) :
    optMinId (optMinId a b) c = optMinId a (optMinId b c) := by
  cases a <;> cases b <;> cases c <;> simp [optMinId, min_assoc]

/-- `mergePN` is associative. -/
theorem mergePN_assoc (a b c : Option CommitId × Option CommitId) :
    mergePN (mergePN a b) c = mergePN a (mergePN b c) := by
  unfold mergePN
  rw [optMaxId_assoc, optMinId_assoc]

/-- Folding `mergePN` from a merged accumulator peels off the first
argument. -/
theorem foldl_mergePN_cons (ms : List (Option CommitId × Option CommitId)) :
    ∀ r m, ms.foldl mergePN (mergePN r m) = mergePN r (ms.foldl mergePN m) := by
  induction ms with
  | nil => intro r m; rfl
  | cons m2 ms ih =>
    intro r m
    rw [List.foldl_cons, List.foldl_cons, mergePN_assoc, ih]

/-- `listMaxId` distributes over append through `optMaxId`. -/
theorem listMaxId_append (a b : List CommitId) :
    listMaxId (a ++ b) = optMaxId (listMaxId a) (listMaxId b) := by
  induction a with
  | nil => rw [List.nil_append]; cases hb : listMaxId b <;> rfl
  | cons x xs ih =>
    rw [List.cons_append, listMaxId, ih, listMaxId]
    cases hxs : listMaxId xs with
    | none => cases hb : listMaxId b <;> rfl
    | some mx =>
      cases hb : listMaxId b with
      | none => rfl
      | some mb =>
        show (some (max x (max mx mb)) : Option CommitId) = some (max (max x mx) mb)
        rw [max_assoc]

/-- `listMinId` distributes over append through `optMinId`. -/
theorem listMinId_append (a b : List CommitId) :
    listMinId (a ++ b) = optMinId (listMinId a) (listMinId b) := by
  induction a with
  | nil => rw [List.nil_append]; cases hb : listMinId b <;> rfl
  | cons x xs ih =>
    rw [List.cons_append, listMinId, ih, listMinId]
    cases hxs : listMinId xs with
    | none => cases hb : listMinId b <;> rfl
    | some mx =>
      cases hb : listMinId b with
      | none => rfl
      | some mb =>
        show (some (min x (min mx mb)) : Option CommitId) = some (min (min x mx) mb)
        rw [min_assoc]

/-- Per-segment neighbor resolution distributes over segment
concatenation. -/
theorem segNeighborIds_append (a b : List CommitId) (cid : CommitId) :
    segNeighborIds (a ++ b) cid = mergePN (segNeighborIds a cid) (segNeighborIds b cid) := by
  unfold segNeighborIds mergePN
  rw [List.filter_append, List.filter_append, listMaxId_append, listMinId_append]

/-- The per-segment reduce of `resolve_neighbor_commit_ids` computes the
neighbors within the whole (flattened) id set. -/
theorem resolveNeighborCommitIds_flatten (segs : List (List CommitId)) (cid : CommitId)
    (hne : segs ≠ []) :
    resolveNeighborCommitIds segs cid = segNeighborIds segs.flatten cid := by
  induction segs with
  | nil => exact absurd rfl hne
  | cons s segs ih =>
    rcases hsegs : segs with _ | ⟨s2, rest⟩
    · subst hsegs
      show segNeighborIds s cid = segNeighborIds (s ++ []) cid
      rw [List.append_nil]
    · subst hsegs
      have hstep : resolveNeighborCommitIds (s :: s2 :: rest) cid =
          mergePN (segNeighborIds s cid) (resolveNeighborCommitIds (s2 :: rest) cid) := by
        show List.foldl mergePN (segNeighborIds s cid)
            (segNeighborIds s2 cid :: rest.map (fun seg => segNeighborIds seg cid)) =
          mergePN (segNeighborIds s cid)
            (List.foldl mergePN (segNeighborIds s2 cid)
              (rest.map (fun seg => segNeighborIds seg cid)))
        rw [List.foldl_cons]
        exact foldl_mergePN_cons _ _ _
      rw [hstep, ih (by simp)]
      show _ = segNeighborIds (s ++ (s2 :: rest).flatten) cid
      rw [segNeighborIds_append]

/-- Specification of `listMaxId`: a returned maximum is a member and an
upper bound. -/
theorem listMaxId_spec (l : List CommitId) (m : CommitId) (h : listMaxId l = some m) :
    m ∈ l ∧ ∀ x ∈ l, x ≤ m := by
  induction l generalizing m with
  | nil => cases h
  | cons x xs ih =>
    rw [listMaxId] at h
    cases hxs : listMaxId xs with
    | none =>
      rw [hxs] at h
      obtain rfl : x = m := by cases h; rfl
      constructor
      · exact List.mem_cons_self ..
      · intro y hy
        rcases List.mem_cons.mp hy with rfl | hy
        · exact le_rfl
        · cases xs with
          | nil => simp at hy
          | cons z zs => rw [listMaxId] at hxs; cases hzz : listMaxId zs <;> rw [hzz] at hxs <;>
              cases hxs
    | some mx =>
      rw [hxs] at h
      obtain rfl : max x mx = m := by cases h; rfl
      obtain ⟨hmem, hub⟩ := ih mx hxs
      constructor
      · rcases max_cases x mx with ⟨heq, _⟩ | ⟨heq, _⟩
        · rw [heq]; exact List.mem_cons_self ..
        · rw [heq]; exact List.mem_cons_of_mem _ hmem
      · intro y hy
        rcases List.mem_cons.mp hy with rfl | hy
        · exact le_max_left _ _
        · exact le_trans (hub y hy) (le_max_right _ _)

/-- Specification of `listMinId`: a returned minimum is a member and a
lower bound. -/
theorem listMinId_spec (l : List CommitId) (m : CommitId) (h : listMinId l = some m) :
    m ∈ l ∧ ∀ x ∈ l, m ≤ x := by
  induction l generalizing m with
  | nil => cases h
  | cons x xs ih =>
    rw [listMinId] at h
    cases hxs : listMinId xs with
    | none =>
      rw [hxs] at h
      obtain rfl : x = m := by cases h; rfl
      constructor
      · exact List.mem_cons_self ..
      · intro y hy
        rcases List.mem_cons.mp hy with rfl | hy
        · exact le_rfl
        · cases xs with
          | nil => simp at hy
          | cons z zs => rw [listMinId] at hxs; cases hzz : listMinId zs <;> rw [hzz] at hxs <;>
              cases hxs
    | some mx =>
      rw [hxs] at h
      obtain rfl : min x mx = m := by cases h; rfl
      obtain ⟨hmem, hlb⟩ := ih mx hxs
      constructor
      · rcases min_cases x mx with ⟨heq, _⟩ | ⟨heq, _⟩
        · rw [heq]; exact List.mem_cons_self ..
        · rw [heq]; exact List.mem_cons_of_mem _ hmem
      · intro y hy
        rcases List.mem_cons.mp hy with rfl | hy
        · exact min_le_left _ _
        · exact le_trans (min_le_right _ _) (hlb y hy)

/-- Claim C7: for a commit id present in the (nonempty) composite index,
`shortest_unique_commit_id_prefix_len` equals the maximum over the
previous and next commit ids of the whole index in lexicographic order of
`common hex prefix length + 1`; the computed previous/next candidates are
exactly the immediate lexicographic neighbors within the flattened index,
and the result is `0` when the index holds no other commit id. -/
theorem claim_C7_shortest_unique_prefix_len (segs : List (List CommitId)) (cid : CommitId)
    (hne : segs ≠ []) (hmem : cid ∈ segs.flatten) :
    (shortestUniqueCommitIdPfxLen segs cid =
      (((listMaxId (segs.flatten.filter (fun x => decide (x < cid)))).toList ++
          (listMinId (segs.flatten.filter (fun x => decide (cid < x)))).toList).map
        (fun x => commonHexLen cid x + 1)).foldr max 0) ∧
    (∀ m, listMaxId (segs.flatten.filter (fun x => decide (x < cid))) = some m →
      m ∈ segs.flatten ∧ m < cid ∧ ∀ x ∈ segs.flatten, x < cid → x ≤ m) ∧
    (∀ m, listMinId (segs.flatten.filter (fun x => decide (cid < x))) = some m →
      m ∈ segs.flatten ∧ cid < m ∧ ∀ x ∈ segs.flatten, cid < x → m ≤ x) ∧
    ((∀ x ∈ segs.flatten, x = cid) → shortestUniqueCommitIdPfxLen segs cid = 0) := by
  have hflat := resolveNeighborCommitIds_flatten segs cid hne
  have hmain : shortestUniqueCommitIdPfxLen segs cid =
      (((listMaxId (segs.flatten.filter (fun x => decide (x < cid)))).toList ++
          (listMinId (segs.flatten.filter (fun x => decide (cid < x)))).toList).map
        (fun x => commonHexLen cid x + 1)).foldr max 0 := by
    unfold shortestUniqueCommitIdPfxLen
    rw [hflat]
    rfl
  refine ⟨hmain, ?_, ?_, ?_⟩
  · intro m hm
    obtain ⟨hmem', hub⟩ := listMaxId_spec _ _ hm
    obtain ⟨hmemf, hlt⟩ := List.mem_filter.mp hmem'
    refine ⟨hmemf, of_decide_eq_true hlt, fun x hx hxlt => ?_⟩
    exact hub x (List.mem_filter.mpr ⟨hx, decide_eq_true hxlt⟩)
  · intro m hm
    obtain ⟨hmem', hlb⟩ := listMinId_spec _ _ hm
    obtain ⟨hmemf, hlt⟩ := List.mem_filter.mp hmem'
    refine ⟨hmemf, of_decide_eq_true hlt, fun x hx hxlt => ?_⟩
    exact hlb x (List.mem_filter.mpr ⟨hx, decide_eq_true hxlt⟩)
  · intro hall
    rw [hmain]
    have hprev : segs.flatten.filter (fun x => decide (x < cid)) = [] := by
      rw [List.filter_eq_nil_iff]
      intro x hx
      rw [hall x hx]
      simp
    have hnext : segs.flatten.filter (fun x => decide (cid < x)) = [] := by
      rw [List.filter_eq_nil_iff]
      intro x hx
      rw [hall x hx]
      simp
    rw [hprev, hnext]
    rfl

/-- Witness for C7 at a concrete two-segment index: the only neighbor of
`[1,2]` in `{[1,2],[1,3],[2,0]}` is `[1,3]`, sharing one hex digit, so
two digits disambiguate. -/
theorem claim_C7_witness :
    shortestUniqueCommitIdPfxLen [[[1, 2], [1, 3]], [[2, 0]]] [1, 2] = 2 := by
  have h := (claim_C7_shortest_unique_prefix_len [[[1, 2], [1, 3]], [[2, 0]]] [1, 2]
    (by decide) (by decide)).1
  rw [h]
  decide

/-! ## Diff engine (`src/lib/src/diff.rs`)

Inputs are byte strings (`List Nat`); a tokenizer maps a byte string to a
list of token ranges; words (tokens) are the corresponding byte slices.
The comparator (`CompareBytes`) is modelled as its `eq` function only:
the word hashes of the Rust code are a pure lookup optimization — the
hash table compares candidate entries with `eq` after the hash check, and
the documented contract `eq(a,b) => hash(a) == hash(b)` guarantees the
hash check never hides an `eq`-equal entry, so the grouping and lookups
below depend only on `eq`.  Iteration order of the Rust hash table can
differ from insertion order, but every consumer of that order
(`build_count_to_entries` and the serial numbering) produces data whose
downstream meaning is order-insensitive once positions are sorted; the
model fixes insertion order as the deterministic choice. -/

abbrev Byte := Nat
abbrev Word := List Byte
abbrev Cmp := Word → Word → Bool

/-- Byte slice `t[a..b]`. -/
def sliceTx (t : List Byte) (a b : Nat) : List Byte := (t.drop a).take (b - a)

/-- `find_line_ranges` (`diff.rs:32`): ranges of newline-inclusive
lines. -/
def lineRangesGo : List Byte → Nat → Nat → List Rg
  | [], start, i => if start < i then [⟨start, i⟩] else []
  | b :: rest, start, i =>
    if b = 10 then ⟨start, i + 1⟩ :: lineRangesGo rest (i + 1) (i + 1)
    else lineRangesGo rest start (i + 1)

/-- `find_line_ranges`. -/
def findLineRanges (t : List Byte) : List Rg := lineRangesGo t 0 0

/-- `is_word_byte` (`diff.rs:42`). -/
def isWordByte (b : Byte) : Bool :=
  (65 ≤ b && b ≤ 90) || (97 ≤ b && b ≤ 122) || (48 ≤ b && b ≤ 57) || b == 95 ||
    (128 ≤ b && b ≤ 255)

/-- The scan of `find_word_ranges` (`diff.rs:52`). -/
def wordRangesGo : List Byte → Nat → Nat → Bool → List Rg
  | [], wordStart, i, inWord =>
    if inWord && decide (wordStart < i) then [⟨wordStart, i⟩] else []
  | b :: rest, wordStart, i, inWord =>
    if inWord && !isWordByte b then
      ⟨wordStart, i⟩ :: wordRangesGo rest i (i + 1) false
    else if !inWord && isWordByte b then
      wordRangesGo rest i (i + 1) true
    else
      wordRangesGo rest wordStart (i + 1) inWord

/-- `find_word_ranges`. -/
def findWordRanges (t : List Byte) : List Rg := wordRangesGo t 0 0 false

/-- `find_nonword_ranges` (`diff.rs:72`). -/
def findNonwordRanges (t : List Byte) : List Rg :=
  (List.range t.length).filterMap (fun i =>
    if isWordByte (t.getD i 0) then none else some ⟨i, i + 1⟩)

example : findLineRanges [97, 10, 98, 98, 10, 99, 99, 99, 10] = [⟨0, 2⟩, ⟨2, 5⟩, ⟨5, 9⟩] := by
  decide
example : findLineRanges [] = [] := by decide
example : findLineRanges [10] = [⟨0, 1⟩] := by decide
example : findLineRanges [102, 111, 111] = [⟨0, 3⟩] := by decide
example : findWordRanges [65, 98, 99, 32, 32, 32] = [⟨0, 3⟩] := by decide
example : findWordRanges [32, 32, 32, 65, 98, 99] = [⟨3, 6⟩] := by decide
example : findWordRanges [43, 45, 42, 47] = [] := by decide
example : findNonwordRanges [97, 43, 98] = [⟨1, 2⟩] := by decide

/-- `LocalDiffSource`: the sub-slice of tokenized words under diff, with
the global offset of its first word.  (Only the word texts matter to the
algorithm — ranges and hashes are carried by `DiffSource` at top level.) -/
structure LocalSrc where
  words : List Word
  off : Nat
deriving DecidableEq, Repr

/-- `LocalDiffSource::narrowed`. -/
def LocalSrc.narrowed (s : LocalSrc) (a b : Nat) : LocalSrc :=
  ⟨(s.words.drop a).take (b - a), s.off + a⟩

/-- Adds one word at position `i` to the histogram
(`Histogram::calculate`, `diff.rs:316`): find the group whose
representative compares equal, append the position if the group still has
at most `max_occurrences` entries (one extra is stored to mark
overflow), or open a new group. -/
def histAdd (cmp : Cmp) (maxOcc : Nat) (w : Word) (i : Nat) :
    List (Word × List Nat) → List (Word × List Nat)
  | [] => [(w, [i])]
  | (rep, ps) :: rest =>
    if cmp rep w then
      (rep, if ps.length ≤ maxOcc then ps ++ [i] else ps) :: rest
    else (rep, ps) :: histAdd cmp maxOcc w i rest

/-- Enumeration loop of `Histogram::calculate`. -/
def histogramGo (cmp : Cmp) (maxOcc : Nat) :
    List Word → Nat → List (Word × List Nat) → List (Word × List Nat)
  | [], _, acc => acc
  | w :: ws, i, acc => histogramGo cmp maxOcc ws (i + 1) (histAdd cmp maxOcc w i acc)

/-- `Histogram::calculate`: word groups (representative plus ascending
positions) in first-occurrence order. -/
def histogram (cmp : Cmp) (maxOcc : Nat) (ws : List Word) : List (Word × List Nat) :=
  histogramGo cmp maxOcc ws 0 []

/-- `Histogram::positions_by_word` (`diff.rs:352`). -/
def histFind (cmp : Cmp) (groups : List (Word × List Nat)) (w : Word) : Option (List Nat) :=
  (groups.find? (fun g => cmp g.1 w)).map (·.2)

/-- The ascending key list of `build_count_to_entries`
(`diff.rs:342`). -/
def countsSorted (groups : List (Word × List Nat)) : List Nat :=
  ((groups.map (fun g => g.2.length)).insertionSort (· ≤ ·)).dedup

/-- One count class of `build_count_to_entries` filtered to words shared
with the right side at equal occurrence count (the `filter_map` inside
the `find_map` of `collect_unchanged_words_lcs`, `diff.rs:484`). -/
def classMatches (cmp : Cmp) (rightHist : List (Word × List Nat))
    (entries : List (Word × List Nat)) : List (List Nat × List Nat) :=
  entries.filterMap (fun g =>
    match histFind cmp rightHist g.1 with
    | some rps => if g.2.length = rps.length then some (g.2, rps) else none
    | none => none)

/-- The `find_map` over ascending occurrence counts: matches of the first
count class that has any. -/
def firstClassGo (cmp : Cmp) (groups rightHist : List (Word × List Nat)) :
    List Nat → Option (List (List Nat × List Nat))
  | [] => none
  | c :: cs =>
    let ms := classMatches cmp rightHist (groups.filter (fun g => g.2.length = c))
    if ms.isEmpty then firstClassGo cmp groups rightHist cs else some ms

/-- `uncommon_shared_word_positions` of
`collect_unchanged_words_lcs`. -/
def firstClassMatches (cmp : Cmp) (groups rightHist : List (Word × List Nat)) :
    Option (List (List Nat × List Nat)) :=
  firstClassGo cmp groups rightHist (countsSorted groups)

/-- Occurrence-paired `(left position, right position)` anchors of the
selected words (`iter::zip(lefts, rights)` per word). -/
def lcsAnchorPairs (ms : List (List Nat × List Nat)) : List (Nat × Nat) :=
  ms.flatMap (fun p => p.1.zip p.2)

/-- Left positions in ascending order (`left_positions` after
`sort_unstable_by_key`). -/
def pairsLeftSorted (pairs : List (Nat × Nat)) : List Nat :=
  (pairs.map (·.1)).insertionSort (· ≤ ·)

/-- The anchor pairs in ascending order of right position
(`right_positions` after `sort_unstable_by_key`, keeping each pair's left
partner in place of the Rust serial number). -/
def pairsRightSorted (pairs : List (Nat × Nat)) : List (Nat × Nat) :=
  pairs.insertionSort (fun a b => a.2 ≤ b.2)

/-- `left_index_by_right_index` (`diff.rs:509`): for each right position
in ascending order, the rank of its paired left position among the sorted
left positions.  (The Rust code computes the rank through serial numbers;
with pairwise-distinct positions — guaranteed for an equivalence
comparator — the rank of the partner is the same value.) -/
def lcsInput (pairs : List (Nat × Nat)) : List Nat :=
  (pairsRightSorted pairs).map (fun p => (pairsLeftSorted pairs).findIdx (· == p.1))

/-- Length of the common word prefix (`common_leading_len`,
`diff.rs:440`). -/
def commonLeadCount (cmp : Cmp) (l r : List Word) : Nat :=
  ((l.zip r).takeWhile (fun p => cmp p.1 p.2)).length

/-- Length of the common word suffix of the already-lead-trimmed lists
(`common_trailing_len`, `diff.rs:447`). -/
def commonTrailCount (cmp : Cmp) (l r : List Word) : Nat :=
  ((l.reverse.zip r.reverse).takeWhile (fun p => cmp p.1 p.2)).length

/-- The anchor loop at the end of `collect_unchanged_words_lcs`: between
consecutive LCS anchors (and after the last one) recurse into the
narrowed sources (through `recurse`, the one-level-less-fuel
`collectWords`), and push each anchor's global position pair. -/
def anchorWalk (recurse : LocalSrc → LocalSrc → List (Nat × Nat))
    (left right : LocalSrc) (leftSorted rightSorted : List Nat) :
    List (Nat × Nat) → Nat → Nat → List (Nat × Nat)
  | [], prevL, prevR =>
    recurse (left.narrowed prevL left.words.length)
      (right.narrowed prevR right.words.length)
  | (li, ri) :: rest, prevL, prevR =>
    let lpos := leftSorted.getD li 0
    let rpos := rightSorted.getD ri 0
    recurse (left.narrowed prevL lpos) (right.narrowed prevR rpos) ++
      ((left.off + lpos, right.off + rpos) ::
        anchorWalk recurse left right leftSorted rightSorted rest (lpos + 1) (rpos + 1))

/-- `collect_unchanged_words_lcs` (`diff.rs:467`): histogram both sides,
give up if every left word occurs more than `max_occurrences` times,
select the lowest shared occurrence class, solve the LCS over the paired
occurrence indices, and emit the anchors with recursive diffs of the
regions between them.  (The `none` branch of `head?` is unreachable: the
caller guarantees nonempty sources, where Rust unwraps.) -/
def collectLcs (cmp : Cmp) (recurse : LocalSrc → LocalSrc → List (Nat × Nat))
    (left right : LocalSrc) : List (Nat × Nat) :=
  let maxOcc := 100
  let lgroups := histogram cmp maxOcc left.words
  match (countsSorted lgroups).head? with
  | none => []
  | some minCount =>
    if maxOcc < minCount then []
    else
      let rgroups := histogram cmp maxOcc right.words
      match firstClassMatches cmp lgroups rgroups with
      | none => []
      | some ms =>
        let pairs := lcsAnchorPairs ms
        anchorWalk recurse left right (pairsLeftSorted pairs)
          ((pairsRightSorted pairs).map (·.2)) (findLcs (lcsInput pairs)) 0 0

/-- `collect_unchanged_words` (`diff.rs:422`).  The Rust functions push
global `(left, right)` word-position pairs into `found_positions`; the
model returns the pushed list.  Recursion is by fuel (structural, so the
kernel can evaluate): every nested `collect_unchanged_words` call works
on a strictly narrower left slice, so the top-level fuel
`left.words.length + 1` (see `collectFuel`) never runs out; the
fuel-exhaustion branch returns the empty list.  The LCS result is
preferred; if it found nothing, common leading/trailing words are
emitted. -/
def collectWords (cmp : Cmp) : Nat → LocalSrc → LocalSrc → List (Nat × Nat)
  | 0, _, _ => []
  | fuel + 1, left, right =>
    if left.words.isEmpty || right.words.isEmpty then []
    else
      let viaLcs := collectLcs cmp (collectWords cmp fuel) left right
      if viaLcs.isEmpty then
        let lead := commonLeadCount cmp left.words right.words
        let trail := commonTrailCount cmp (left.words.drop lead) (right.words.drop lead)
        (List.range lead).map (fun i => (left.off + i, right.off + i)) ++
          (List.range trail).map (fun j =>
            (left.off + (left.words.length - trail + j),
              right.off + (right.words.length - trail + j)))
      else viaLcs

/-- Fuel bound for `collectWords`: nesting depth is bounded by the left
word count. -/
def collectFuel (baseRanges : List Rg) : Nat := baseRanges.length + 1

/-- `intersect_unchanged_words` (`diff.rs:553`):
`itertools::merge_join_by` on the base positions, keeping only entries
present on both sides and appending the new side's other-position.  The
merge is written with the consecutive "advance the new side" steps
(`Ordering::Greater`) fused into one `dropWhile`, which makes the
recursion structural on the current side and matches the merge-join
element for element. -/
def intersectUnchangedWords :
    List (Nat × List Nat) → List (Nat × Nat) → List (Nat × List Nat)
  | [], _ => []
  | (cb, cos) :: cur, news =>
    match news.dropWhile (fun n => decide (n.1 < cb)) with
    | [] => []
    | (nb, no) :: newRest =>
      if cb < nb then intersectUnchangedWords cur ((nb, no) :: newRest)
      else (cb, cos ++ [no]) :: intersectUnchangedWords cur newRest

/-- `UnchangedRange` (`diff.rs:571`): a byte range in the base input plus
one byte range per other input. -/
structure UnchangedRg where
  base : Rg
  others : List Rg
deriving DecidableEq, Repr

/-- `Diff` (`diff.rs:601`). -/
structure DiffM where
  baseInput : List Byte
  otherInputs : List (List Byte)
  unchangedRegions : List UnchangedRg
deriving DecidableEq, Repr

/-- `DiffSource::range_at` — Rust panics out of bounds, which the
invariant proofs below rule out at every use. -/
def rangeAt (rs : List Rg) (i : Nat) : Rg := rs.getD i ⟨0, 0⟩

/-- `UnchangedRange::from_word_positions` (`diff.rs:579`). -/
def fromWordPositions (baseRanges : List Rg) (otherRangesList : List (List Rg))
    (basePos : Nat) (otherPos : List Nat) : UnchangedRg :=
  ⟨rangeAt baseRanges basePos,
    (otherRangesList.zip otherPos).map (fun p => rangeAt p.1 p.2)⟩

/-- The merge condition of `compact_unchanged_regions` (`diff.rs:844`). -/
def contiguousRg (p c : UnchangedRg) : Bool :=
  p.base.stop == c.base.start &&
    (p.others.zip c.others).all (fun x => x.1.stop == x.2.start)

/-- The merged region of `compact_unchanged_regions` (`diff.rs:848`). -/
def mergeRg (p c : UnchangedRg) : UnchangedRg :=
  ⟨⟨p.base.start, c.base.stop⟩,
    (p.others.zip c.others).map (fun x => ⟨x.1.start, x.2.stop⟩)⟩

/-- Loop of `compact_unchanged_regions` (`diff.rs:839`), carrying
`maybe_previous`. -/
def compactGo : Option UnchangedRg → List UnchangedRg → List UnchangedRg
  | none, [] => []
  | some p, [] => [p]
  | none, c :: rest => compactGo (some c) rest
  | some p, c :: rest =>
    if contiguousRg p c then compactGo (some (mergeRg p c)) rest
    else p :: compactGo (some c) rest

/-- `Diff::compact_unchanged_regions`. -/
def compactRegions (rs : List UnchangedRg) : List UnchangedRg := compactGo none rs

/-- Word list of a tokenized input. -/
def mkLocal (t : List Byte) (rs : List Rg) : LocalSrc :=
  ⟨rs.map (fun r => sliceTx t r.start r.stop), 0⟩

/-- `Diff::with_inputs_and_token_ranges` (`diff.rs:646`): no other input
means the whole base is unchanged; otherwise diff the base against the
first other input, intersect with diffs against the remaining inputs, and
wrap the word positions into byte regions between two empty sentinel
regions; finally compact. -/
def withInputsAndTokenRanges (cmp : Cmp) (baseInput : List Byte)
    (otherInputs : List (List Byte)) (baseRanges : List Rg)
    (otherRangesList : List (List Rg)) : DiffM :=
  let baseSrc := mkLocal baseInput baseRanges
  let regions :=
    match otherInputs.zip otherRangesList with
    | [] => [(⟨⟨0, baseInput.length⟩, []⟩ : UnchangedRg)]
    | firstOther :: tailOthers =>
      let sentinelStart : UnchangedRg :=
        ⟨⟨0, 0⟩, List.replicate otherInputs.length ⟨0, 0⟩⟩
      let sentinelEnd : UnchangedRg :=
        ⟨⟨baseInput.length, baseInput.length⟩,
          otherInputs.map (fun t => ⟨t.length, t.length⟩)⟩
      let firstPositions :=
        collectWords cmp (collectFuel baseRanges) baseSrc
          (mkLocal firstOther.1 firstOther.2)
      let mids :=
        if tailOthers.isEmpty then
          firstPositions.map (fun p =>
            fromWordPositions baseRanges otherRangesList p.1 [p.2])
        else
          let ips := tailOthers.foldl
            (fun acc other =>
              intersectUnchangedWords acc
                (collectWords cmp (collectFuel baseRanges) baseSrc
                  (mkLocal other.1 other.2)))
            (firstPositions.map (fun p => (p.1, [p.2])))
          ips.map (fun p => fromWordPositions baseRanges otherRangesList p.1 p.2)
      sentinelStart :: (mids ++ [sentinelEnd])
  { baseInput := baseInput
    otherInputs := otherInputs
    unchangedRegions := compactRegions regions }

/-- `Diff::for_tokenizer` (`diff.rs:612`): tokenization is skipped when
any input is empty (then every token range list is empty).  An empty
input list is a caller contract violation in Rust
(`expect("inputs must not be empty")`); the model returns a junk
single-region diff there. -/
def forTokenizer (cmp : Cmp) (tok : List Byte → List Rg)
    (inputs : List (List Byte)) : DiffM :=
  match inputs with
  | [] => ⟨[], [], [⟨⟨0, 0⟩, []⟩]⟩
  | baseInput :: otherInputs =>
    if baseInput.isEmpty || otherInputs.any (·.isEmpty) then
      withInputsAndTokenRanges cmp baseInput otherInputs []
        (List.replicate otherInputs.length [])
    else
      withInputsAndTokenRanges cmp baseInput otherInputs (tok baseInput)
        (otherInputs.map tok)

/-- `CompareBytesExactly`. -/
def cmpExact : Cmp := fun a b => a == b

/-- `Diff::by_line` (`diff.rs:753`). -/
def byLineDiff (inputs : List (List Byte)) : DiffM :=
  forTokenizer cmpExact findLineRanges inputs

/-- `Diff::hunk_between` contents (also used by
`refine_changed_regions`): the byte slices between the ends of `p` and
the starts of `c`, for the base and each other input. -/
def hunkBetween (d : DiffM) (p c : UnchangedRg) : List (List Byte) :=
  sliceTx d.baseInput p.base.stop c.base.start ::
    (d.otherInputs.zip (p.others.zip c.others)).map (fun x =>
      sliceTx x.1 x.2.1.stop x.2.2.start)

/-- `Diff::hunk_at` contents: the byte slices of an unchanged region. -/
def hunkAt (d : DiffM) (r : UnchangedRg) : List (List Byte) :=
  sliceTx d.baseInput r.base.start r.base.stop ::
    (d.otherInputs.zip r.others).map (fun x => sliceTx x.1 x.2.start x.2.stop)

/-- Inner loop of `Diff::refine_changed_regions` (`diff.rs:808`): refine
each changed region with a finer tokenizer and splice the offset-adjusted
result back. -/
def refineGo (cmp : Cmp) (tok : List Byte → List Rg) (d : DiffM) :
    UnchangedRg → List UnchangedRg → List UnchangedRg
  | _, [] => []
  | prev, cur :: rest =>
    let rd := forTokenizer cmp tok (hunkBetween d prev cur)
    let shifted := rd.unchangedRegions.map (fun rg =>
      (⟨⟨rg.base.start + prev.base.stop, rg.base.stop + prev.base.stop⟩,
        (rg.others.zip prev.others).map (fun x =>
          ⟨x.1.start + x.2.stop, x.1.stop + x.2.stop⟩)⟩ : UnchangedRg))
    shifted ++ (cur :: refineGo cmp tok d cur rest)

/-- `Diff::refine_changed_regions` (an empty region list cannot occur;
the invariant proofs keep it nonempty). -/
def refineChangedRegions (cmp : Cmp) (tok : List Byte → List Rg) (d : DiffM) : DiffM :=
  match d.unchangedRegions with
  | [] => d
  | r0 :: rest =>
    { baseInput := d.baseInput
      otherInputs := d.otherInputs
      unchangedRegions := compactRegions (r0 :: refineGo cmp tok d r0 rest) }

/-- `Diff::by_word` (`diff.rs:763`). -/
def byWordDiff (inputs : List (List Byte)) : DiffM :=
  refineChangedRegions cmpExact findNonwordRanges
    (forTokenizer cmpExact findWordRanges inputs)

/-- `DiffHunkKind`. -/
inductive HunkKind
  | matching
  | different
deriving DecidableEq, Repr

/-- `DiffHunk`: kind plus per-input contents. -/
structure Hunk where
  kind : HunkKind
  contents : List (List Byte)
deriving DecidableEq, Repr

/-- `UnchangedRange::is_all_empty` (`diff.rs:593`). -/
def allEmptyRg (r : UnchangedRg) : Bool :=
  r.base.isEmpty && r.others.all Rg.isEmpty

/-- The steady state of `DiffHunkIterator::next` (`diff.rs:913`): between
each consecutive pair of regions a `Different` hunk, followed by a
`Matching` hunk unless the new region is all-empty. -/
def hunksFrom (d : DiffM) : UnchangedRg → List UnchangedRg → List Hunk
  | _, [] => []
  | prev, cur :: rest =>
    ⟨.different, hunkBetween d prev cur⟩ ::
      (if allEmptyRg cur then hunksFrom d cur rest
       else ⟨.matching, hunkAt d cur⟩ :: hunksFrom d cur rest)

/-- `Diff::hunks()` as a list (the iterator emits the first region's
`Matching` hunk unless it is all-empty, then alternates). -/
def hunksOf (d : DiffM) : List Hunk :=
  match d.unchangedRegions with
  | [] => []
  | r0 :: rest =>
    if allEmptyRg r0 then hunksFrom d r0 rest
    else ⟨.matching, hunkAt d r0⟩ :: hunksFrom d r0 rest

/-- `DiffHunkRange`: kind plus per-input byte ranges. -/
structure HunkRgs where
  kind : HunkKind
  ranges : List Rg
deriving DecidableEq, Repr

/-- Steady state of `DiffHunkRangeIterator::next` (`diff.rs:983`). -/
def hunkRgsFrom (d : DiffM) : UnchangedRg → List UnchangedRg → List HunkRgs
  | _, [] => []
  | prev, cur :: rest =>
    ⟨.different, ⟨prev.base.stop, cur.base.start⟩ ::
        (prev.others.zip cur.others).map (fun x => ⟨x.1.stop, x.2.start⟩)⟩ ::
      (if allEmptyRg cur then hunkRgsFrom d cur rest
       else ⟨.matching, cur.base :: cur.others⟩ :: hunkRgsFrom d cur rest)

/-- `Diff::hunk_ranges()` as a list. -/
def hunkRangesOf (d : DiffM) : List HunkRgs :=
  match d.unchangedRegions with
  | [] => []
  | r0 :: rest =>
    if allEmptyRg r0 then hunkRgsFrom d r0 rest
    else ⟨.matching, r0.base :: r0.others⟩ :: hunkRgsFrom d r0 rest

/-! ## Absorb hunk splitting (`src/lib/src/absorb.rs`)

`split_file_hunks` walks the `Different` hunks of a two-input line diff
against a compacted annotation (commit, byte-range) list.  The Rust
`HashMap<&CommitId, Vec<..>>` accumulator is modelled as an association
list in first-insertion order (`entry().or_default().push(..)`). -/

/-- `selected_ranges.entry(commit_id).or_default().push(v)`. -/
def entryPush (acc : List (CommitId × List (Rg × Rg))) (cid : CommitId) (v : Rg × Rg) :
    List (CommitId × List (Rg × Rg)) :=
  match acc with
  | [] => [(cid, [v])]
  | (c, vs) :: rest =>
    if c = cid then (c, vs ++ [v]) :: rest else (c, vs) :: entryPush rest cid v

/-- `maybe_overlapped_ranges` of the pure-deletion branch of
`split_file_hunks` (`absorb.rs:198`): skip annotation ranges strictly
before the deleted span, then take the pre-overlap ranges plus one
(`annotation_ranges.get(..pre_overlap + 1)`). -/
def delOverlapped (anns : List (CommitId × Rg)) (l : Rg) :
    Option (List (CommitId × Rg)) :=
  let anns1 := anns.dropWhile (fun a => decide (a.2.stop ≤ l.start))
  let preOverlap := (anns1.takeWhile (fun a => decide (a.2.stop < l.stop))).length
  if preOverlap + 1 ≤ anns1.length then some (anns1.take (preOverlap + 1)) else none

/-- The remaining annotation ranges after the pure-deletion branch
(`annotation_ranges = &annotation_ranges[skip..][pre_overlap..]`). -/
def delRemaining (anns : List (CommitId × Rg)) (l : Rg) : List (CommitId × Rg) :=
  let anns1 := anns.dropWhile (fun a => decide (a.2.stop ≤ l.start))
  let preOverlap := (anns1.takeWhile (fun a => decide (a.2.stop < l.stop))).length
  anns1.drop preOverlap

/-- The `try_fold` contiguity check of the pure-deletion branch
(`absorb.rs:213`): every overlapped range must start at or before the end
of the previous one, beginning at the deleted span's start. -/
def tryFoldCover (l : Rg) (ov : List (CommitId × Rg)) : Option Nat :=
  ov.foldl
    (fun st a =>
      match st with
      | none => none
      | some prevEnd => if a.2.start ≤ prevEnd then some a.2.stop else none)
    (some l.start)

/-- The loop body of `split_file_hunks` (`absorb.rs:189`) over the
`Different` hunk range pairs `(left_range, right_range)`, carrying the
not-yet-consumed suffix of the annotation ranges.  The `assert` /
`debug_assert` statements of the source are provable invariants (see the
coverage lemmas below) and do not alter the computed value. -/
def splitGo (acc : List (CommitId × List (Rg × Rg))) :
    List (CommitId × Rg) → List (Rg × Rg) → List (CommitId × List (Rg × Rg))
  | _, [] => acc
  | [], _ => acc
  | anns@(_ :: _), (leftRange, rightRange) :: hunks =>
    if rightRange.isEmpty then
      -- pure deletion: may span multiple overlapped annotation ranges
      match delOverlapped anns leftRange with
      | none => splitGo acc (delRemaining anns leftRange) hunks
      | some overlapped =>
        if (tryFoldCover leftRange overlapped).isSome then
          let acc' := overlapped.foldl
            (fun acc a =>
              entryPush acc a.1
                (⟨max a.2.start leftRange.start, min a.2.stop leftRange.stop⟩, rightRange))
            acc
          splitGo acc' (delRemaining anns leftRange) hunks
        else splitGo acc (delRemaining anns leftRange) hunks
    else
      -- insertion or modification: must be contained in one annotation range
      let anns1 := anns.dropWhile (fun a => decide (a.2.stop < leftRange.stop))
      match hcur : anns1 with
      | [] => splitGo acc anns1 hunks
      | (cid, curRange) :: restAnns =>
        let contained :=
          decide (curRange.start ≤ leftRange.start) && decide (leftRange.stop ≤ curRange.stop)
        let ambiguous := decide (curRange.stop = leftRange.start) &&
          (match restAnns.head? with
           | some a => decide (a.2.start = leftRange.stop)
           | none => false)
        if contained && !ambiguous then
          splitGo (entryPush acc cid (leftRange, rightRange)) anns1 hunks
        else splitGo acc anns1 hunks

/-- The `Different` hunks of a two-input diff as `(left, right)` range
pairs (`hunk.ranges[..].try_into().unwrap()` in the source). -/
def differentHunkPairs (d : DiffM) : List (Rg × Rg) :=
  (hunkRangesOf d).filterMap (fun h =>
    if h.kind == HunkKind.different then
      some (h.ranges.getD 0 ⟨0, 0⟩, h.ranges.getD 1 ⟨0, 0⟩)
    else none)

/-- `split_file_hunks` (`absorb.rs:180`). -/
def splitFileHunks (anns : List (CommitId × Rg)) (d : DiffM) :
    List (CommitId × List (Rg × Rg)) :=
  splitGo [] anns (differentHunkPairs d)

/-- Bytes of `"1a\n1b\n"`. -/
def txtC3a : List Byte := [49, 97, 10, 49, 98, 10]

/-- Bytes of `"1a\n1B\n"`. -/
def txtC3b : List Byte := [49, 97, 10, 49, 66, 10]

/-- Bytes of `"1a\n1b\n2a\n2b\n"`. -/
def txtC3c : List Byte := [49, 97, 10, 49, 98, 10, 50, 97, 10, 50, 98, 10]

/-- Bytes of `"1a\n1b\n3X\n2a\n2b\n"`. -/
def txtC3d : List Byte :=
  [49, 97, 10, 49, 98, 10, 51, 88, 10, 50, 97, 10, 50, 98, 10]

/-- Claim C3: `split_file_hunks([(id1, 0..6)], by_line("1a\n1b\n",
"1a\n1B\n"))` is exactly `{id1: [(3..6, 3..6)]}`, and
`split_file_hunks([(id1, 0..6), (id2, 6..12)], by_line("1a\n1b\n2a\n2b\n",
"1a\n1b\n3X\n2a\n2b\n"))` is the empty mapping (a pure insertion on the
boundary between two annotation ranges is ambiguous and attributed to no
commit). -/
theorem claim_C3_split_file_hunks_concrete :
    splitFileHunks [([1], ⟨0, 6⟩)] (byLineDiff [txtC3a, txtC3b]) =
        [([1], [(⟨3, 6⟩, ⟨3, 6⟩)])] ∧
      splitFileHunks [([1], ⟨0, 6⟩), ([2], ⟨6, 12⟩)] (byLineDiff [txtC3c, txtC3d]) = [] := by
  constructor
  · decide
  · decide

/-- Well-formedness of a compacted annotation: every range is nonempty
(`debug_assert` at `absorb.rs:184`) and ranges ascend without overlap. -/
def AnnWF (anns : List (CommitId × Rg)) : Prop :=
  (∀ a ∈ anns, a.2.start < a.2.stop) ∧
    List.Chain' (fun a b => a.2.stop ≤ b.2.start) anns

/-- Every byte position of `l` lies inside some annotation range. -/
def CoveredAnn (anns : List (CommitId × Rg)) (l : Rg) : Prop :=
  ∀ p, p < l.stop → l.start ≤ p → ∃ a ∈ anns, a.2.start ≤ p ∧ p < a.2.stop

/-- The annotation range overlaps the deleted span. -/
def overlapsB (l rg : Rg) : Bool := decide (rg.start < l.stop) && decide (l.start < rg.stop)

/-- The code's composite coverage check of the deletion branch. -/
def codeDelCovered (anns : List (CommitId × Rg)) (l : Rg) : Bool :=
  match delOverlapped anns l with
  | some ov => (tryFoldCover l ov).isSome
  | none => false

/-- `AnnWF` is preserved on the tail. -/
theorem AnnWF.tail {a : CommitId × Rg} {rest : List (CommitId × Rg)}
    (h : AnnWF (a :: rest)) : AnnWF rest :=
  ⟨fun b hb => h.1 b (List.mem_cons_of_mem _ hb), h.2.tail⟩

/-- In a well-formed annotation list every later range starts at or after
the head's end. -/
theorem AnnWF.head_le {a : CommitId × Rg} {rest : List (CommitId × Rg)}
    (h : AnnWF (a :: rest)) : ∀ b ∈ rest, a.2.stop ≤ b.2.start := by
  induction rest generalizing a with
  | nil => intro b hb; simp at hb
  | cons c rest ih =>
    intro b hb
    have hac : a.2.stop ≤ c.2.start := List.chain'_cons.mp h.2 |>.1
    rcases List.mem_cons.mp hb with rfl | hb
    · exact hac
    · have hc : AnnWF (c :: rest) := h.tail
      have := ih hc b hb
      have hcc : c.2.start < c.2.stop := h.1 c (by simp)
      omega

/-- A failed contiguity fold stays failed. -/
theorem tryFold_none (ov : List (CommitId × Rg)) :
    ov.foldl
      (fun st a =>
        match st with
        | none => none
        | some prevEnd => if a.2.start ≤ prevEnd then some a.2.stop else none)
      (none : Option Nat) = none := by
  induction ov with
  | nil => rfl
  | cons a ov ih => simpa using ih

/-- Coverage equivalence for the deletion branch: the code's
skip/take/try-fold check succeeds exactly when the deleted span is fully
covered by contiguous annotation ranges, and in that case the overlapped
ranges are exactly the annotation ranges overlapping the span. -/
theorem del_cover_spec :
    ∀ (anns : List (CommitId × Rg)) (l : Rg), AnnWF anns → l.start < l.stop →
      (codeDelCovered anns l = true ↔ CoveredAnn anns l) ∧
      (CoveredAnn anns l →
        delOverlapped anns l = some (anns.filter (fun a => overlapsB l a.2))) := by
  intro anns
  induction anns with
  | nil =>
    intro l hwf hl
    have hnc : ¬ CoveredAnn [] l := by
      intro hc
      obtain ⟨c, hc, _⟩ := hc l.start hl le_rfl
      simp at hc
    refine ⟨⟨fun h => ?_, fun h => absurd h hnc⟩, fun h => absurd h hnc⟩
    · simp [codeDelCovered, delOverlapped] at h
  | cons a rest ih =>
    intro l hwf hl
    by_cases h1 : a.2.stop ≤ l.start
    · -- the head range is entirely before the deleted span: skipped
      have hdrop : (a :: rest).dropWhile (fun x => decide (x.2.stop ≤ l.start)) =
          rest.dropWhile (fun x => decide (x.2.stop ≤ l.start)) :=
        List.dropWhile_cons_of_pos (by simpa using h1)
      have hcode : codeDelCovered (a :: rest) l = codeDelCovered rest l := by
        simp only [codeDelCovered, delOverlapped, hdrop]
      have hdel : delOverlapped (a :: rest) l = delOverlapped rest l := by
        simp only [delOverlapped, hdrop]
      have hcov : CoveredAnn (a :: rest) l ↔ CoveredAnn rest l := by
        constructor
        · intro hc p hp1 hp2
          obtain ⟨c, hcmem, hcc⟩ := hc p hp1 hp2
          rcases List.mem_cons.mp hcmem with rfl | hcmem
          · omega
          · exact ⟨c, hcmem, hcc⟩
        · intro hc p hp1 hp2
          obtain ⟨c, hcmem, hcc⟩ := hc p hp1 hp2
          exact ⟨c, List.mem_cons_of_mem _ hcmem, hcc⟩
      have hfilter : (a :: rest).filter (fun x => overlapsB l x.2) =
          rest.filter (fun x => overlapsB l x.2) := by
        rw [List.filter_cons_of_neg]
        simp [overlapsB]
        omega
      obtain ⟨ihiff, ihfil⟩ := ih l hwf.tail hl
      refine ⟨by rw [hcode, hcov]; exact ihiff, fun hc => ?_⟩
      rw [hdel, hfilter]
      exact ihfil (hcov.mp hc)
    · -- the head range ends after the deleted span's start
      push_neg at h1
      have hdrop : (a :: rest).dropWhile (fun x => decide (x.2.stop ≤ l.start)) =
          a :: rest :=
        List.dropWhile_cons_of_neg (by simpa using not_le.mpr h1)
      by_cases h3 : a.2.start ≤ l.start
      · by_cases h5 : l.stop ≤ a.2.stop
        · -- the head range alone covers the whole span
          have htake : (a :: rest).takeWhile (fun x => decide (x.2.stop < l.stop)) = [] :=
            List.takeWhile_cons_of_neg (by simpa using not_lt.mpr h5)
          have hdel : delOverlapped (a :: rest) l = some [a] := by
            simp only [delOverlapped, hdrop, htake]
            simp
          have hcode : codeDelCovered (a :: rest) l = true := by
            simp only [codeDelCovered, hdel, tryFoldCover, List.foldl_cons, List.foldl_nil]
            rw [if_pos h3]
            rfl
          have hcov : CoveredAnn (a :: rest) l := by
            intro p hp1 hp2
            exact ⟨a, List.mem_cons_self .., by omega⟩
          have hfilter : (a :: rest).filter (fun x => overlapsB l x.2) = [a] := by
            rw [List.filter_cons_of_pos (by simp [overlapsB]; omega)]
            rw [List.filter_eq_nil_iff.mpr]
            intro b hb
            have hble := hwf.head_le b hb
            simp [overlapsB]
            omega
          exact ⟨by rw [hcode]; exact iff_of_true rfl hcov,
            fun _ => by rw [hdel, hfilter]⟩
        · -- the head covers a prefix of the span; recurse on the remainder
          push_neg at h5
          have hwfr := hwf.tail
          have hl' : a.2.stop < l.stop := h5
          obtain ⟨ihiff, ihfil⟩ := ih ⟨a.2.stop, l.stop⟩ hwfr (by simpa using hl')
          -- the tail's ranges all end after a.2.stop, so nothing is dropped
          have f1 : rest.dropWhile (fun x => decide (x.2.stop ≤ a.2.stop)) = rest := by
            cases hr : rest with
            | nil => rfl
            | cons c cs =>
              refine List.dropWhile_cons_of_neg ?_
              have hcs : a.2.stop ≤ c.2.start := hwf.head_le c (by rw [hr]; simp)
              have hcc : c.2.start < c.2.stop := hwf.1 c (by rw [hr]; simp)
              simp
              omega
          have htake : (a :: rest).takeWhile (fun x => decide (x.2.stop < l.stop)) =
              a :: rest.takeWhile (fun x => decide (x.2.stop < l.stop)) :=
            List.takeWhile_cons_of_pos (by simpa using hl')
          have f2 : delOverlapped (a :: rest) l =
              (delOverlapped rest ⟨a.2.stop, l.stop⟩).map (fun ov => a :: ov) := by
            simp only [delOverlapped, hdrop, htake, f1]
            by_cases hlen :
                (rest.takeWhile (fun x => decide (x.2.stop < l.stop))).length + 1 ≤
                  rest.length
            · rw [if_pos (by simp; omega), if_pos hlen]
              simp [List.take_succ_cons]
            · rw [if_neg (by simp; omega), if_neg hlen]
              rfl
          have f3 : ∀ ov, tryFoldCover l (a :: ov) = tryFoldCover ⟨a.2.stop, l.stop⟩ ov := by
            intro ov
            simp only [tryFoldCover, List.foldl_cons]
            rw [if_pos h3]
          have f4 : CoveredAnn (a :: rest) l ↔ CoveredAnn rest ⟨a.2.stop, l.stop⟩ := by
            constructor
            · intro hc p hp1 hp2
              simp only at hp1 hp2
              obtain ⟨c, hcmem, hcc⟩ := hc p hp1 (by omega)
              rcases List.mem_cons.mp hcmem with rfl | hcmem
              · omega
              · exact ⟨c, hcmem, hcc⟩
            · intro hc p hp1 hp2
              by_cases hpa : p < a.2.stop
              · exact ⟨a, List.mem_cons_self .., by omega⟩
              · obtain ⟨c, hcmem, hcc⟩ := hc p (by simpa using hp1) (by simp; omega)
                exact ⟨c, List.mem_cons_of_mem _ hcmem, hcc⟩
          have f5 : (a :: rest).filter (fun x => overlapsB l x.2) =
              a :: rest.filter (fun x => overlapsB (⟨a.2.stop, l.stop⟩ : Rg) x.2) := by
            rw [List.filter_cons_of_pos (by simp [overlapsB]; omega)]
            congr 1
            refine List.filter_congr fun b hb => ?_
            have hble := hwf.head_le b hb
            have hbb : b.2.start < b.2.stop := hwf.1 b (List.mem_cons_of_mem _ hb)
            have hx : l.start < b.2.stop := by omega
            have hy : a.2.stop < b.2.stop := by omega
            simp [overlapsB, hx, hy]
          have hcode : codeDelCovered (a :: rest) l =
              codeDelCovered rest ⟨a.2.stop, l.stop⟩ := by
            simp only [codeDelCovered, f2]
            cases delOverlapped rest ⟨a.2.stop, l.stop⟩ with
            | none => rfl
            | some ov => simp [f3 ov]
          refine ⟨by rw [hcode, f4]; exact ihiff, fun hc => ?_⟩
          rw [f2, ihfil (f4.mp hc), f5]
          rfl
      · -- the span starts before the first overlapping range: a gap
        push_neg at h3
        have hnc : ¬ CoveredAnn (a :: rest) l := by
          intro hc
          obtain ⟨c, hcmem, hcc⟩ := hc l.start hl le_rfl
          rcases List.mem_cons.mp hcmem with rfl | hcmem
          · omega
          · have := hwf.head_le c hcmem
            omega
        have hcode : codeDelCovered (a :: rest) l = false := by
          simp only [codeDelCovered, delOverlapped, hdrop]
          by_cases hlen :
              ((a :: rest).takeWhile (fun x => decide (x.2.stop < l.stop))).length + 1 ≤
                (a :: rest).length
          · rw [if_pos hlen]
            have hhead : ∃ tl, (a :: rest).take
                (((a :: rest).takeWhile (fun x => decide (x.2.stop < l.stop))).length + 1) =
                  a :: tl := ⟨_, List.take_succ_cons ..⟩
            obtain ⟨tl, htl⟩ := hhead
            rw [htl]
            simp only [tryFoldCover, List.foldl_cons]
            rw [if_neg (by omega)]
            rw [tryFold_none]
            rfl
          · rw [if_neg hlen]
        exact ⟨by rw [hcode]; exact iff_of_false (by simp) hnc,
          fun h => absurd h hnc⟩

/-- The list of sub-hunk pairs a commit received (`selected_ranges[cid]`,
empty when the commit is absent from the map). -/
def lookupSel (acc : List (CommitId × List (Rg × Rg))) (cid : CommitId) : List (Rg × Rg) :=
  ((acc.find? (fun e => e.1 == cid)).map (·.2)).getD []

/-- `entry(..).or_default().push(..)` appends to the pushed commit's list
and leaves every other commit's list unchanged. -/
theorem lookupSel_entryPush (acc : List (CommitId × List (Rg × Rg)))
    (k : CommitId) (v : Rg × Rg) (cid : CommitId) :
    lookupSel (entryPush acc k v) cid =
      lookupSel acc cid ++ (if k = cid then [v] else []) := by
  induction acc with
  | nil =>
    by_cases hk : k = cid
    · subst hk; simp [entryPush, lookupSel]
    · simp [entryPush, lookupSel, hk]
  | cons e rest ih =>
    obtain ⟨c, vs⟩ := e
    by_cases hck : c = k
    · subst hck
      rw [entryPush, if_pos rfl]
      by_cases hc : c = cid
      · subst hc; simp [lookupSel]
      · simp [lookupSel, hc, if_neg hc]
    · rw [entryPush, if_neg hck]
      by_cases hc : c = cid
      · subst hc
        have hk : ¬ k = c := fun h => hck h.symm
        simp [lookupSel, hk]
      · simp only [lookupSel, List.find?_cons] at ih ⊢
        have hcb : (c == cid) = false := by simpa using hc
        simp only [hcb] at ih ⊢
        exact ih

/-- Folding `entryPush` over elements: each commit receives exactly the
values of its own elements, in order. -/
theorem lookupSel_foldl_entryPush (f : CommitId × Rg → Rg × Rg) :
    ∀ (xs : List (CommitId × Rg)) (acc : List (CommitId × List (Rg × Rg))) (cid : CommitId),
      lookupSel (xs.foldl (fun acc a => entryPush acc a.1 (f a)) acc) cid =
        lookupSel acc cid ++ (xs.filter (fun a => a.1 == cid)).map f := by
  intro xs
  induction xs with
  | nil => intro acc cid; simp
  | cons x xs ih =>
    intro acc cid
    rw [List.foldl_cons, ih, lookupSel_entryPush]
    by_cases hx : x.1 = cid
    · rw [if_pos hx, List.filter_cons_of_pos (by simpa using hx)]
      simp
    · rw [if_neg hx, List.filter_cons_of_neg (by simpa using hx)]
      simp

/-- `splitGo` with no hunks left returns the accumulator. -/
theorem splitGo_nil (acc : List (CommitId × List (Rg × Rg))) (anns : List (CommitId × Rg)) :
    splitGo acc anns [] = acc := by
  cases anns <;> rfl

/-- Claim C4: in `split_file_hunks`, a pure-deletion hunk (nonempty base
range `l`, empty source range `r`) whose base span is fully covered by
contiguous annotation ranges attributes to every overlapped range's
commit exactly the deleted sub-portion of that range — the pair
(intersection of the range with `l`, the empty source range); a deletion
hunk whose span is not covered contiguously attributes nothing. -/
theorem claim_C4_pure_deletion (anns : List (CommitId × Rg)) (l r : Rg)
    (hwf : AnnWF anns) (hr : r.isEmpty = true) (hl : l.isEmpty = false) :
    (CoveredAnn anns l → ∀ cid,
      lookupSel (splitGo [] anns [(l, r)]) cid =
        (anns.filter (fun a => a.1 == cid && overlapsB l a.2)).map
          (fun a => (⟨max a.2.start l.start, min a.2.stop l.stop⟩, r))) ∧
    (¬ CoveredAnn anns l → splitGo [] anns [(l, r)] = []) := by
  have hl' : l.start < l.stop := by
    simp [Rg.isEmpty] at hl
    omega
  cases anns with
  | nil =>
    have hnc : ¬ CoveredAnn [] l := by
      intro hc
      obtain ⟨c, hcmem, _⟩ := hc l.start hl' le_rfl
      simp at hcmem
    exact ⟨fun h => absurd h hnc, fun _ => rfl⟩
  | cons a rest =>
    obtain ⟨hiff, hfil⟩ := del_cover_spec (a :: rest) l hwf hl'
    constructor
    · intro hcov cid
      have hdel := hfil hcov
      have hcode : codeDelCovered (a :: rest) l = true := hiff.mpr hcov
      rw [codeDelCovered, hdel] at hcode
      have hcode2 :
          (tryFoldCover l ((a :: rest).filter (fun x => overlapsB l x.2))).isSome = true :=
        hcode
      have hrun : splitGo [] (a :: rest) [(l, r)] =
          ((a :: rest).filter (fun x => overlapsB l x.2)).foldl
            (fun acc x =>
              entryPush acc x.1
                (⟨max x.2.start l.start, min x.2.stop l.stop⟩, r))
            [] := by
        rw [splitGo, if_pos hr, hdel]
        simp only [hcode2, if_true]
        exact splitGo_nil _ _
      rw [hrun, lookupSel_foldl_entryPush]
      rw [List.filter_filter]
      simp [lookupSel]
    · intro hcov
      have hcode : codeDelCovered (a :: rest) l = false :=
        Bool.not_eq_true _ ▸ fun h => hcov (hiff.mp h)
      rw [codeDelCovered] at hcode
      cases hdel : delOverlapped (a :: rest) l with
      | none =>
        rw [splitGo, if_pos hr, hdel]
        exact splitGo_nil _ _
      | some ov =>
        rw [hdel] at hcode
        have hcode2 : (tryFoldCover l ov).isSome = false := hcode
        rw [splitGo, if_pos hr, hdel]
        simp only [hcode2, Bool.false_eq_true, if_false]
        exact splitGo_nil _ _

/-- Witness for C4: annotation `{id1: 0..3, id2: 3..6}`, deleting bytes
`1..5` — both commits receive the deleted sub-portion of their own
range. -/
theorem claim_C4_witness :
    lookupSel (splitGo [] [([1], ⟨0, 3⟩), ([2], ⟨3, 6⟩)] [(⟨1, 5⟩, ⟨7, 7⟩)]) [1] =
      [(⟨1, 3⟩, ⟨7, 7⟩)] := by
  have hcov : CoveredAnn [([1], ⟨0, 3⟩), ([2], ⟨3, 6⟩)] ⟨1, 5⟩ := by
    intro p hp hq
    simp only at hp hq
    interval_cases p <;> decide
  have h := (claim_C4_pure_deletion [([1], ⟨0, 3⟩), ([2], ⟨3, 6⟩)] ⟨1, 5⟩ ⟨7, 7⟩
    ⟨by decide, by simp [List.chain'_cons]⟩ (by decide) (by decide)).1 hcov [1]
  rw [h]
  decide

/-! ## Monotonicity of `find_lcs`

The LCS output is a list of `(left value, right index)` pairs that is
strictly increasing in both components, with every left value read off
the input at the right index.  This drives the sortedness invariant of
`collect_unchanged_words`. -/

/-- Strict increase in both components of a position pair. -/
def PairLt (a b : Nat × Nat) : Prop := a.1 < b.1 ∧ a.2 < b.2

/-- The invariant of the backtracking chain, phrased through lookups:
every stored entry is at a valid right index, stores the input value at
that index, and its back link reaches a smaller index holding a smaller
left value. -/
def ChainOK (input : List Nat) (chain : List (Nat × ChainEntry)) : Prop :=
  ∀ i e, chainLookup chain i = some e →
    i < input.length ∧ e.cleft = input.getD i 0 ∧
      ∀ p, e.cprev = some p →
        p < i ∧ ∃ e', chainLookup chain p = some e' ∧ e'.cleft < e.cleft

/-- Lookup in a chain with strictly descending indices finds the stored
entry. -/
theorem chainLookup_eq_of_mem (chain : List (Nat × ChainEntry))
    (hdesc : List.Pairwise (fun a b => b.1 < a.1) chain)
    (i : Nat) (e : ChainEntry) (hmem : (i, e) ∈ chain) :
    chainLookup chain i = some e := by
  induction chain with
  | nil => simp at hmem
  | cons x rest ih =>
    rcases List.mem_cons.mp hmem with rfl | hmem
    · simp [chainLookup]
    · have hlt : i < x.1 := (List.pairwise_cons.mp hdesc).1 (i, e) hmem
      have hne : (x.1 == i) = false := by
        simp only [beq_eq_false_iff_ne, ne_eq]
        omega
      simp only [chainLookup, List.find?_cons, hne]
      exact ih (List.pairwise_cons.mp hdesc).2 hmem

/-- A successful lookup is a membership whose key matches. -/
theorem mem_of_chainLookup (chain : List (Nat × ChainEntry)) (i : Nat) (e : ChainEntry)
    (h : chainLookup chain i = some e) : (i, e) ∈ chain := by
  unfold chainLookup at h
  cases hfind : chain.find? (fun p => p.1 == i) with
  | none => rw [hfind] at h; cases h
  | some x =>
    rw [hfind] at h
    obtain rfl : x.2 = e := by cases h; rfl
    have hxmem := List.mem_of_find?_eq_some hfind
    have hxkey := List.find?_some hfind
    have : x.1 = i := by simpa using hxkey
    have hx : x = (i, x.2) := by
      cases x
      simp_all
    exact hx ▸ hxmem

/-- The inner scan only proposes back links to entries with smaller left
values. -/
theorem lcsScan_spec (leftPos gLongest : Nat) :
    ∀ (entries : List (Nat × ChainEntry)) (lfh : Nat) (prp : Option Nat) (i : Nat),
      (lcsScan leftPos gLongest entries lfh prp).2.1 = some i →
      prp = some i ∨ ∃ e, (i, e) ∈ entries ∧ e.cleft < leftPos := by
  intro entries
  induction entries with
  | nil => intro lfh prp i h; exact Or.inl h
  | cons x rest ih =>
    intro lfh prp i h
    obtain ⟨j, e⟩ := x
    rw [lcsScan] at h
    by_cases hcl : e.cleft < leftPos
    · rw [if_pos hcl] at h
      by_cases hlen : lfh < e.clen + 1
      · rw [if_pos hlen] at h
        by_cases hg : gLongest < e.clen + 1
        · rw [if_pos hg] at h
          simp only at h
          obtain rfl : j = i := by cases h; rfl
          exact Or.inr ⟨e, List.mem_cons_self .., hcl⟩
        · rw [if_neg hg] at h
          rcases ih _ _ _ h with hprp | ⟨e', hmem, hcl'⟩
          · obtain rfl : j = i := by cases hprp; rfl
            exact Or.inr ⟨e, List.mem_cons_self .., hcl⟩
          · exact Or.inr ⟨e', List.mem_cons_of_mem _ hmem, hcl'⟩
      · rw [if_neg hlen] at h
        rcases ih _ _ _ h with hprp | ⟨e', hmem, hcl'⟩
        · exact Or.inl hprp
        · exact Or.inr ⟨e', List.mem_cons_of_mem _ hmem, hcl'⟩
    · rw [if_neg hcl] at h
      rcases ih _ _ _ h with hprp | ⟨e', hmem, hcl'⟩
      · exact Or.inl hprp
      · exact Or.inr ⟨e', List.mem_cons_of_mem _ hmem, hcl'⟩

/-- Invariant carried by the outer loop of `find_lcs`: chain indices are
the processed right positions in descending order, and every entry holds
the input value at its index with a decreasing back link. -/
def OuterInv (input : List Nat) (rightPos : Nat) (chain : List (Nat × ChainEntry)) : Prop :=
  (∀ x ∈ chain, x.1 < rightPos) ∧
    List.Pairwise (fun a b => b.1 < a.1) chain ∧
    ∀ x ∈ chain, x.1 < input.length ∧ x.2.cleft = input.getD x.1 0 ∧
      ∀ p, x.2.cprev = some p →
        p < x.1 ∧ ∃ e', (p, e') ∈ chain ∧ e'.cleft < x.2.cleft

/-- The outer loop preserves its invariant. -/
theorem lcsOuter_inv (input : List Nat) :
    ∀ (rem : List Nat) (rightPos : Nat) (chain : List (Nat × ChainEntry)) (g gp : Nat),
      rem = input.drop rightPos → OuterInv input rightPos chain →
      OuterInv input (rightPos + rem.length) (lcsOuter rem rightPos chain g gp).1 := by
  intro rem
  induction rem with
  | nil =>
    intro rightPos chain g gp _ hinv
    simpa using hinv
  | cons leftPos rest ih =>
    intro rightPos chain g gp hrem hinv
    have hlen : rightPos < input.length := by
      have := congrArg List.length hrem
      simp [List.length_drop] at this
      omega
    have hval : input.getD rightPos 0 = leftPos := by
      have h0 : (input.drop rightPos).getD 0 0 = leftPos := by rw [← hrem]; rfl
      rw [List.getD_eq_getElem?_getD] at h0 ⊢
      rwa [List.getElem?_drop, Nat.add_zero] at h0
    have hrest : rest = input.drop (rightPos + 1) := by
      have : (input.drop rightPos).drop 1 = input.drop (rightPos + 1) := by
        rw [List.drop_drop, Nat.add_comm]
      rw [← this, ← hrem]
      rfl
    rw [lcsOuter]
    cases hscan : lcsScan leftPos g chain 1 none with
    | mk lfh rest2 =>
      obtain ⟨prp, updated⟩ := rest2
      simp only
      have hnewinv : OuterInv input (rightPos + 1)
          ((rightPos, ⟨lfh, leftPos, prp⟩) :: chain) := by
        obtain ⟨hidx, hdesc, hprops⟩ := hinv
        refine ⟨?_, ?_, ?_⟩
        · intro x hx
          rcases List.mem_cons.mp hx with rfl | hx
          · simp
          · have := hidx x hx
            omega
        · exact List.pairwise_cons.mpr ⟨fun y hy => hidx y hy, hdesc⟩
        · intro x hx
          rcases List.mem_cons.mp hx with rfl | hx
          · refine ⟨hlen, by simpa using hval.symm, ?_⟩
            intro p hp
            simp only at hp
            have hspec := lcsScan_spec leftPos g chain 1 none p (by rw [hscan]; exact hp)
            rcases hspec with hnone | ⟨e, hmem, hcl⟩
            · cases hnone
            · refine ⟨hidx (p, e) hmem, e, List.mem_cons_of_mem _ hmem, ?_⟩
              simpa using hcl
          · obtain ⟨h1, h2, h3⟩ := hprops x hx
            refine ⟨h1, h2, fun p hp => ?_⟩
            obtain ⟨hpi, e', hmem', hcl'⟩ := h3 p hp
            exact ⟨hpi, e', List.mem_cons_of_mem _ hmem', hcl'⟩
      have := ih (rightPos + 1) ((rightPos, ⟨lfh, leftPos, prp⟩) :: chain)
        (if updated then lfh else g) (if updated then rightPos else gp) hrest hnewinv
      have harith : rightPos + 1 + rest.length = rightPos + (rest.length + 1) := by omega
      rw [harith] at this
      exact this

/-- The outer-loop invariant gives the lookup-form chain invariant. -/
theorem outerInv_chainOK (input : List Nat) (rightPos : Nat)
    (chain : List (Nat × ChainEntry)) (hinv : OuterInv input rightPos chain) :
    ChainOK input chain := by
  obtain ⟨_, hdesc, hprops⟩ := hinv
  intro i e hlook
  have hmem := mem_of_chainLookup chain i e hlook
  obtain ⟨h1, h2, h3⟩ := hprops (i, e) hmem
  refine ⟨h1, h2, fun p hp => ?_⟩
  obtain ⟨hpi, e', hmem', hcl'⟩ := h3 p hp
  exact ⟨hpi, e', chainLookup_eq_of_mem chain hdesc p e' hmem', hcl'⟩

/-- The backtracking loop produces a strictly increasing list whose
elements read the input at their right index. -/
theorem lcsBacktrack_spec (input : List Nat) (chain : List (Nat × ChainEntry))
    (hok : ChainOK input chain) :
    ∀ (fuel r : Nat) (acc : List (Nat × Nat)),
      List.Pairwise PairLt acc →
      (∀ x ∈ acc, input.getD r 0 < x.1 ∧ r < x.2) →
      List.Pairwise PairLt (lcsBacktrack chain fuel r acc) ∧
      ∀ x ∈ lcsBacktrack chain fuel r acc,
        x ∈ acc ∨ (x.2 ≤ r ∧ x.2 < input.length ∧ x.1 = input.getD x.2 0) := by
  intro fuel
  induction fuel with
  | zero =>
    intro r acc hacc _
    exact ⟨hacc, fun x hx => Or.inl hx⟩
  | succ fuel ih =>
    intro r acc hacc hbound
    rw [lcsBacktrack]
    split
    · exact ⟨hacc, fun x hx => Or.inl hx⟩
    · rename_i e hlook
      obtain ⟨hr, hcleft, hprev⟩ := hok r e hlook
      split
      · rename_i hpe
        refine ⟨List.pairwise_cons.mpr ⟨?_, hacc⟩, ?_⟩
        · intro y hy
          have := hbound y hy
          exact ⟨by omega, by omega⟩
        · intro x hx
          rcases List.mem_cons.mp hx with rfl | hx
          · exact Or.inr ⟨le_rfl, hr, hcleft⟩
          · exact Or.inl hx
      · rename_i p hpe
        obtain ⟨hpi, e', hlook', hcl'⟩ := hprev p hpe
        have hacc' : List.Pairwise PairLt ((e.cleft, r) :: acc) :=
          List.pairwise_cons.mpr ⟨fun y hy => ⟨by have := hbound y hy; omega,
            by have := hbound y hy; omega⟩, hacc⟩
        have hbound' : ∀ x ∈ (e.cleft, r) :: acc, input.getD p 0 < x.1 ∧ p < x.2 := by
          intro x hx
          have hpe' : input.getD p 0 = e'.cleft := (hok p e' hlook').2.1.symm
          rcases List.mem_cons.mp hx with rfl | hx
          · exact ⟨by rw [hpe']; simpa using hcl', hpi⟩
          · have := hbound x hx
            constructor
            · rw [hpe']
              have : e.cleft < x.1 := by omega
              omega
            · omega
        obtain ⟨hpw, hmem⟩ := ih p ((e.cleft, r) :: acc) hacc' hbound'
        refine ⟨hpw, fun x hx => ?_⟩
        rcases hmem x hx with hx' | hx'
        · rcases List.mem_cons.mp hx' with rfl | hx'
          · exact Or.inr ⟨le_rfl, hr, hcleft⟩
          · exact Or.inl hx'
        · exact Or.inr ⟨by omega, hx'.2⟩

/-- Unfolding equation for `find_lcs` on a nonempty input. -/
theorem findLcs_eq_of_ne (input : List Nat) (h : input ≠ []) :
    findLcs input =
      lcsBacktrack (lcsOuter input 0 [] 0 0).1 (lcsOuter input 0 [] 0 0).1.length
        (lcsOuter input 0 [] 0 0).2 [] := by
  cases input with
  | nil => exact absurd rfl h
  | cons a rest => rfl

/-- `find_lcs` output is strictly increasing in both components, right
indices are valid, and each left value is the input value at its right
index. -/
theorem findLcs_spec (input : List Nat) :
    List.Pairwise PairLt (findLcs input) ∧
      ∀ x ∈ findLcs input, x.2 < input.length ∧ x.1 = input.getD x.2 0 := by
  by_cases hne : input = []
  · subst hne; simp [findLcs]
  · rw [findLcs_eq_of_ne input hne]
    have hinv : OuterInv input (0 + input.length) (lcsOuter input 0 [] 0 0).1 :=
      lcsOuter_inv input input 0 [] 0 0 (by simp) ⟨by simp, by simp, by simp⟩
    have hok : ChainOK input (lcsOuter input 0 [] 0 0).1 :=
      outerInv_chainOK input _ _ hinv
    have := lcsBacktrack_spec input (lcsOuter input 0 [] 0 0).1 hok
      (lcsOuter input 0 [] 0 0).1.length (lcsOuter input 0 [] 0 0).2 []
      List.Pairwise.nil (by simp)
    refine ⟨this.1, fun x hx => ?_⟩
    rcases this.2 x hx with hx' | hx'
    · simp at hx'
    · exact ⟨hx'.2.1, hx'.2.2⟩

/-! ## Sortedness of `collect_unchanged_words`

The key structural fact behind the diff invariants: the collected
`(left, right)` word position pairs are strictly increasing in both
components and live inside the source windows. -/

/-- First components of a zip form a sublist of the first list. -/
theorem map_fst_zip_sublist {α β : Type} :
    ∀ (l1 : List α) (l2 : List β), ((l1.zip l2).map Prod.fst).Sublist l1 := by
  intro l1
  induction l1 with
  | nil => intro l2; simp
  | cons x l1 ih =>
    intro l2
    cases l2 with
    | nil => simp
    | cons y l2 => simpa using List.Sublist.cons₂ x (ih l2)

/-- Second components of a zip form a sublist of the second list. -/
theorem map_snd_zip_sublist {α β : Type} :
    ∀ (l1 : List α) (l2 : List β), ((l1.zip l2).map Prod.snd).Sublist l2 := by
  intro l1
  induction l1 with
  | nil => intro l2; simp
  | cons x l1 ih =>
    intro l2
    cases l2 with
    | nil => simp
    | cons y l2 => simpa using List.Sublist.cons₂ y (ih l2)

/-- Well-formedness of the histogram after processing the first `n`
words: positions are below `n`, ascending within each group, disjoint
across groups, representatives pairwise non-equal under the comparator,
and no group is empty. -/
def HistWF (cmp : Cmp) (n : Nat) (groups : List (Word × List Nat)) : Prop :=
  (∀ g ∈ groups, ∀ i ∈ g.2, i < n) ∧
    (∀ g ∈ groups, List.Pairwise (· < ·) g.2) ∧
    List.Pairwise (fun g1 g2 => ∀ i ∈ g1.2, ∀ j ∈ g2.2, i ≠ j) groups ∧
    List.Pairwise (fun g1 g2 => cmp g1.1 g2.1 = false) groups ∧
    ∀ g ∈ groups, g.2 ≠ []

/-- Elements after a `histAdd` step: either the freshly opened group or
an old group, possibly with the new position appended. -/
theorem histAdd_mem (cmp : Cmp) (maxOcc : Nat) (w : Word) (i : Nat) :
    ∀ (acc : List (Word × List Nat)) (g' : Word × List Nat),
      g' ∈ histAdd cmp maxOcc w i acc →
      g' = (w, [i]) ∨ ∃ g ∈ acc, g'.1 = g.1 ∧ (g'.2 = g.2 ∨ g'.2 = g.2 ++ [i]) := by
  intro acc
  induction acc with
  | nil =>
    intro g' hg'
    simp [histAdd] at hg'
    exact Or.inl hg'
  | cons x rest ih =>
    intro g' hg'
    rw [histAdd] at hg'
    by_cases hcmp : cmp x.1 w
    · rw [if_pos hcmp] at hg'
      rcases List.mem_cons.mp hg' with rfl | hg'
      · by_cases hlen : x.2.length ≤ maxOcc
        · exact Or.inr ⟨x, List.mem_cons_self .., rfl, Or.inr (by simp [hlen])⟩
        · exact Or.inr ⟨x, List.mem_cons_self .., rfl, Or.inl (by simp [hlen])⟩
      · exact Or.inr ⟨g', List.mem_cons_of_mem _ hg', rfl, Or.inl rfl⟩
    · rw [if_neg hcmp] at hg'
      rcases List.mem_cons.mp hg' with rfl | hg'
      · exact Or.inr ⟨x, List.mem_cons_self .., rfl, Or.inl rfl⟩
      · rcases ih g' hg' with h | ⟨g, hgmem, h1, h2⟩
        · exact Or.inl h
        · exact Or.inr ⟨g, List.mem_cons_of_mem _ hgmem, h1, h2⟩

/-- `histAdd` preserves histogram well-formedness while bumping the word
count. -/
theorem histAdd_wf (cmp : Cmp) (maxOcc : Nat) (w : Word) (n : Nat) :
    ∀ (acc : List (Word × List Nat)), HistWF cmp n acc →
      HistWF cmp (n + 1) (histAdd cmp maxOcc w n acc) := by
  intro acc
  induction acc with
  | nil =>
    intro _
    refine ⟨?_, ?_, ?_, ?_, ?_⟩ <;> simp [histAdd]
  | cons x rest ih =>
    intro hwf
    obtain ⟨hb, ha, hd, hc, hne⟩ := hwf
    have hrestwf : HistWF cmp n rest :=
      ⟨fun g hg => hb g (List.mem_cons_of_mem _ hg),
        fun g hg => ha g (List.mem_cons_of_mem _ hg),
        (List.pairwise_cons.mp hd).2, (List.pairwise_cons.mp hc).2,
        fun g hg => hne g (List.mem_cons_of_mem _ hg)⟩
    rw [histAdd]
    by_cases hcmp : cmp x.1 w
    · rw [if_pos hcmp]
      set ps' := if x.2.length ≤ maxOcc then x.2 ++ [n] else x.2 with hps'
      have hsub : ∀ i ∈ ps', i ∈ x.2 ∨ i = n := by
        intro i hi
        rw [hps'] at hi
        by_cases hlen : x.2.length ≤ maxOcc
        · rw [if_pos hlen] at hi
          rcases List.mem_append.mp hi with h | h
          · exact Or.inl h
          · exact Or.inr (by simpa using h)
        · rw [if_neg hlen] at hi
          exact Or.inl hi
      refine ⟨?_, ?_, ?_, ?_, ?_⟩
      · intro g hg i hi
        rcases List.mem_cons.mp hg with rfl | hg
        · rcases hsub i hi with h | rfl
          · have := hb x (List.mem_cons_self ..) i h
            omega
          · omega
        · have := hb g (List.mem_cons_of_mem _ hg) i hi
          omega
      · intro g hg
        rcases List.mem_cons.mp hg with rfl | hg
        · rw [hps']
          by_cases hlen : x.2.length ≤ maxOcc
        
          · rw [if_pos hlen]
            rw [List.pairwise_append]
            refine ⟨ha x (List.mem_cons_self ..), by simp, ?_⟩
            intro a hai b hbi
            have := hb x (List.mem_cons_self ..) a hai
            simp only [List.mem_singleton] at hbi
            omega
          · rw [if_neg hlen]
            exact ha x (List.mem_cons_self ..)
        · exact ha g (List.mem_cons_of_mem _ hg)
      · refine List.pairwise_cons.mpr ⟨?_, (List.pairwise_cons.mp hd).2⟩
        intro g hg i hi j hj
        have hjlt := hb g (List.mem_cons_of_mem _ hg) j hj
        rcases hsub i hi with h | rfl
        · exact (List.pairwise_cons.mp hd).1 g hg i h j hj
        · omega
      · exact List.pairwise_cons.mpr ⟨(List.pairwise_cons.mp hc).1,
          (List.pairwise_cons.mp hc).2⟩
      · intro g hg
        rcases List.mem_cons.mp hg with rfl | hg
        · rw [hps']
          by_cases hlen : x.2.length ≤ maxOcc
          · simp [hlen]
          · rw [if_neg hlen]
            exact hne x (List.mem_cons_self ..)
        · exact hne g (List.mem_cons_of_mem _ hg)
    · rw [if_neg hcmp]
      obtain ⟨hb', ha', hd', hc', hne'⟩ := ih hrestwf
      refine ⟨?_, ?_, ?_, ?_, ?_⟩
      · intro g hg i hi
        rcases List.mem_cons.mp hg with rfl | hg
        · have := hb x (List.mem_cons_self ..) i hi
          omega
        · exact hb' g hg i hi
      · intro g hg
        rcases List.mem_cons.mp hg with rfl | hg
        · exact ha x (List.mem_cons_self ..)
        · exact ha' g hg
      · refine List.pairwise_cons.mpr ⟨?_, hd'⟩
        intro g' hg' i hi j hj
        have hin : i < n := hb x (List.mem_cons_self ..) i hi
        rcases histAdd_mem cmp maxOcc w n rest g' hg' with rfl | ⟨g, hgmem, h1, h2⟩
        · simp only [List.mem_singleton] at hj
          omega
        · rcases h2 with h2 | h2
          · rw [h2] at hj
            exact (List.pairwise_cons.mp hd).1 g hgmem i hi j hj
          · rw [h2] at hj
            rcases List.mem_append.mp hj with hj | hj
            · exact (List.pairwise_cons.mp hd).1 g hgmem i hi j hj
            · simp only [List.mem_singleton] at hj
              omega
      · refine List.pairwise_cons.mpr ⟨?_, hc'⟩
        intro g' hg'
        rcases histAdd_mem cmp maxOcc w n rest g' hg' with rfl | ⟨g, hgmem, h1, _⟩
        · simpa using Bool.eq_false_iff.mpr (fun h => by rw [h] at hcmp; exact hcmp rfl)
        · rw [h1]
          exact (List.pairwise_cons.mp hc).1 g hgmem
      · intro g hg
        rcases List.mem_cons.mp hg with rfl | hg
        · exact hne x (List.mem_cons_self ..)
        · exact hne' g hg

/-- The histogram scan preserves well-formedness. -/
theorem histogramGo_wf (cmp : Cmp) (maxOcc : Nat) :
    ∀ (ws : List Word) (n : Nat) (acc : List (Word × List Nat)),
      HistWF cmp n acc → HistWF cmp (n + ws.length) (histogramGo cmp maxOcc ws n acc) := by
  intro ws
  induction ws with
  | nil => intro n acc h; simpa using h
  | cons w ws ih =>
    intro n acc h
    rw [histogramGo]
    have := ih (n + 1) _ (histAdd_wf cmp maxOcc w n acc h)
    have harith : n + 1 + ws.length = n + (ws.length + 1) := by omega
    rw [harith] at this
    simpa using this

/-- The complete histogram is well formed. -/
theorem histogram_wf (cmp : Cmp) (maxOcc : Nat) (ws : List Word) :
    HistWF cmp ws.length (histogram cmp maxOcc ws) := by
  have := histogramGo_wf cmp maxOcc ws 0 [] (by refine ⟨?_, ?_, ?_, ?_, ?_⟩ <;> simp)
  simpa using this

/-- `getD` at a valid index is a member. -/
theorem getD_mem_of_lt {α : Type} (l : List α) (d : α) (i : Nat) (h : i < l.length) :
    l.getD i d ∈ l := by
  rw [List.getD_eq_getElem l d h]
  exact List.getElem_mem h

/-- `getD` lookups respect strict sortedness. -/
theorem getD_lt_getD_of_pairwise (l : List Nat) (hs : List.Pairwise (· < ·) l)
    (i j : Nat) (hij : i < j) (hj : j < l.length) : l.getD i 0 < l.getD j 0 := by
  rw [List.getD_eq_getElem l 0 (by omega), List.getD_eq_getElem l 0 hj]
  exact List.pairwise_iff_getElem.mp hs i j (by omega) hj hij

/-- A `≤`-sorted list without duplicates is strictly sorted. -/
theorem pairwise_lt_of_le_nodup (l : List Nat) (hs : List.Pairwise (· ≤ ·) l)
    (hn : l.Nodup) : List.Pairwise (· < ·) l :=
  (hs.and hn).imp (fun h => lt_of_le_of_ne h.1 h.2)

/-- An element not matching the dropped predicate survives `dropWhile`. -/
theorem mem_dropWhile_of_mem {α : Type} (l : List α) (p : α → Bool) (x : α)
    (h : x ∈ l) (hp : p x = false) : x ∈ l.dropWhile p := by
  induction l with
  | nil => simp at h
  | cons a l ih =>
    rw [List.dropWhile_cons]
    rcases List.mem_cons.mp h with rfl | h
    · rw [hp]; simp
    · split
      · exact ih h
      · exact List.mem_cons_of_mem _ h

/-- `getD` of a `zip` at a valid index pairs the two lookups. -/
theorem getD_zip {α β : Type} (l1 : List α) (l2 : List β) (d1 : α) (d2 : β) (k : Nat)
    (h1 : k < l1.length) (h2 : k < l2.length) :
    (l1.zip l2).getD k (d1, d2) = (l1.getD k d1, l2.getD k d2) := by
  rw [List.getD_eq_getElem _ _ (by simp; omega), List.getD_eq_getElem _ _ h1,
    List.getD_eq_getElem _ _ h2]
  exact List.getElem_zip ..

/-- `getD` of a `map` at a valid index. -/
theorem getD_map {α β : Type} (l : List α) (f : α → β) (d : α) (k : Nat)
    (hk : k < l.length) : (l.map f).getD k (f d) = f (l.getD k d) := by
  rw [List.getD_eq_getElem _ _ (by simpa using hk), List.getD_eq_getElem _ _ hk]
  simp

/-- `getD` of an append inside the left part. -/
theorem getD_append_left {α : Type} (l1 l2 : List α) (d : α) (k : Nat)
    (h : k < l1.length) : (l1 ++ l2).getD k d = l1.getD k d := by
  rw [List.getD_eq_getElem _ _ (by simp; omega), List.getD_eq_getElem _ _ h]
  exact List.getElem_append_left ..

/-- `getD` of an append at the boundary index. -/
theorem getD_append_right {α : Type} (l1 l2 : List α) (d : α)
    (h2 : 0 < l2.length) : (l1 ++ l2).getD l1.length d = l2.getD 0 d := by
  rw [List.getD_eq_getElem _ _ (by simp [h2]), List.getD_eq_getElem _ _ h2]
  rw [List.getElem_append_right (by omega)]
  simp

/-- `CompareBytesExactly` is symmetric. -/
theorem cmpExact_sym (a b : Word) : cmpExact a b = cmpExact b a := by
  unfold cmpExact
  by_cases h : a = b
  · subst h; rfl
  · rw [Bool.eq_iff_iff]
    simp only [beq_iff_eq]
    exact ⟨fun h2 => (h h2).elim, fun h2 => (h h2.symm).elim⟩

/-- `CompareBytesExactly` is transitive. -/
theorem cmpExact_trans (a b c : Word) (h1 : cmpExact a b = true)
    (h2 : cmpExact b c = true) : cmpExact a c = true := by
  unfold cmpExact at *
  rw [beq_iff_eq] at *
  exact h1.trans h2

/-! ## Sortedness of the selected occurrence-class matches -/

/-- Well-formedness of one selected occurrence class (`ms`): each entry
pairs an ascending in-bounds left position list with an ascending
in-bounds right position list, and the entries are pairwise
position-disjoint on both sides. -/
def MsOK (nl nr : Nat) (ms : List (List Nat × List Nat)) : Prop :=
  (∀ m ∈ ms, List.Pairwise (· < ·) m.1 ∧ List.Pairwise (· < ·) m.2 ∧
    (∀ i ∈ m.1, i < nl) ∧ (∀ j ∈ m.2, j < nr)) ∧
  List.Pairwise (fun m m' => (∀ i ∈ m.1, ∀ i' ∈ m'.1, i ≠ i') ∧
    (∀ j ∈ m.2, ∀ j' ∈ m'.2, j ≠ j')) ms

/-- Matches of one occurrence class inherit well-formedness from the two
histograms, for an equivalence comparator. -/
theorem classMatches_ok (cmp : Cmp) (hsym : ∀ a b, cmp a b = cmp b a)
    (htrans : ∀ a b c, cmp a b = true → cmp b c = true → cmp a c = true)
    (nl nr : Nat) (lgroups rgroups entries : List (Word × List Nat))
    (hent : entries.Sublist lgroups)
    (hL : HistWF cmp nl lgroups) (hR : HistWF cmp nr rgroups) :
    MsOK nl nr (classMatches cmp rgroups entries) := by
  obtain ⟨hLb, hLa, hLd, hLc, _⟩ := hL
  obtain ⟨hRb, hRa, hRd, _, _⟩ := hR
  constructor
  · intro m hm
    rw [classMatches, List.mem_filterMap] at hm
    obtain ⟨g, hg, hfg⟩ := hm
    have hgl : g ∈ lgroups := hent.mem hg
    rcases hfind : histFind cmp rgroups g.1 with _ | rps
    · rw [hfind] at hfg; simp at hfg
    · rw [hfind] at hfg
      dsimp only at hfg
      by_cases hlen : g.2.length = rps.length
      · rw [if_pos hlen, Option.some_inj] at hfg
        subst hfg
        rw [histFind, Option.map_eq_some'] at hfind
        obtain ⟨r, hr, hr2⟩ := hfind
        have hrmem : r ∈ rgroups := List.mem_of_find?_eq_some hr
        subst hr2
        exact ⟨hLa g hgl, hRa r hrmem, fun i hi => hLb g hgl i hi,
          fun j hj => hRb r hrmem j hj⟩
      · rw [if_neg hlen] at hfg; simp at hfg
  · rw [classMatches, List.pairwise_filterMap]
    have hpair : lgroups.Pairwise (fun g g' =>
        (∀ i ∈ g.2, ∀ i' ∈ g'.2, i ≠ i') ∧ cmp g.1 g'.1 = false) :=
      hLd.and hLc
    refine (hpair.sublist hent).imp ?_
    intro g g' hgg' m hm m' hm'
    rw [Option.mem_def] at hm hm'
    rcases hfind : histFind cmp rgroups g.1 with _ | rps
    · rw [hfind] at hm; simp at hm
    rcases hfind' : histFind cmp rgroups g'.1 with _ | rps'
    · rw [hfind'] at hm'; simp at hm'
    rw [hfind] at hm
    rw [hfind'] at hm'
    dsimp only at hm hm'
    by_cases hlen : g.2.length = rps.length
    swap
    · rw [if_neg hlen] at hm; simp at hm
    by_cases hlen' : g'.2.length = rps'.length
    swap
    · rw [if_neg hlen'] at hm'; simp at hm'
    rw [if_pos hlen, Option.some_inj] at hm
    rw [if_pos hlen', Option.some_inj] at hm'
    subst hm hm'
    rw [histFind, Option.map_eq_some'] at hfind hfind'
    obtain ⟨r, hr, hr2⟩ := hfind
    obtain ⟨r', hr', hr2'⟩ := hfind'
    have hrmem : r ∈ rgroups := List.mem_of_find?_eq_some hr
    have hrmem' : r' ∈ rgroups := List.mem_of_find?_eq_some hr'
    have hcr : cmp r.1 g.1 = true := by
      have h0 := List.find?_some hr
      simpa using h0
    have hcr' : cmp r'.1 g'.1 = true := by
      have h0 := List.find?_some hr'
      simpa using h0
    have hrne : r ≠ r' := by
      intro heq
      subst heq
      have h1 : cmp g.1 r.1 = true := by rw [hsym]; exact hcr
      have h2 : cmp g.1 g'.1 = true := htrans _ _ _ h1 hcr'
      rw [hgg'.2] at h2
      exact Bool.false_ne_true h2
    have hsymm : Symmetric (fun g1 g2 : Word × List Nat =>
        ∀ i ∈ g1.2, ∀ j ∈ g2.2, i ≠ j) := by
      intro a b h i hi j hj
      exact (h j hj i hi).symm
    have hdisj := hRd.forall hsymm hrmem hrmem' hrne
    subst hr2 hr2'
    exact ⟨by simpa using hgg'.1, by simpa using hdisj⟩

/-- The first nonempty occurrence class is the matches of some count
filter. -/
theorem firstClassGo_some (cmp : Cmp) (groups rh : List (Word × List Nat)) :
    ∀ (cs : List Nat) (ms : List (List Nat × List Nat)),
      firstClassGo cmp groups rh cs = some ms →
      ∃ c, ms = classMatches cmp rh (groups.filter (fun g => g.2.length = c)) := by
  intro cs
  induction cs with
  | nil => intro ms h; simp [firstClassGo] at h
  | cons c cs ih =>
    intro ms h
    rw [firstClassGo] at h
    split at h
    · exact ih ms h
    · exact ⟨c, (Option.some_inj.mp h).symm⟩

/-- The selected class of `collect_unchanged_words_lcs` is well
formed. -/
theorem firstClassMatches_ok (cmp : Cmp) (hsym : ∀ a b, cmp a b = cmp b a)
    (htrans : ∀ a b c, cmp a b = true → cmp b c = true → cmp a c = true)
    (nl nr maxOcc : Nat) (lws rws : List Word)
    (hnl : lws.length = nl) (hnr : rws.length = nr)
    (ms : List (List Nat × List Nat))
    (h : firstClassMatches cmp (histogram cmp maxOcc lws)
      (histogram cmp maxOcc rws) = some ms) :
    MsOK nl nr ms := by
  obtain ⟨c, rfl⟩ := firstClassGo_some cmp _ _ _ ms h
  subst hnl hnr
  exact classMatches_ok cmp hsym htrans _ _ _ _ _ (List.filter_sublist _)
    (histogram_wf cmp maxOcc lws) (histogram_wf cmp maxOcc rws)

/-- The occurrence-paired anchors of a well-formed class have distinct
left positions, distinct right positions, and in-bounds positions. -/
theorem lcsAnchorPairs_spec (nl nr : Nat) (ms : List (List Nat × List Nat))
    (h : MsOK nl nr ms) :
    ((lcsAnchorPairs ms).map Prod.fst).Nodup ∧
    ((lcsAnchorPairs ms).map Prod.snd).Nodup ∧
    ∀ p ∈ lcsAnchorPairs ms, p.1 < nl ∧ p.2 < nr := by
  obtain ⟨hper, hpair⟩ := h
  refine ⟨?_, ?_, ?_⟩
  · rw [lcsAnchorPairs, List.map_flatMap, List.flatMap_def]
    show List.Pairwise (· ≠ ·) _
    rw [List.pairwise_flatten]
    constructor
    · intro l hl
      rw [List.mem_map] at hl
      obtain ⟨m, hm, rfl⟩ := hl
      exact ((hper m hm).1.imp Nat.ne_of_lt).sublist (map_fst_zip_sublist m.1 m.2)
    · rw [List.pairwise_map]
      refine hpair.imp ?_
      intro a b hab x hx y hy
      exact hab.1 x ((map_fst_zip_sublist a.1 a.2).mem hx) y
        ((map_fst_zip_sublist b.1 b.2).mem hy)
  · rw [lcsAnchorPairs, List.map_flatMap, List.flatMap_def]
    show List.Pairwise (· ≠ ·) _
    rw [List.pairwise_flatten]
    constructor
    · intro l hl
      rw [List.mem_map] at hl
      obtain ⟨m, hm, rfl⟩ := hl
      exact ((hper m hm).2.1.imp Nat.ne_of_lt).sublist (map_snd_zip_sublist m.1 m.2)
    · rw [List.pairwise_map]
      refine hpair.imp ?_
      intro a b hab x hx y hy
      exact hab.2 x ((map_snd_zip_sublist a.1 a.2).mem hx) y
        ((map_snd_zip_sublist b.1 b.2).mem hy)
  · intro p hp
    rw [lcsAnchorPairs, List.mem_flatMap] at hp
    obtain ⟨m, hm, hpz⟩ := hp
    obtain ⟨h1, h2⟩ := List.of_mem_zip hpz
    exact ⟨(hper m hm).2.2.1 p.1 h1, (hper m hm).2.2.2 p.2 h2⟩

/-- The sorted left positions: strictly ascending, with the same length
and members as the anchors' left components. -/
theorem pairsLeftSorted_spec (pairs : List (Nat × Nat))
    (hnd : (pairs.map Prod.fst).Nodup) :
    List.Pairwise (· < ·) (pairsLeftSorted pairs) ∧
    (pairsLeftSorted pairs).length = pairs.length ∧
    ∀ x, x ∈ pairsLeftSorted pairs ↔ x ∈ pairs.map Prod.fst := by
  have hperm := List.perm_insertionSort (· ≤ ·) (pairs.map (·.1))
  refine ⟨?_, ?_, fun x => hperm.mem_iff⟩
  · exact pairwise_lt_of_le_nodup _ (List.sorted_insertionSort _ _)
      (hperm.nodup_iff.mpr hnd)
  · rw [pairsLeftSorted, hperm.length_eq, List.length_map]

/-- The right-sorted anchors: strictly ascending right components, with
the same length and members as the anchors. -/
theorem pairsRightSorted_spec (pairs : List (Nat × Nat))
    (hnd : (pairs.map Prod.snd).Nodup) :
    List.Pairwise (fun a b => a.2 < b.2) (pairsRightSorted pairs) ∧
    (pairsRightSorted pairs).length = pairs.length ∧
    ∀ x, x ∈ pairsRightSorted pairs ↔ x ∈ pairs := by
  have instT : IsTotal (Nat × Nat) (fun a b => a.2 ≤ b.2) :=
    ⟨fun a b => Nat.le_total a.2 b.2⟩
  have instR : IsTrans (Nat × Nat) (fun a b => a.2 ≤ b.2) :=
    ⟨fun _ _ _ => Nat.le_trans⟩
  have hperm := List.perm_insertionSort (fun a b : Nat × Nat => a.2 ≤ b.2) pairs
  have hsorted : List.Pairwise (fun a b : Nat × Nat => a.2 ≤ b.2)
      (pairsRightSorted pairs) := List.sorted_insertionSort _ pairs
  have hnd2 : ((pairsRightSorted pairs).map Prod.snd).Nodup :=
    ((hperm.map Prod.snd).nodup_iff).mpr hnd
  have hne : List.Pairwise (fun a b : Nat × Nat => a.2 ≠ b.2) (pairsRightSorted pairs) :=
    List.pairwise_map.mp hnd2
  refine ⟨(hsorted.and hne).imp (fun h => lt_of_le_of_ne h.1 h.2), ?_,
    fun x => hperm.mem_iff⟩
  rw [pairsRightSorted, hperm.length_eq]

/-- Fields of `LocalDiffSource::narrowed`. -/
theorem narrowed_off (s : LocalSrc) (a b : Nat) : (s.narrowed a b).off = s.off + a := rfl

/-- Word count of `LocalDiffSource::narrowed`. -/
theorem narrowed_length (s : LocalSrc) (a b : Nat) :
    (s.narrowed a b).words.length = min (b - a) (s.words.length - a) := by
  rw [LocalSrc.narrowed]
  simp

/-- The anchor loop emits strictly increasing global position pairs lying
in the narrowed windows, given sorted lookup tables, a strictly
increasing LCS and a recursion satisfying the same contract. -/
theorem anchorWalk_spec (recurse : LocalSrc → LocalSrc → List (Nat × Nat))
    (left right : LocalSrc) (leftSorted rightSorted : List Nat)
    (hrec : ∀ l r, List.Pairwise PairLt (recurse l r) ∧ ∀ p ∈ recurse l r,
      l.off ≤ p.1 ∧ p.1 < l.off + l.words.length ∧
      r.off ≤ p.2 ∧ p.2 < r.off + r.words.length)
    (hls : List.Pairwise (· < ·) leftSorted)
    (hlb : ∀ x ∈ leftSorted, x < left.words.length)
    (hrs : List.Pairwise (· < ·) rightSorted)
    (hrb : ∀ x ∈ rightSorted, x < right.words.length) :
    ∀ (lcs : List (Nat × Nat)) (prevL prevR : Nat),
      List.Pairwise PairLt lcs →
      (∀ x ∈ lcs, x.1 < leftSorted.length ∧ x.2 < rightSorted.length) →
      (∀ x ∈ lcs, prevL ≤ leftSorted.getD x.1 0 ∧ prevR ≤ rightSorted.getD x.2 0) →
      prevL ≤ left.words.length → prevR ≤ right.words.length →
      List.Pairwise PairLt
        (anchorWalk recurse left right leftSorted rightSorted lcs prevL prevR) ∧
      ∀ p ∈ anchorWalk recurse left right leftSorted rightSorted lcs prevL prevR,
        left.off + prevL ≤ p.1 ∧ p.1 < left.off + left.words.length ∧
        right.off + prevR ≤ p.2 ∧ p.2 < right.off + right.words.length := by
  intro lcs
  induction lcs with
  | nil =>
    intro prevL prevR _ _ _ hpl hpr
    rw [anchorWalk]
    obtain ⟨hp, hb⟩ := hrec (left.narrowed prevL left.words.length)
      (right.narrowed prevR right.words.length)
    refine ⟨hp, ?_⟩
    intro p hp'
    obtain ⟨h1, h2, h3, h4⟩ := hb p hp'
    simp only [narrowed_off, narrowed_length] at h1 h2
    simp only [narrowed_off, narrowed_length] at h3 h4
    omega
  | cons a rest ih =>
    intro prevL prevR hpw hbnd hprev hpl hpr
    obtain ⟨li, ri⟩ := a
    rw [anchorWalk]
    have hli : li < leftSorted.length := (hbnd (li, ri) (List.mem_cons_self ..)).1
    have hri : ri < rightSorted.length := (hbnd (li, ri) (List.mem_cons_self ..)).2
    set lpos := leftSorted.getD li 0 with hlpos
    set rpos := rightSorted.getD ri 0 with hrpos
    have hlpmem : lpos ∈ leftSorted := getD_mem_of_lt _ _ _ hli
    have hrpmem : rpos ∈ rightSorted := getD_mem_of_lt _ _ _ hri
    have hlpb : lpos < left.words.length := hlb _ hlpmem
    have hrpb : rpos < right.words.length := hrb _ hrpmem
    have hprevl : prevL ≤ lpos := (hprev (li, ri) (List.mem_cons_self ..)).1
    have hprevr : prevR ≤ rpos := (hprev (li, ri) (List.mem_cons_self ..)).2
    obtain ⟨hrp, hrb'⟩ := hrec (left.narrowed prevL lpos) (right.narrowed prevR rpos)
    have hArec : ∀ p ∈ recurse (left.narrowed prevL lpos) (right.narrowed prevR rpos),
        left.off + prevL ≤ p.1 ∧ p.1 < left.off + lpos ∧
        right.off + prevR ≤ p.2 ∧ p.2 < right.off + rpos := by
      intro p hp
      obtain ⟨h1, h2, h3, h4⟩ := hrb' p hp
      simp only [narrowed_off, narrowed_length] at h1 h2
      simp only [narrowed_off, narrowed_length] at h3 h4
      omega
    have hheadpw := (List.pairwise_cons.mp hpw).1
    obtain ⟨ihpw, ihb⟩ := ih (lpos + 1) (rpos + 1) (List.pairwise_cons.mp hpw).2
      (fun x hx => hbnd x (List.mem_cons_of_mem _ hx))
      (by
        intro x hx
        have hx1 : li < x.1 := (hheadpw x hx).1
        have hx2 : ri < x.2 := (hheadpw x hx).2
        have hxb := hbnd x (List.mem_cons_of_mem _ hx)
        constructor
        · have := getD_lt_getD_of_pairwise leftSorted hls li x.1 hx1 hxb.1
          omega
        · have := getD_lt_getD_of_pairwise rightSorted hrs ri x.2 hx2 hxb.2
          omega)
      (by omega) (by omega)
    constructor
    · rw [List.pairwise_append]
      refine ⟨hrp, ?_, ?_⟩
      · rw [List.pairwise_cons]
        refine ⟨?_, ihpw⟩
        intro w hw
        have := ihb w hw
        exact ⟨by omega, by omega⟩
      · intro p hp q hq
        have hpA := hArec p hp
        rcases List.mem_cons.mp hq with rfl | hq
        · exact ⟨by omega, by omega⟩
        · have := ihb q hq
          exact ⟨by omega, by omega⟩
    · intro p hp
      rcases List.mem_append.mp hp with hp | hp
      · have := hArec p hp
        refine ⟨by omega, by omega, by omega, by omega⟩
      · rcases List.mem_cons.mp hp with rfl | hp
        · refine ⟨by omega, by omega, by omega, by omega⟩
        · have := ihb p hp
          refine ⟨by omega, by omega, by omega, by omega⟩

/-- The common leading word count never exceeds either word count. -/
theorem commonLeadCount_le (cmp : Cmp) (l r : List Word) :
    commonLeadCount cmp l r ≤ l.length ∧ commonLeadCount cmp l r ≤ r.length := by
  have h := (List.takeWhile_sublist (fun p : Word × Word => cmp p.1 p.2)
    (l := l.zip r)).length_le
  rw [List.length_zip] at h
  unfold commonLeadCount
  omega

/-- The common trailing word count never exceeds either word count. -/
theorem commonTrailCount_le (cmp : Cmp) (l r : List Word) :
    commonTrailCount cmp l r ≤ l.length ∧ commonTrailCount cmp l r ≤ r.length := by
  have h := (List.takeWhile_sublist (fun p : Word × Word => cmp p.1 p.2)
    (l := l.reverse.zip r.reverse)).length_le
  rw [List.length_zip, List.length_reverse, List.length_reverse] at h
  unfold commonTrailCount
  omega

/-- `collect_unchanged_words_lcs` emits strictly increasing in-window
position pairs, for an equivalence comparator and a recursion satisfying
the same contract. -/
theorem collectLcs_spec (cmp : Cmp) (hsym : ∀ a b, cmp a b = cmp b a)
    (htrans : ∀ a b c, cmp a b = true → cmp b c = true → cmp a c = true)
    (recurse : LocalSrc → LocalSrc → List (Nat × Nat))
    (hrec : ∀ l r, List.Pairwise PairLt (recurse l r) ∧ ∀ p ∈ recurse l r,
      l.off ≤ p.1 ∧ p.1 < l.off + l.words.length ∧
      r.off ≤ p.2 ∧ p.2 < r.off + r.words.length)
    (left right : LocalSrc) :
    List.Pairwise PairLt (collectLcs cmp recurse left right) ∧
    ∀ p ∈ collectLcs cmp recurse left right,
      left.off ≤ p.1 ∧ p.1 < left.off + left.words.length ∧
      right.off ≤ p.2 ∧ p.2 < right.off + right.words.length := by
  rw [collectLcs]
  dsimp only
  split
  · simp
  · split
    · simp
    · split
      · simp
      · rename_i minCount hmin ms hms
        have hMs : MsOK left.words.length right.words.length ms :=
          firstClassMatches_ok cmp hsym htrans _ _ 100 left.words right.words
            rfl rfl ms hms
        obtain ⟨hnd1, hnd2, hbnds⟩ := lcsAnchorPairs_spec _ _ ms hMs
        obtain ⟨hlsP, hlsLen, hlsMem⟩ := pairsLeftSorted_spec _ hnd1
        obtain ⟨hrsP, hrsLen, hrsMem⟩ := pairsRightSorted_spec _ hnd2
        have hrsP2 : List.Pairwise (· < ·)
            ((pairsRightSorted (lcsAnchorPairs ms)).map (·.2)) :=
          List.pairwise_map.mpr hrsP
        have hlb : ∀ x ∈ pairsLeftSorted (lcsAnchorPairs ms),
            x < left.words.length := by
          intro x hx
          rw [hlsMem, List.mem_map] at hx
          obtain ⟨p, hp, rfl⟩ := hx
          exact (hbnds p hp).1
        have hrb : ∀ x ∈ (pairsRightSorted (lcsAnchorPairs ms)).map (·.2),
            x < right.words.length := by
          intro x hx
          rw [List.mem_map] at hx
          obtain ⟨p, hp, rfl⟩ := hx
          exact (hbnds p ((hrsMem p).mp hp)).2
        obtain ⟨hlcsP, hlcsB⟩ := findLcs_spec (lcsInput (lcsAnchorPairs ms))
        have hinlen : (lcsInput (lcsAnchorPairs ms)).length =
            ((pairsRightSorted (lcsAnchorPairs ms)).map (·.2)).length := by
          rw [lcsInput, List.length_map, List.length_map]
        have hbnd2 : ∀ x ∈ findLcs (lcsInput (lcsAnchorPairs ms)),
            x.1 < (pairsLeftSorted (lcsAnchorPairs ms)).length ∧
            x.2 < ((pairsRightSorted (lcsAnchorPairs ms)).map (·.2)).length := by
          intro x hx
          obtain ⟨hx2, hx1⟩ := hlcsB x hx
          refine ⟨?_, by omega⟩
          have hxmem : x.1 ∈ lcsInput (lcsAnchorPairs ms) := by
            rw [hx1]
            exact getD_mem_of_lt _ _ _ hx2
          rw [lcsInput, List.mem_map] at hxmem
          obtain ⟨p, hp, heq⟩ := hxmem
          rw [← heq]
          apply List.findIdx_lt_length_of_exists
          refine ⟨p.1, ?_, by simp⟩
          rw [hlsMem, List.mem_map]
          exact ⟨p, (hrsMem p).mp hp, rfl⟩
        obtain ⟨hwP, hwB⟩ := anchorWalk_spec recurse left right _ _ hrec hlsP hlb
          hrsP2 hrb (findLcs (lcsInput (lcsAnchorPairs ms))) 0 0 hlcsP hbnd2
          (by intro x hx; omega) (by omega) (by omega)
        refine ⟨hwP, ?_⟩
        intro p hp
        have := hwB p hp
        omega

/-- `collect_unchanged_words` emits strictly increasing position pairs
inside the two sources' windows, for an equivalence comparator. -/
theorem collectWords_spec (cmp : Cmp) (hsym : ∀ a b, cmp a b = cmp b a)
    (htrans : ∀ a b c, cmp a b = true → cmp b c = true → cmp a c = true) :
    ∀ (fuel : Nat) (left right : LocalSrc),
      List.Pairwise PairLt (collectWords cmp fuel left right) ∧
      ∀ p ∈ collectWords cmp fuel left right,
        left.off ≤ p.1 ∧ p.1 < left.off + left.words.length ∧
        right.off ≤ p.2 ∧ p.2 < right.off + right.words.length := by
  intro fuel
  induction fuel with
  | zero => intro l r; simp [collectWords]
  | succ fuel ih =>
    intro left right
    rw [collectWords]
    split
    · simp
    · obtain ⟨hLp, hLb⟩ := collectLcs_spec cmp hsym htrans _ ih left right
      dsimp only
      split
      · obtain ⟨hld1, hld2⟩ := commonLeadCount_le cmp left.words right.words
        obtain ⟨htr1, htr2⟩ := commonTrailCount_le cmp
          (left.words.drop (commonLeadCount cmp left.words right.words))
          (right.words.drop (commonLeadCount cmp left.words right.words))
        rw [List.length_drop] at htr1
        rw [List.length_drop] at htr2
        set lead := commonLeadCount cmp left.words right.words with hlead
        set trail := commonTrailCount cmp (left.words.drop lead)
          (right.words.drop lead) with htrail
        constructor
        · rw [List.pairwise_append]
          refine ⟨?_, ?_, ?_⟩
          · exact List.pairwise_map.mpr ((List.pairwise_lt_range lead).imp
              (fun h => ⟨by omega, by omega⟩))
          · exact List.pairwise_map.mpr ((List.pairwise_lt_range trail).imp
              (fun h => ⟨by omega, by omega⟩))
          · intro a ha b hb
            rw [List.mem_map] at ha hb
            obtain ⟨i, hi, rfl⟩ := ha
            obtain ⟨j, hj, rfl⟩ := hb
            rw [List.mem_range] at hi hj
            exact ⟨by omega, by omega⟩
        · intro p hp
          rcases List.mem_append.mp hp with hp | hp <;> rw [List.mem_map] at hp <;>
            obtain ⟨i, hi, rfl⟩ := hp <;> rw [List.mem_range] at hi
          · exact ⟨by omega, by omega, by omega, by omega⟩
          · exact ⟨by omega, by omega, by omega, by omega⟩
      · exact ⟨hLp, hLb⟩

/-! ## Tokenizer range well-formedness -/

/-- Well-formed token ranges over an input of `n` bytes: each range is
ordered and in bounds, and consecutive ranges do not overlap. -/
def TokRangesOK (n : Nat) (rs : List Rg) : Prop :=
  (∀ r ∈ rs, r.start ≤ r.stop ∧ r.stop ≤ n) ∧
  List.Chain' (fun a b => a.stop ≤ b.start) rs

/-- A well-formed tokenizer. -/
def TokOK (tok : List Byte → List Rg) : Prop :=
  ∀ t, TokRangesOK t.length (tok t)

/-- Invariant of the `find_line_ranges` scan. -/
theorem lineRangesGo_ok :
    ∀ (t : List Byte) (start i : Nat), start ≤ i →
      (∀ r ∈ lineRangesGo t start i,
        start ≤ r.start ∧ r.start ≤ r.stop ∧ r.stop ≤ i + t.length) ∧
      List.Chain' (fun a b => a.stop ≤ b.start) (lineRangesGo t start i) := by
  intro t
  induction t with
  | nil =>
    intro start i hsi
    rw [lineRangesGo]
    split
    · refine ⟨?_, by simp⟩
      intro r hr
      rw [List.mem_singleton] at hr
      subst hr
      exact ⟨Nat.le_refl _, hsi, by simp⟩
    · simp
  | cons b rest ih =>
    intro start i hsi
    rw [lineRangesGo]
    split
    · obtain ⟨ihb, ihc⟩ := ih (i + 1) (i + 1) (Nat.le_refl _)
      constructor
      · intro r hr
        rcases List.mem_cons.mp hr with rfl | hr
        · refine ⟨Nat.le_refl _, by dsimp only; omega, by dsimp only; simp only [List.length_cons]; omega⟩
        · have := ihb r hr
          refine ⟨by omega, by omega, by simp; omega⟩
      · rw [List.chain'_cons']
        refine ⟨?_, ihc⟩
        intro y hy
        have := ihb y (List.mem_of_mem_head? hy)
        simp only []
        omega
    · obtain ⟨ihb, ihc⟩ := ih start (i + 1) (by omega)
      refine ⟨?_, ihc⟩
      intro r hr
      have := ihb r hr
      refine ⟨by omega, by omega, by simp; omega⟩

/-- `find_line_ranges` produces well-formed ranges. -/
theorem findLineRanges_ok : TokOK findLineRanges := by
  intro t
  obtain ⟨hb, hc⟩ := lineRangesGo_ok t 0 0 (Nat.le_refl _)
  refine ⟨?_, hc⟩
  intro r hr
  have := hb r hr
  exact ⟨by omega, by omega⟩

/-- Invariant of the `find_word_ranges` scan. -/
theorem wordRangesGo_ok :
    ∀ (t : List Byte) (wordStart i : Nat) (inWord : Bool), wordStart ≤ i →
      (∀ r ∈ wordRangesGo t wordStart i inWord,
        wordStart ≤ r.start ∧ r.start ≤ r.stop ∧ r.stop ≤ i + t.length) ∧
      List.Chain' (fun a b => a.stop ≤ b.start) (wordRangesGo t wordStart i inWord) := by
  intro t
  induction t with
  | nil =>
    intro wordStart i inWord hsi
    rw [wordRangesGo]
    split
    · refine ⟨?_, by simp⟩
      intro r hr
      rw [List.mem_singleton] at hr
      subst hr
      exact ⟨Nat.le_refl _, hsi, by simp⟩
    · simp
  | cons b rest ih =>
    intro wordStart i inWord hsi
    rw [wordRangesGo]
    split
    · obtain ⟨ihb, ihc⟩ := ih i (i + 1) false (by omega)
      constructor
      · intro r hr
        rcases List.mem_cons.mp hr with rfl | hr
        · refine ⟨Nat.le_refl _, by dsimp only; omega, by dsimp only; simp only [List.length_cons]; omega⟩
        · have := ihb r hr
          refine ⟨by omega, by omega, by simp; omega⟩
      · rw [List.chain'_cons']
        refine ⟨?_, ihc⟩
        intro y hy
        have := ihb y (List.mem_of_mem_head? hy)
        simp only []
        omega
    · split
      · obtain ⟨ihb, ihc⟩ := ih i (i + 1) true (by omega)
        refine ⟨?_, ihc⟩
        intro r hr
        have := ihb r hr
        refine ⟨by omega, by omega, by simp; omega⟩
      · obtain ⟨ihb, ihc⟩ := ih wordStart (i + 1) inWord (by omega)
        refine ⟨?_, ihc⟩
        intro r hr
        have := ihb r hr
        refine ⟨by omega, by omega, by simp; omega⟩

/-- `find_word_ranges` produces well-formed ranges. -/
theorem findWordRanges_ok : TokOK findWordRanges := by
  intro t
  obtain ⟨hb, hc⟩ := wordRangesGo_ok t 0 0 false (Nat.le_refl _)
  refine ⟨?_, hc⟩
  intro r hr
  have := hb r hr
  exact ⟨by omega, by omega⟩

/-- `find_nonword_ranges` produces well-formed ranges. -/
theorem findNonwordRanges_ok : TokOK findNonwordRanges := by
  intro t
  constructor
  · intro r hr
    rw [findNonwordRanges, List.mem_filterMap] at hr
    obtain ⟨i, hi, hf⟩ := hr
    rw [List.mem_range] at hi
    split at hf
    · simp at hf
    · rw [Option.some_inj] at hf
      subst hf
      refine ⟨?_, ?_⟩ <;> dsimp only <;> omega
  · apply List.Pairwise.chain'
    rw [findNonwordRanges, List.pairwise_filterMap]
    refine (List.pairwise_lt_range t.length).imp ?_
    intro i j hij x hx y hy
    split at hx
    · simp at hx
    · split at hy
      · simp at hy
      · rw [Option.mem_def, Option.some_inj] at hx hy
        subst hx hy
        dsimp only
        omega

/-! ## Intersection of unchanged word positions -/

/-- Strict entrywise order on intersected position entries: base position
and every collected other-position increase. -/
def IpLt (a b : Nat × List Nat) : Prop :=
  a.1 < b.1 ∧ ∀ k, k < a.2.length → a.2.getD k 0 < b.2.getD k 0

/-- The head of a `dropWhile` result does not satisfy the predicate. -/
theorem dropWhile_eq_cons_head_false {α : Type} (l : List α) (p : α → Bool)
    (x : α) (xs : List α) (h : l.dropWhile p = x :: xs) : p x = false := by
  induction l with
  | nil => simp at h
  | cons a l ih =>
    rw [List.dropWhile_cons] at h
    split at h
    · exact ih h
    · rename_i hpa
      rw [List.cons.injEq] at h
      rw [← h.1]
      exact Bool.not_eq_true _ |>.mp hpa

/-- Every intersected entry extends an entry of the current side with the
other-position of a matching entry of the new side. -/
theorem intersect_mem :
    ∀ (cur : List (Nat × List Nat)) (news : List (Nat × Nat)),
      ∀ x ∈ intersectUnchangedWords cur news,
        ∃ c ∈ cur, ∃ n ∈ news, x = (c.1, c.2 ++ [n.2]) ∧ c.1 = n.1 := by
  intro cur
  induction cur with
  | nil => intro news x hx; simp [intersectUnchangedWords] at hx
  | cons cb cur ih =>
    obtain ⟨cb, cos⟩ := cb
    intro news x hx
    rw [intersectUnchangedWords] at hx
    rcases hdw : news.dropWhile (fun n => decide (n.1 < cb)) with _ | ⟨⟨nb, no⟩, newRest⟩
    · rw [hdw] at hx; simp at hx
    · rw [hdw] at hx
      have hsubl : ((nb, no) :: newRest).Sublist news := by
        rw [← hdw]; exact List.dropWhile_sublist _
      dsimp only at hx
      split at hx
      · obtain ⟨c, hc, n, hn, h1, h2⟩ := ih _ x hx
        exact ⟨c, List.mem_cons_of_mem _ hc, n, hsubl.mem hn, h1, h2⟩
      · rcases List.mem_cons.mp hx with rfl | hx
        · have hpred := dropWhile_eq_cons_head_false news _ _ _ hdw
          simp only [decide_eq_false_iff_not] at hpred
          refine ⟨(cb, cos), List.mem_cons_self .., (nb, no),
            hsubl.mem (List.mem_cons_self ..), rfl, ?_⟩
          dsimp only
          omega
        · obtain ⟨c, hc, n, hn, h1, h2⟩ := ih _ x hx
          exact ⟨c, List.mem_cons_of_mem _ hc, n,
            hsubl.mem (List.mem_cons_of_mem _ hn), h1, h2⟩

/-- Intersection preserves strict entrywise ordering and extends the
arity by one. -/
theorem intersect_pairwise (m : Nat) :
    ∀ (cur : List (Nat × List Nat)) (news : List (Nat × Nat)),
      List.Pairwise IpLt cur → (∀ c ∈ cur, c.2.length = m) →
      List.Pairwise PairLt news →
      List.Pairwise IpLt (intersectUnchangedWords cur news) ∧
      ∀ x ∈ intersectUnchangedWords cur news, x.2.length = m + 1 := by
  intro cur
  induction cur with
  | nil => intro news _ _ _; simp [intersectUnchangedWords]
  | cons cb cur ih =>
    obtain ⟨cb, cos⟩ := cb
    intro news hpw harity hnews
    have hcoslen : cos.length = m := harity (cb, cos) (List.mem_cons_self ..)
    rw [intersectUnchangedWords]
    rcases hdw : news.dropWhile (fun n => decide (n.1 < cb)) with _ | ⟨⟨nb, no⟩, newRest⟩
    · rw [hdw]
      simp
    · rw [hdw]
      have hsubl : ((nb, no) :: newRest).Sublist news := by
        rw [← hdw]; exact List.dropWhile_sublist _
      have hnews' : List.Pairwise PairLt ((nb, no) :: newRest) := hnews.sublist hsubl
      dsimp only
      split
      · exact ih _ (List.pairwise_cons.mp hpw).2
          (fun c hc => harity c (List.mem_cons_of_mem _ hc)) hnews'
      · obtain ⟨ihp, ihlen⟩ := ih newRest (List.pairwise_cons.mp hpw).2
          (fun c hc => harity c (List.mem_cons_of_mem _ hc))
          (List.pairwise_cons.mp hnews').2
        constructor
        · rw [List.pairwise_cons]
          refine ⟨?_, ihp⟩
          intro x hx
          obtain ⟨c, hc, n, hn, rfl, h2⟩ := intersect_mem cur newRest x hx
          have hc2len : c.2.length = m := harity c (List.mem_cons_of_mem _ hc)
          have hhead := (List.pairwise_cons.mp hpw).1 c hc
          constructor
          · exact hhead.1
          · intro k hk
            dsimp only at hk ⊢
            rw [List.length_append, List.length_singleton, hcoslen] at hk
            by_cases hkm : k < m
            · rw [show (cos ++ [no]).getD k 0 = cos.getD k 0 from
                getD_append_left cos [no] 0 k (by omega)]
              rw [show (c.2 ++ [n.2]).getD k 0 = c.2.getD k 0 from
                getD_append_left c.2 [n.2] 0 k (by omega)]
              exact hhead.2 k (by show k < cos.length; omega)
            · have hkeq : k = m := by omega
              rw [hkeq]
              have e1 : (cos ++ [no]).getD m 0 = no := by
                rw [show m = cos.length from hcoslen.symm]
                rw [getD_append_right cos [no] 0 (by simp)]
                simp
              have e2 : (c.2 ++ [n.2]).getD m 0 = n.2 := by
                rw [show m = c.2.length from hc2len.symm]
                rw [getD_append_right c.2 [n.2] 0 (by simp)]
                simp
              rw [e1, e2]
              have hno := (List.pairwise_cons.mp hnews').1 n hn
              exact hno.2
        · intro x hx
          rcases List.mem_cons.mp hx with rfl | hx
          · dsimp only
            rw [List.length_append, List.length_singleton, hcoslen]
          · exact ihlen x hx

/-- If both sides are sorted, every matching pair of the two sides is
intersected (completeness of the merge join). -/
theorem intersect_mem_back :
    ∀ (cur : List (Nat × List Nat)) (news : List (Nat × Nat))
      (c : Nat × List Nat) (n : Nat × Nat),
      List.Pairwise (fun a b : Nat × List Nat => a.1 < b.1) cur →
      List.Pairwise PairLt news →
      c ∈ cur → n ∈ news → c.1 = n.1 →
      (c.1, c.2 ++ [n.2]) ∈ intersectUnchangedWords cur news := by
  intro cur
  induction cur with
  | nil => intro news c n _ _ hc; simp at hc
  | cons cb cur ih =>
    obtain ⟨cb, cos⟩ := cb
    intro news c n hpw hnews hc hn hcn
    have hnpred : (fun p : Nat × Nat => decide (p.1 < cb)) n = false := by
      rcases List.mem_cons.mp hc with rfl | hc
      · simp only [decide_eq_false_iff_not]
        omega
      · have := (List.pairwise_cons.mp hpw).1 c hc
        simp only [decide_eq_false_iff_not]
        omega
    rw [intersectUnchangedWords]
    rcases hdw : news.dropWhile (fun p => decide (p.1 < cb)) with _ | ⟨⟨nb, no⟩, newRest⟩
    · exfalso
      have := mem_dropWhile_of_mem news (fun p => decide (p.1 < cb)) n hn hnpred
      rw [hdw] at this
      simp at this
    · rw [hdw]
      have hsubl : ((nb, no) :: newRest).Sublist news := by
        rw [← hdw]; exact List.dropWhile_sublist _
      have hnews' : List.Pairwise PairLt ((nb, no) :: newRest) := hnews.sublist hsubl
      have hpred := dropWhile_eq_cons_head_false news _ _ _ hdw
      simp only [decide_eq_false_iff_not] at hpred
      have hnin : n ∈ (nb, no) :: newRest := by
        rw [← hdw]
        exact mem_dropWhile_of_mem news (fun p => decide (p.1 < cb)) n hn hnpred
      dsimp only
      rcases List.mem_cons.mp hc with rfl | hc
      · have hneq : n = (nb, no) := by
          rcases List.mem_cons.mp hnin with rfl | hnin
          · rfl
          · exfalso
            have hplt := (List.pairwise_cons.mp hnews').1 n hnin
            obtain ⟨h1, h2⟩ := hplt
            omega
        subst hneq
        rw [if_neg (by omega)]
        exact List.mem_cons_self ..
      · have hclt : cb < c.1 := ((List.pairwise_cons.mp hpw).1 c hc : _)
        split
        · exact ih _ c n (List.pairwise_cons.mp hpw).2 hnews' hc hnin hcn
        · rename_i hnb
          have hnne : n ∈ newRest := by
            rcases List.mem_cons.mp hnin with rfl | hnin
            · exfalso; omega
            · exact hnin
          exact List.mem_cons_of_mem _
            (ih _ c n (List.pairwise_cons.mp hpw).2 (List.pairwise_cons.mp hnews').2
              hc hnne hcn)

/-- Offset of a `mkLocal` source. -/
theorem mkLocal_off (t : List Byte) (rs : List Rg) : (mkLocal t rs).off = 0 := rfl

/-- Word count of a `mkLocal` source. -/
theorem mkLocal_len (t : List Byte) (rs : List Rg) :
    (mkLocal t rs).words.length = rs.length := by
  rw [mkLocal]
  simp

/-- The intersect fold over the remaining inputs keeps entries strictly
ordered, of full arity, and bounded by the respective token range
counts. -/
theorem fold_spec (cmp : Cmp) (hsym : ∀ a b, cmp a b = cmp b a)
    (htrans : ∀ a b c, cmp a b = true → cmp b c = true → cmp a c = true)
    (fuel : Nat) (baseSrc : LocalSrc) :
    ∀ (tail : List (List Byte × List Rg)) (init : List (Nat × List Nat))
      (bnds : List Nat),
      List.Pairwise IpLt init →
      (∀ x ∈ init, x.2.length = bnds.length ∧
        x.1 < baseSrc.off + baseSrc.words.length ∧
        ∀ k, k < bnds.length → x.2.getD k 0 < bnds.getD k 0) →
      List.Pairwise IpLt (List.foldl (fun acc other => intersectUnchangedWords acc
        (collectWords cmp fuel baseSrc (mkLocal other.1 other.2))) init tail) ∧
      ∀ x ∈ List.foldl (fun acc other => intersectUnchangedWords acc
        (collectWords cmp fuel baseSrc (mkLocal other.1 other.2))) init tail,
        x.2.length = bnds.length + tail.length ∧
        x.1 < baseSrc.off + baseSrc.words.length ∧
        ∀ k, k < bnds.length + tail.length →
          x.2.getD k 0 < (bnds ++ tail.map (fun o => o.2.length)).getD k 0 := by
  intro tail
  induction tail with
  | nil =>
    intro init bnds hpw hb
    rw [List.foldl_nil]
    refine ⟨hpw, ?_⟩
    intro x hx
    obtain ⟨h1, h2, h3⟩ := hb x hx
    refine ⟨by simpa using h1, h2, ?_⟩
    intro k hk
    simp only [List.length_nil, Nat.add_zero] at hk
    rw [List.map_nil, List.append_nil]
    exact h3 k hk
  | cons other rest ih =>
    intro init bnds hpw hb
    rw [List.foldl_cons]
    obtain ⟨hcwP, hcwB⟩ := collectWords_spec cmp hsym htrans fuel baseSrc
      (mkLocal other.1 other.2)
    obtain ⟨hip, hilen⟩ := intersect_pairwise bnds.length init
      (collectWords cmp fuel baseSrc (mkLocal other.1 other.2)) hpw
      (fun c hc => (hb c hc).1) hcwP
    have hib : ∀ x ∈ intersectUnchangedWords init
        (collectWords cmp fuel baseSrc (mkLocal other.1 other.2)),
        x.2.length = (bnds ++ [other.2.length]).length ∧
        x.1 < baseSrc.off + baseSrc.words.length ∧
        ∀ k, k < (bnds ++ [other.2.length]).length →
          x.2.getD k 0 < (bnds ++ [other.2.length]).getD k 0 := by
      intro x hx
      obtain ⟨c, hc, n, hn, rfl, hcn⟩ := intersect_mem _ _ x hx
      obtain ⟨hc1, hc2, hc3⟩ := hb c hc
      refine ⟨by simp [hc1], hc2, ?_⟩
      intro k hk
      rw [List.length_append, List.length_singleton] at hk
      by_cases hkm : k < bnds.length
      · rw [show ((c.1, c.2 ++ [n.2]) : Nat × List Nat).2 = c.2 ++ [n.2] from rfl]
        rw [show (c.2 ++ [n.2]).getD k 0 = c.2.getD k 0 from
          getD_append_left c.2 [n.2] 0 k (by omega)]
        rw [show (bnds ++ [other.2.length]).getD k 0 = bnds.getD k 0 from
          getD_append_left bnds [other.2.length] 0 k (by omega)]
        exact hc3 k hkm
      · have hkeq : k = bnds.length := by omega
        rw [hkeq]
        rw [show ((c.1, c.2 ++ [n.2]) : Nat × List Nat).2 = c.2 ++ [n.2] from rfl]
        have e1 : (c.2 ++ [n.2]).getD bnds.length 0 = n.2 := by
          rw [show bnds.length = c.2.length from hc1.symm]
          rw [getD_append_right c.2 [n.2] 0 (by simp)]
          simp
        have e2 : (bnds ++ [other.2.length]).getD bnds.length 0 = other.2.length := by
          rw [getD_append_right bnds [other.2.length] 0 (by simp)]
          simp
        rw [e1, e2]
        have := hcwB n hn
        rw [mkLocal_off, mkLocal_len] at this
        omega
    obtain ⟨hfp, hfb⟩ := ih _ (bnds ++ [other.2.length]) hip hib
    refine ⟨hfp, ?_⟩
    intro x hx
    obtain ⟨h1, h2, h3⟩ := hfb x hx
    rw [List.length_append, List.length_singleton] at h1
    refine ⟨by simp at h1 ⊢; omega, h2, ?_⟩
    intro k hk
    have h3' := h3 k (by rw [List.length_append, List.length_singleton]; simp at hk ⊢; omega)
    rw [List.append_assoc] at h3'
    simpa using h3'

/-- Every entry of the intersect fold has a matching position pair
against every processed input. -/
theorem fold_mem_forward (cmp : Cmp) (fuel : Nat) (baseSrc : LocalSrc) :
    ∀ (tail : List (List Byte × List Rg)) (init : List (Nat × List Nat))
      (x : Nat × List Nat),
      x ∈ List.foldl (fun acc other => intersectUnchangedWords acc
        (collectWords cmp fuel baseSrc (mkLocal other.1 other.2))) init tail →
      ∃ c ∈ init, x.1 = c.1 ∧ ∀ o ∈ tail,
        ∃ q ∈ collectWords cmp fuel baseSrc (mkLocal o.1 o.2), q.1 = x.1 := by
  intro tail
  induction tail with
  | nil =>
    intro init x hx
    rw [List.foldl_nil] at hx
    exact ⟨x, hx, rfl, by simp⟩
  | cons other rest ih =>
    intro init x hx
    rw [List.foldl_cons] at hx
    obtain ⟨c', hc', hx1, hrest⟩ := ih _ x hx
    obtain ⟨c, hc, n, hn, heq, hcn⟩ := intersect_mem _ _ c' hc'
    refine ⟨c, hc, by rw [hx1, heq], ?_⟩
    intro o ho
    rcases List.mem_cons.mp ho with rfl | ho
    · exact ⟨n, hn, by rw [hx1, heq, ← hcn]⟩
    · exact hrest o ho

/-- A base position matched against every remaining input survives the
intersect fold (completeness). -/
theorem fold_mem_back (cmp : Cmp) (hsym : ∀ a b, cmp a b = cmp b a)
    (htrans : ∀ a b c, cmp a b = true → cmp b c = true → cmp a c = true)
    (fuel : Nat) (baseSrc : LocalSrc) :
    ∀ (tail : List (List Byte × List Rg)) (init : List (Nat × List Nat))
      (m : Nat) (b : Nat),
      List.Pairwise IpLt init → (∀ c ∈ init, c.2.length = m) →
      (∃ c ∈ init, c.1 = b) →
      (∀ o ∈ tail, ∃ q ∈ collectWords cmp fuel baseSrc (mkLocal o.1 o.2), q.1 = b) →
      ∃ x ∈ List.foldl (fun acc other => intersectUnchangedWords acc
        (collectWords cmp fuel baseSrc (mkLocal other.1 other.2))) init tail,
        x.1 = b := by
  intro tail
  induction tail with
  | nil =>
    intro init m b _ _ hex _
    rw [List.foldl_nil]
    exact hex
  | cons other rest ih =>
    intro init m b hpw harity hex hall
    rw [List.foldl_cons]
    obtain ⟨c, hc, rfl⟩ := hex
    obtain ⟨q, hq, hq1⟩ := hall other (List.mem_cons_self ..)
    obtain ⟨hcwP, _⟩ := collectWords_spec cmp hsym htrans fuel baseSrc
      (mkLocal other.1 other.2)
    have hmem := intersect_mem_back init _ c q
      (hpw.imp (fun h => h.1)) hcwP hc hq hq1.symm
    obtain ⟨hip, hilen⟩ := intersect_pairwise m init _ hpw harity hcwP
    exact ih _ (m + 1) c.1 hip hilen ⟨(c.1, c.2 ++ [q.2]), hmem, rfl⟩
      (fun o ho => hall o (List.mem_cons_of_mem _ ho))

/-! ## Unchanged region invariants and compaction -/

/-- Well-formed unchanged region: full arity, ordered in-bounds base
range, and ordered in-bounds other ranges. -/
def UrgOK (baseLen : Nat) (otherLens : List Nat) (r : UnchangedRg) : Prop :=
  r.others.length = otherLens.length ∧
  r.base.start ≤ r.base.stop ∧ r.base.stop ≤ baseLen ∧
  ∀ k, k < otherLens.length →
    (r.others.getD k ⟨0, 0⟩).start ≤ (r.others.getD k ⟨0, 0⟩).stop ∧
    (r.others.getD k ⟨0, 0⟩).stop ≤ otherLens.getD k 0

/-- Ordering of two unchanged regions: the first ends before the second
starts, on the base and on every other input. -/
def UrgLe (p c : UnchangedRg) : Prop :=
  p.base.stop ≤ c.base.start ∧
  ∀ k, k < p.others.length →
    (p.others.getD k ⟨0, 0⟩).stop ≤ (c.others.getD k ⟨0, 0⟩).start

/-- The base byte positions covered by a region list. -/
def inRgSet (i : Nat) (rs : List UnchangedRg) : Prop :=
  ∃ r ∈ rs, r.base.start ≤ i ∧ i < r.base.stop

theorem inRgSet_cons (i : Nat) (r : UnchangedRg) (rs : List UnchangedRg) :
    inRgSet i (r :: rs) ↔ (r.base.start ≤ i ∧ i < r.base.stop) ∨ inRgSet i rs := by
  rw [inRgSet, inRgSet]
  constructor
  · rintro ⟨x, hx, h⟩
    rcases List.mem_cons.mp hx with rfl | hx
    · exact Or.inl h
    · exact Or.inr ⟨x, hx, h⟩
  · rintro (h | ⟨x, hx, h⟩)
    · exact ⟨r, List.mem_cons_self .., h⟩
    · exact ⟨x, List.mem_cons_of_mem _ hx, h⟩

/-- Unfolding of the merge condition. -/
theorem contiguousRg_true_iff (p c : UnchangedRg) : contiguousRg p c = true ↔
    p.base.stop = c.base.start ∧
    ∀ x ∈ p.others.zip c.others, x.1.stop = x.2.start := by
  rw [contiguousRg, Bool.and_eq_true, beq_iff_eq, List.all_eq_true]
  constructor
  · rintro ⟨h1, h2⟩
    exact ⟨h1, fun x hx => by have := h2 x hx; rwa [beq_iff_eq] at this⟩
  · rintro ⟨h1, h2⟩
    exact ⟨h1, fun x hx => by rw [beq_iff_eq]; exact h2 x hx⟩

/-- Component ranges of a merged region. -/
theorem mergeRg_getD (p c : UnchangedRg) (k : Nat) (h1 : k < p.others.length)
    (h2 : k < c.others.length) :
    (mergeRg p c).others.getD k ⟨0, 0⟩ =
      ⟨(p.others.getD k ⟨0, 0⟩).start, (c.others.getD k ⟨0, 0⟩).stop⟩ := by
  rw [mergeRg]
  dsimp only
  rw [List.getD_eq_getElem _ _ (by simp; omega)]
  rw [List.getElem_map, List.getElem_zip]
  rw [List.getD_eq_getElem _ _ h1, List.getD_eq_getElem _ _ h2]

/-- Arity of a merged region. -/
theorem mergeRg_length (p c : UnchangedRg) :
    (mergeRg p c).others.length = min p.others.length c.others.length := by
  rw [mergeRg]
  simp

/-- The zip-based merge condition, stated through indexed lookups. -/
theorem contiguous_others_iff (p : UnchangedRg) (os : List Rg) :
    (∀ y ∈ p.others.zip os, y.1.stop = y.2.start) ↔
    ∀ j, j < min p.others.length os.length →
      (p.others.getD j ⟨0, 0⟩).stop = (os.getD j ⟨0, 0⟩).start := by
  constructor
  · intro hall j hj
    have hj1 : j < p.others.length := by omega
    have hj2 : j < os.length := by omega
    have hjz : j < (p.others.zip os).length := by simp; omega
    rw [List.getD_eq_getElem _ _ hj1, List.getD_eq_getElem _ _ hj2]
    have hmem : (p.others[j], os[j]) ∈ p.others.zip os := by
      have hz : (p.others.zip os)[j] = (p.others[j], os[j]) := List.getElem_zip ..
      rw [← hz]
      exact List.getElem_mem _
    exact hall _ hmem
  · intro hidx y hy
    obtain ⟨j, hj, hjy⟩ := List.getElem_of_mem hy
    rw [List.length_zip] at hj
    rw [← hjy, List.getElem_zip]
    dsimp only
    rw [← List.getD_eq_getElem p.others ⟨0, 0⟩ (by omega),
      ← List.getD_eq_getElem os ⟨0, 0⟩ (by omega)]
    exact hidx j hj

/-- The merge condition only depends on the second region's start
positions. -/
theorem contiguousRg_congr (p c h : UnchangedRg)
    (hlen : c.others.length = h.others.length)
    (hb : h.base.start = c.base.start)
    (hs : ∀ k, k < c.others.length →
      (h.others.getD k ⟨0, 0⟩).start = (c.others.getD k ⟨0, 0⟩).start) :
    contiguousRg p h = contiguousRg p c := by
  rw [Bool.eq_iff_iff, contiguousRg_true_iff, contiguousRg_true_iff, hb]
  rw [contiguous_others_iff, contiguous_others_iff]
  constructor
  · rintro ⟨h1, h2⟩
    refine ⟨h1, ?_⟩
    intro j hj
    rw [← hs j (by omega)]
    exact h2 j (by omega)
  · rintro ⟨h1, h2⟩
    refine ⟨h1, ?_⟩
    intro j hj
    rw [hs j (by omega)]
    exact h2 j (by omega)

/-- The compaction loop: starting from a pending region and a tail
satisfying the ordering invariant, it returns a nonempty list that keeps
the pending region's start positions, preserves well-formedness and
ordering, leaves no contiguous neighbors, and covers exactly the same
base byte positions. -/
theorem compactGo_spec (baseLen : Nat) (otherLens : List Nat) :
    ∀ (rs : List UnchangedRg) (p : UnchangedRg),
      UrgOK baseLen otherLens p →
      (∀ r ∈ rs, UrgOK baseLen otherLens r) →
      List.Chain' UrgLe (p :: rs) →
      ∃ h t, compactGo (some p) rs = h :: t ∧
        h.base.start = p.base.start ∧
        (∀ k, k < otherLens.length →
          (h.others.getD k ⟨0, 0⟩).start = (p.others.getD k ⟨0, 0⟩).start) ∧
        (∀ r ∈ h :: t, UrgOK baseLen otherLens r) ∧
        List.Chain' UrgLe (h :: t) ∧
        List.Chain' (fun a b => contiguousRg a b = false) (h :: t) ∧
        ∀ i, inRgSet i (h :: t) ↔ inRgSet i (p :: rs) := by
  intro rs
  induction rs with
  | nil =>
    intro p hOK _ _
    refine ⟨p, [], rfl, rfl, fun k hk => rfl, ?_, List.chain'_singleton _,
      List.chain'_singleton _, fun i => Iff.rfl⟩
    intro r hr
    rw [List.mem_singleton] at hr
    subst hr
    exact hOK
  | cons c rest ih =>
    intro p hOKp hOKrs hch
    have hOKc : UrgOK baseLen otherLens c := hOKrs c (List.mem_cons_self ..)
    have hOKrest : ∀ r ∈ rest, UrgOK baseLen otherLens r :=
      fun r hr => hOKrs r (List.mem_cons_of_mem _ hr)
    have hch1 : UrgLe p c := (List.chain'_cons.mp hch).1
    have hch2 : List.Chain' UrgLe (c :: rest) := (List.chain'_cons.mp hch).2
    rw [compactGo]
    by_cases hcont : contiguousRg p c = true
    · rw [if_pos hcont]
      obtain ⟨hbeq, hoeq⟩ := (contiguousRg_true_iff p c).mp hcont
      rw [contiguous_others_iff] at hoeq
      obtain ⟨hl1, hb1, hb2, ho1⟩ := hOKp
      obtain ⟨hl2, hc1, hc2, ho2⟩ := hOKc
      have hOKm : UrgOK baseLen otherLens (mergeRg p c) := by
        refine ⟨by rw [mergeRg_length]; omega, ?_, ?_, ?_⟩
        · show p.base.start ≤ c.base.stop
          omega
        · show c.base.stop ≤ baseLen
          omega
        · intro k hk
          rw [mergeRg_getD p c k (by omega) (by omega)]
          have h1 := ho1 k hk
          have h2 := ho2 k hk
          have h3 := hoeq k (by omega)
          constructor
          · show (p.others.getD k ⟨0, 0⟩).start ≤ (c.others.getD k ⟨0, 0⟩).stop
            omega
          · show (c.others.getD k ⟨0, 0⟩).stop ≤ otherLens.getD k 0
            omega
      have hchm : List.Chain' UrgLe (mergeRg p c :: rest) := by
        rw [List.chain'_cons']
        refine ⟨?_, (List.chain'_cons'.mp hch2).2⟩
        intro y hy
        obtain ⟨hcy1, hcy2⟩ := (List.chain'_cons'.mp hch2).1 y hy
        constructor
        · show c.base.stop ≤ y.base.start
          exact hcy1
        · intro k hk
          rw [mergeRg_length] at hk
          rw [mergeRg_getD p c k (by omega) (by omega)]
          show (c.others.getD k ⟨0, 0⟩).stop ≤ (y.others.getD k ⟨0, 0⟩).start
          exact hcy2 k (by omega)
      obtain ⟨h, t, heq, hstart, hstarts, hOKall, hchain, hnc, hset⟩ :=
        ih (mergeRg p c) hOKm hOKrest hchm
      refine ⟨h, t, heq, by rw [hstart]; rfl, ?_, hOKall, hchain, hnc, ?_⟩
      · intro k hk
        rw [hstarts k hk, mergeRg_getD p c k (by omega) (by omega)]
      · intro i
        rw [hset i]
        rw [inRgSet_cons, inRgSet_cons, inRgSet_cons]
        have hm1 : (mergeRg p c).base.start = p.base.start := rfl
        have hm2 : (mergeRg p c).base.stop = c.base.stop := rfl
        constructor
        · rintro (hin | hin)
          · rw [hm1, hm2] at hin
            by_cases hi : i < p.base.stop
            · exact Or.inl ⟨hin.1, hi⟩
            · exact Or.inr (Or.inl ⟨by omega, hin.2⟩)
          · exact Or.inr (Or.inr hin)
        · rintro (hin | hin | hin)
          · exact Or.inl ⟨by rw [hm1]; omega, by rw [hm2]; omega⟩
          · exact Or.inl ⟨by rw [hm1]; omega, by rw [hm2]; omega⟩
          · exact Or.inr hin
    · rw [if_neg hcont]
      have hfalse : contiguousRg p c = false := by
        rcases Bool.eq_false_or_eq_true (contiguousRg p c) with hf | hf
        · exact absurd hf hcont
        · exact hf
      obtain ⟨h, t, heq, hstart, hstarts, hOKall, hchain, hnc, hset⟩ :=
        ih c hOKc hOKrest hch2
      rw [heq]
      refine ⟨p, h :: t, rfl, rfl, fun k hk => rfl, ?_, ?_, ?_, ?_⟩
      · intro r hr
        rcases List.mem_cons.mp hr with rfl | hr
        · exact hOKp
        · exact hOKall r hr
      · rw [List.chain'_cons]
        refine ⟨?_, hchain⟩
        obtain ⟨hpc1, hpc2⟩ := hch1
        constructor
        · rw [hstart]
          exact hpc1
        · intro k hk
          have hkO : k < otherLens.length := by rw [← hOKp.1]; exact hk
          rw [hstarts k hkO]
          exact hpc2 k hk
      · rw [List.chain'_cons]
        refine ⟨?_, hnc⟩
        have hcongr : contiguousRg p h = contiguousRg p c :=
          contiguousRg_congr p c h
            (by rw [hOKc.1, (hOKall h (List.mem_cons_self ..)).1]) hstart
            (fun k hk => hstarts k (by rw [← hOKc.1]; exact hk))
        rw [hcongr]
        exact hfalse
      · intro i
        rw [inRgSet_cons i p (h :: t), inRgSet_cons i p (c :: rest)]
        exact or_congr Iff.rfl (hset i)

/-- Sorted non-overlapping ranges are pairwise non-overlapping. -/
theorem tokRanges_pairwise (rs : List Rg) (hwf : ∀ r ∈ rs, r.start ≤ r.stop)
    (hch : List.Chain' (fun a b => a.stop ≤ b.start) rs) :
    List.Pairwise (fun a b => a.stop ≤ b.start) rs := by
  induction rs with
  | nil => simp
  | cons a l ih =>
    rw [List.pairwise_cons]
    have hchl : List.Chain' (fun a b : Rg => a.stop ≤ b.start) l :=
      (List.chain'_cons'.mp hch).2
    have ihl := ih (fun r hr => hwf r (List.mem_cons_of_mem _ hr)) hchl
    refine ⟨?_, ihl⟩
    intro b hb
    rcases l with _ | ⟨b0, l'⟩
    · simp at hb
    · have ha0 : a.stop ≤ b0.start := (List.chain'_cons'.mp hch).1 b0 rfl
      have hb0wf : b0.start ≤ b0.stop := hwf b0 (List.mem_cons_of_mem _ (List.mem_cons_self ..))
      rcases List.mem_cons.mp hb with rfl | hb
      · exact ha0
      · have := (List.pairwise_cons.mp ihl).1 b hb
        omega

/-- Indexed form: an earlier token range ends before a later one
starts. -/
theorem tokRanges_getD_le (n : Nat) (rs : List Rg) (h : TokRangesOK n rs)
    (i j : Nat) (hij : i < j) (hj : j < rs.length) :
    (rs.getD i ⟨0, 0⟩).stop ≤ (rs.getD j ⟨0, 0⟩).start := by
  have hpw := tokRanges_pairwise rs (fun r hr => (h.1 r hr).1) h.2
  rw [List.getD_eq_getElem _ _ (by omega), List.getD_eq_getElem _ _ hj]
  exact List.pairwise_iff_getElem.mp hpw i j (by omega) hj hij

/-- Component ranges of `UnchangedRange::from_word_positions`. -/
theorem fwp_getD (br : List Rg) (orl : List (List Rg)) (bp : Nat) (ops : List Nat)
    (k : Nat) (h1 : k < orl.length) (h2 : k < ops.length) :
    (fromWordPositions br orl bp ops).others.getD k ⟨0, 0⟩ =
      rangeAt (orl.getD k []) (ops.getD k 0) := by
  rw [fromWordPositions]
  dsimp only
  rw [List.getD_eq_getElem _ _ (by simp; omega), List.getElem_map, List.getElem_zip]
  rw [List.getD_eq_getElem _ _ h1, List.getD_eq_getElem _ _ h2]

/-- `getD` of `replicate` inside the bound. -/
theorem getD_replicate {α : Type} (n : Nat) (d x : α) (k : Nat) (hk : k < n) :
    (List.replicate n d).getD k x = d := by
  rw [List.getD_eq_getElem _ _ (by simpa using hk)]
  simp

/-- The region list of `Diff::with_inputs_and_token_ranges` before
compaction. -/
def rawRegions (cmp : Cmp) (baseInput : List Byte) (otherInputs : List (List Byte))
    (baseRanges : List Rg) (otherRangesList : List (List Rg)) : List UnchangedRg :=
  match otherInputs.zip otherRangesList with
  | [] => [(⟨⟨0, baseInput.length⟩, []⟩ : UnchangedRg)]
  | firstOther :: tailOthers =>
    let baseSrc := mkLocal baseInput baseRanges
    let sentinelStart : UnchangedRg :=
      ⟨⟨0, 0⟩, List.replicate otherInputs.length ⟨0, 0⟩⟩
    let sentinelEnd : UnchangedRg :=
      ⟨⟨baseInput.length, baseInput.length⟩,
        otherInputs.map (fun t => ⟨t.length, t.length⟩)⟩
    let firstPositions :=
      collectWords cmp (collectFuel baseRanges) baseSrc
        (mkLocal firstOther.1 firstOther.2)
    let mids :=
      if tailOthers.isEmpty then
        firstPositions.map (fun p =>
          fromWordPositions baseRanges otherRangesList p.1 [p.2])
      else
        let ips := tailOthers.foldl
          (fun acc other =>
            intersectUnchangedWords acc
              (collectWords cmp (collectFuel baseRanges) baseSrc
                (mkLocal other.1 other.2)))
          (firstPositions.map (fun p => (p.1, [p.2])))
        ips.map (fun p => fromWordPositions baseRanges otherRangesList p.1 p.2)
    sentinelStart :: (mids ++ [sentinelEnd])

/-- `with_inputs_and_token_ranges` equals the compaction of the raw
region list. -/
theorem withInputs_eq (cmp : Cmp) (baseInput : List Byte)
    (otherInputs : List (List Byte)) (baseRanges : List Rg)
    (otherRangesList : List (List Rg)) :
    withInputsAndTokenRanges cmp baseInput otherInputs baseRanges otherRangesList =
      { baseInput := baseInput
        otherInputs := otherInputs
        unchangedRegions := compactRegions
          (rawRegions cmp baseInput otherInputs baseRanges otherRangesList) } := rfl

/-- The `unchanged_positions` fold of `with_inputs_and_token_ranges`: the
base-vs-first diff intersected with the diffs against every remaining
input. -/
def diffIps (cmp : Cmp) (b : List Byte) (br : List Rg)
    (firstOther : List Byte × List Rg)
    (tailOthers : List (List Byte × List Rg)) : List (Nat × List Nat) :=
  tailOthers.foldl
    (fun acc other =>
      intersectUnchangedWords acc
        (collectWords cmp (collectFuel br) (mkLocal b br)
          (mkLocal other.1 other.2)))
    ((collectWords cmp (collectFuel br) (mkLocal b br)
      (mkLocal firstOther.1 firstOther.2)).map (fun p => (p.1, [p.2])))

/-- The intersected position entries are strictly ordered, in bounds,
and their base positions are exactly those with an unchanged-word
partner against every other input. -/
theorem diffIps_spec (cmp : Cmp) (hsym : ∀ a b, cmp a b = cmp b a)
    (htrans : ∀ a b c, cmp a b = true → cmp b c = true → cmp a c = true)
    (b : List Byte) (br : List Rg) (firstOther : List Byte × List Rg)
    (tailOthers : List (List Byte × List Rg)) :
    List.Pairwise IpLt (diffIps cmp b br firstOther tailOthers) ∧
    (∀ x ∈ diffIps cmp b br firstOther tailOthers,
      x.2.length = tailOthers.length + 1 ∧ x.1 < br.length ∧
      ∀ k, k < tailOthers.length + 1 →
        x.2.getD k 0 < (((firstOther :: tailOthers).map (fun o => o.2.length)).getD k 0)) ∧
    ∀ w, (∃ x ∈ diffIps cmp b br firstOther tailOthers, x.1 = w) ↔
      ∀ z ∈ firstOther :: tailOthers, ∃ q ∈ collectWords cmp (collectFuel br)
        (mkLocal b br) (mkLocal z.1 z.2), q.1 = w := by
  obtain ⟨hfP, hfB⟩ := collectWords_spec cmp hsym htrans (collectFuel br)
    (mkLocal b br) (mkLocal firstOther.1 firstOther.2)
  have hinitP : List.Pairwise IpLt
      ((collectWords cmp (collectFuel br) (mkLocal b br)
        (mkLocal firstOther.1 firstOther.2)).map (fun p => (p.1, [p.2]))) := by
    rw [List.pairwise_map]
    refine hfP.imp ?_
    intro p q hpq
    refine ⟨hpq.1, ?_⟩
    intro k hk
    simp only [List.length_singleton] at hk
    have hk0 : k = 0 := by omega
    subst hk0
    exact hpq.2
  have hinitB : ∀ x ∈ (collectWords cmp (collectFuel br) (mkLocal b br)
      (mkLocal firstOther.1 firstOther.2)).map (fun p => (p.1, [p.2])),
      x.2.length = ([firstOther.2.length] : List Nat).length ∧
      x.1 < (mkLocal b br).off + (mkLocal b br).words.length ∧
      ∀ k, k < ([firstOther.2.length] : List Nat).length →
        x.2.getD k 0 < ([firstOther.2.length] : List Nat).getD k 0 := by
    intro x hx
    rw [List.mem_map] at hx
    obtain ⟨p, hp, rfl⟩ := hx
    obtain ⟨h1, h2, h3, h4⟩ := hfB p hp
    rw [mkLocal_off, mkLocal_len] at h4
    refine ⟨rfl, h2, ?_⟩
    intro k hk
    simp only [List.length_singleton] at hk
    have hk0 : k = 0 := by omega
    subst hk0
    simpa using h4
  obtain ⟨hip, hib⟩ := fold_spec cmp hsym htrans (collectFuel br) (mkLocal b br)
    tailOthers _ [firstOther.2.length] hinitP hinitB
  refine ⟨hip, ?_, ?_⟩
  · intro x hx
    obtain ⟨h1, h2, h3⟩ := hib x hx
    rw [mkLocal_off, mkLocal_len] at h2
    simp only [List.length_singleton] at h1
    refine ⟨by omega, by omega, ?_⟩
    intro k hk
    have := h3 k (by simp only [List.length_singleton]; omega)
    rw [show ([firstOther.2.length] : List Nat) ++
      tailOthers.map (fun o => o.2.length) =
      (firstOther :: tailOthers).map (fun o => o.2.length) from by simp] at this
    exact this
  · intro w
    constructor
    · rintro ⟨x, hx, rfl⟩
      obtain ⟨c, hc, hx1, hrest⟩ := fold_mem_forward cmp (collectFuel br)
        (mkLocal b br) tailOthers _ x hx
      rw [List.mem_map] at hc
      obtain ⟨p, hp, rfl⟩ := hc
      intro z hz
      rcases List.mem_cons.mp hz with rfl | hz
      · exact ⟨p, hp, by rw [hx1]⟩
      · exact hrest z hz
    · intro hall
      obtain ⟨q0, hq0, hq01⟩ := hall firstOther (List.mem_cons_self ..)
      have hinit : ((q0.1, [q0.2]) : Nat × List Nat) ∈
          (collectWords cmp (collectFuel br) (mkLocal b br)
            (mkLocal firstOther.1 firstOther.2)).map (fun p => (p.1, [p.2])) := by
        rw [List.mem_map]
        exact ⟨q0, hq0, rfl⟩
      have harity1 : ∀ c ∈ (collectWords cmp (collectFuel br) (mkLocal b br)
          (mkLocal firstOther.1 firstOther.2)).map (fun p => (p.1, [p.2])),
          c.2.length = 1 := by
        intro c hc
        rw [List.mem_map] at hc
        obtain ⟨p, hp, rfl⟩ := hc
        rfl
      exact fold_mem_back cmp hsym htrans (collectFuel br) (mkLocal b br)
        tailOthers _ 1 w hinitP harity1 ⟨(q0.1, [q0.2]), hinit, hq01⟩
        (fun o ho => hall o (List.mem_cons_of_mem _ ho))

theorem inRgSet_append (i : Nat) (l1 l2 : List UnchangedRg) :
    inRgSet i (l1 ++ l2) ↔ inRgSet i l1 ∨ inRgSet i l2 := by
  rw [inRgSet, inRgSet, inRgSet]
  constructor
  · rintro ⟨r, hr, h⟩
    rcases List.mem_append.mp hr with hr | hr
    · exact Or.inl ⟨r, hr, h⟩
    · exact Or.inr ⟨r, hr, h⟩
  · rintro (⟨r, hr, h⟩ | ⟨r, hr, h⟩)
    · exact ⟨r, List.mem_append_left _ hr, h⟩
    · exact ⟨r, List.mem_append_right _ hr, h⟩

/-- The compacted-diff invariant: a nonempty region list of well-formed,
ordered, non-contiguous regions. -/
def DiffInvC (d : DiffM) : Prop :=
  d.unchangedRegions ≠ [] ∧
  (∀ r ∈ d.unchangedRegions,
    UrgOK d.baseInput.length (d.otherInputs.map List.length) r) ∧
  List.Chain' UrgLe d.unchangedRegions ∧
  List.Chain' (fun p c => contiguousRg p c = false) d.unchangedRegions

/-- A base byte position lies in some unchanged region of the diff. -/
def posUnchanged (d : DiffM) (i : Nat) : Prop := inRgSet i d.unchangedRegions

/-- Characterization of the unchanged base byte positions of
`with_inputs_and_token_ranges` over tokenized inputs `zs`: without other
inputs the whole base is unchanged; otherwise the position lies in the
token range of a base word with an unchanged-word partner against every
other input. -/
def unchangedCharZ (cmp : Cmp) (b : List Byte) (br : List Rg)
    (zs : List (List Byte × List Rg)) (i : Nat) : Prop :=
  match zs with
  | [] => i < b.length
  | _ :: _ => ∃ w, ((rangeAt br w).start ≤ i ∧ i < (rangeAt br w).stop) ∧
      ∀ z ∈ zs, ∃ q ∈ collectWords cmp (collectFuel br)
        (mkLocal b br) (mkLocal z.1 z.2), q.1 = w

/-- The raw region list satisfies the pre-compaction invariant and
covers exactly the characterized base positions. -/
theorem rawRegions_spec (cmp : Cmp) (hsym : ∀ a b, cmp a b = cmp b a)
    (htrans : ∀ a b c, cmp a b = true → cmp b c = true → cmp a c = true)
    (b : List Byte) (oi : List (List Byte)) (br : List Rg)
    (orl : List (List Rg)) (hlen : orl.length = oi.length)
    (hbase : TokRangesOK b.length br)
    (hoth : ∀ k, k < oi.length →
      TokRangesOK (oi.getD k []).length (orl.getD k [])) :
    rawRegions cmp b oi br orl ≠ [] ∧
    (∀ r ∈ rawRegions cmp b oi br orl, UrgOK b.length (oi.map List.length) r) ∧
    List.Chain' UrgLe (rawRegions cmp b oi br orl) ∧
    ∀ i, inRgSet i (rawRegions cmp b oi br orl) ↔
      unchangedCharZ cmp b br (oi.zip orl) i := by
  have hziplen : (oi.zip orl).length = oi.length := by
    rw [List.length_zip]
    omega
  rcases hz : oi.zip orl with _ | ⟨firstOther, tailOthers⟩
  · have hoi : oi = [] := by
      have : oi.length = 0 := by rw [← hziplen, hz]; rfl
      exact List.length_eq_zero.mp this
    rw [rawRegions, hz]
    subst hoi
    refine ⟨by simp, ?_, by simp, ?_⟩
    · intro r hr
      rw [List.mem_singleton] at hr
      subst hr
      exact ⟨rfl, by show 0 ≤ b.length; omega, Nat.le_refl _, by simp⟩
    · intro i
      rw [unchangedCharZ]
      constructor
      · rintro ⟨r, hr, h1, h2⟩
        rw [List.mem_singleton] at hr
        subst hr
        exact h2
      · intro hi
        exact ⟨_, List.mem_singleton_self _, by show 0 ≤ i; omega, hi⟩
  · have htl : tailOthers.length + 1 = oi.length := by
      rw [← hziplen, hz]
      simp
    have horl : orl.length = oi.length := hlen
    -- the k-th entry of the zipped list
    have hzk : ∀ k, k < oi.length →
        (firstOther :: tailOthers).getD k ([], []) = (oi.getD k [], orl.getD k []) := by
      intro k hk
      rw [← hz]
      rw [getD_zip oi orl [] [] k hk (by omega)]
    -- token range counts along the zipped list
    have hcnt : ∀ k, k < oi.length →
        (((firstOther :: tailOthers).map (fun o => o.2.length)).getD k 0) =
          (orl.getD k []).length := by
      intro k hk
      rw [show ((firstOther :: tailOthers).map (fun o => o.2.length)).getD k 0 =
        ((firstOther :: tailOthers).getD k ([], [])).2.length from by
          rw [List.getD_eq_getElem _ _ (by simp; omega),
            List.getD_eq_getElem _ _ (by simp; omega), List.getElem_map]]
      rw [hzk k hk]
    obtain ⟨hipP, hipB, hipW⟩ := diffIps_spec cmp hsym htrans b br firstOther tailOthers
    -- the two mids branches coincide with mapping over diffIps
    have hmids : (if tailOthers.isEmpty then
        (collectWords cmp (collectFuel br) (mkLocal b br)
          (mkLocal firstOther.1 firstOther.2)).map (fun p =>
            fromWordPositions br orl p.1 [p.2])
      else
        (tailOthers.foldl
          (fun acc other =>
            intersectUnchangedWords acc
              (collectWords cmp (collectFuel br) (mkLocal b br)
                (mkLocal other.1 other.2)))
          ((collectWords cmp (collectFuel br) (mkLocal b br)
            (mkLocal firstOther.1 firstOther.2)).map (fun p => (p.1, [p.2])))).map
          (fun p => fromWordPositions br orl p.1 p.2)) =
        (diffIps cmp b br firstOther tailOthers).map
          (fun x => fromWordPositions br orl x.1 x.2) := by
      by_cases hte : tailOthers.isEmpty
      · rw [if_pos hte]
        rw [List.isEmpty_iff] at hte
        subst hte
        rw [diffIps, List.foldl_nil, List.map_map]
        rfl
      · rw [if_neg hte]
        rfl
    -- well-formedness of a mids region
    have hmidOK : ∀ x ∈ diffIps cmp b br firstOther tailOthers,
        UrgOK b.length (oi.map List.length) (fromWordPositions br orl x.1 x.2) := by
      intro x hx
      obtain ⟨hxl, hx1, hxk⟩ := hipB x hx
      have hbmem : br.getD x.1 ⟨0, 0⟩ ∈ br := getD_mem_of_lt _ _ _ hx1
      obtain ⟨hbs, hbe⟩ := hbase.1 _ hbmem
      refine ⟨?_, hbs, hbe, ?_⟩
      · rw [fromWordPositions]
        simp only [List.length_map, List.length_zip]
        omega
      · intro k hk
        rw [List.length_map] at hk
        rw [fwp_getD br orl x.1 x.2 k (by omega) (by omega)]
        have hxkv := hxk k (by omega)
        rw [hcnt k hk] at hxkv
        have hrmem : (orl.getD k []).getD (x.2.getD k 0) ⟨0, 0⟩ ∈ orl.getD k [] :=
          getD_mem_of_lt _ _ _ hxkv
        obtain ⟨hrs, hre⟩ := (hoth k hk).1 _ hrmem
        refine ⟨hrs, ?_⟩
        rw [show (oi.map List.length).getD k 0 = (oi.getD k []).length from by
          rw [List.getD_eq_getElem _ _ (by simpa using hk),
            List.getD_eq_getElem _ _ hk, List.getElem_map]]
        exact hre
    -- ordering between two mids regions
    have hmidLe : ∀ x ∈ diffIps cmp b br firstOther tailOthers,
        ∀ y ∈ diffIps cmp b br firstOther tailOthers, IpLt x y →
        UrgLe (fromWordPositions br orl x.1 x.2)
          (fromWordPositions br orl y.1 y.2) := by
      intro x hx y hy hxy
      obtain ⟨hxl, hx1, hxk⟩ := hipB x hx
      obtain ⟨hyl, hy1, hyk⟩ := hipB y hy
      constructor
      · exact tokRanges_getD_le b.length br hbase x.1 y.1 hxy.1 hy1
      · intro k hk
        rw [fromWordPositions] at hk
        simp only [List.length_map, List.length_zip] at hk
        rw [fwp_getD br orl x.1 x.2 k (by omega) (by omega),
          fwp_getD br orl y.1 y.2 k (by omega) (by omega)]
        have hyv := hyk k (by omega)
        rw [hcnt k (by omega)] at hyv
        exact tokRanges_getD_le _ _ (hoth k (by omega)) _ _
          (hxy.2 k (by omega)) hyv
    -- ordering below the end sentinel
    have hmidEnd : ∀ x ∈ diffIps cmp b br firstOther tailOthers,
        UrgLe (fromWordPositions br orl x.1 x.2)
          ⟨⟨b.length, b.length⟩, oi.map (fun t => ⟨t.length, t.length⟩)⟩ := by
      intro x hx
      obtain ⟨hxl, hx1, hxk⟩ := hipB x hx
      have hbmem : br.getD x.1 ⟨0, 0⟩ ∈ br := getD_mem_of_lt _ _ _ hx1
      constructor
      · exact (hbase.1 _ hbmem).2
      · intro k hk
        rw [fromWordPositions] at hk
        simp only [List.length_map, List.length_zip] at hk
        rw [fwp_getD br orl x.1 x.2 k (by omega) (by omega)]
        have hxv := hxk k (by omega)
        rw [hcnt k (by omega)] at hxv
        have hrmem : (orl.getD k []).getD (x.2.getD k 0) ⟨0, 0⟩ ∈ orl.getD k [] :=
          getD_mem_of_lt _ _ _ hxv
        have hre := ((hoth k (by omega)).1 _ hrmem).2
        rw [show ((⟨⟨b.length, b.length⟩,
            oi.map (fun t => ⟨t.length, t.length⟩)⟩ : UnchangedRg).others.getD k
            (⟨0, 0⟩ : Rg)) = (⟨(oi.getD k []).length, (oi.getD k []).length⟩ : Rg) from by
          show ((oi.map (fun t => (⟨t.length, t.length⟩ : Rg))).getD k (⟨0, 0⟩ : Rg)) =
            (⟨(oi.getD k []).length, (oi.getD k []).length⟩ : Rg)
          rw [List.getD_eq_getElem _ _ (by simp; omega),
            List.getD_eq_getElem oi [] (by omega), List.getElem_map]]
        exact hre
    -- the start sentinel precedes everything
    have hSS : ∀ r, UrgLe ⟨⟨0, 0⟩, List.replicate oi.length ⟨0, 0⟩⟩ r := by
      intro r
      constructor
      · show 0 ≤ r.base.start
        omega
      · intro k hk
        rw [show ((⟨⟨0, 0⟩, List.replicate oi.length ⟨0, 0⟩⟩ :
            UnchangedRg).others.length) = oi.length from by simp] at hk
        rw [show ((⟨⟨0, 0⟩, List.replicate oi.length ⟨0, 0⟩⟩ :
            UnchangedRg).others.getD k ⟨0, 0⟩) = ⟨0, 0⟩ from
          getD_replicate oi.length (⟨0, 0⟩ : Rg) (⟨0, 0⟩ : Rg) k hk]
        show 0 ≤ _
        omega
    rw [rawRegions, hz]
    dsimp only
    rw [hmids]
    refine ⟨by simp, ?_, ?_, ?_⟩
    · intro r hr
      rcases List.mem_cons.mp hr with rfl | hr
      · refine ⟨by simp, Nat.le_refl _, by show 0 ≤ b.length; omega, ?_⟩
        intro k hk
        rw [List.length_map] at hk
        rw [show ((⟨⟨0, 0⟩, List.replicate oi.length ⟨0, 0⟩⟩ :
            UnchangedRg).others.getD k ⟨0, 0⟩) = ⟨0, 0⟩ from
          getD_replicate oi.length (⟨0, 0⟩ : Rg) (⟨0, 0⟩ : Rg) k hk]
        constructor
        · exact Nat.le_refl _
        · show 0 ≤ _
          omega
      · rcases List.mem_append.mp hr with hr | hr
        · rw [List.mem_map] at hr
          obtain ⟨x, hx, rfl⟩ := hr
          exact hmidOK x hx
        · rw [List.mem_singleton] at hr
          subst hr
          refine ⟨by simp, Nat.le_refl _, Nat.le_refl _, ?_⟩
          intro k hk
          rw [List.length_map] at hk
          rw [show ((⟨⟨b.length, b.length⟩,
              oi.map (fun t => ⟨t.length, t.length⟩)⟩ : UnchangedRg).others.getD k
              (⟨0, 0⟩ : Rg)) = (⟨(oi.getD k []).length, (oi.getD k []).length⟩ : Rg) from by
            show ((oi.map (fun t => (⟨t.length, t.length⟩ : Rg))).getD k (⟨0, 0⟩ : Rg)) =
              (⟨(oi.getD k []).length, (oi.getD k []).length⟩ : Rg)
            rw [List.getD_eq_getElem _ _ (by simp; omega),
              List.getD_eq_getElem oi [] (by omega), List.getElem_map]]
          refine ⟨Nat.le_refl _, ?_⟩
          rw [show (oi.map List.length).getD k 0 = (oi.getD k []).length from by
            rw [List.getD_eq_getElem _ _ (by simpa using hk),
              List.getD_eq_getElem _ _ hk, List.getElem_map]]
    · apply List.Pairwise.chain'
      rw [List.pairwise_cons]
      refine ⟨fun r _ => hSS r, ?_⟩
      rw [List.pairwise_append]
      refine ⟨?_, by simp, ?_⟩
      · rw [List.pairwise_map]
        exact (hipP.imp_of_mem (fun {x y} hx hy h => hmidLe x hx y hy h))
      · intro r hr s hs
        rw [List.mem_singleton] at hs
        subst hs
        rw [List.mem_map] at hr
        obtain ⟨x, hx, rfl⟩ := hr
        exact hmidEnd x hx
    · intro i
      rw [inRgSet_cons, inRgSet_append, inRgSet_cons]
      rw [unchangedCharZ]
      constructor
      · rintro (h | h | ⟨h1, h2⟩ | h)
        · exact absurd h.2 (by show ¬ i < 0; omega)
        · rw [inRgSet] at h
          obtain ⟨r, hr, h1, h2⟩ := h
          rw [List.mem_map] at hr
          obtain ⟨x, hx, rfl⟩ := hr
          refine ⟨x.1, ⟨h1, h2⟩, ?_⟩
          exact (hipW x.1).mp ⟨x, hx, rfl⟩
        · exfalso
          have h1' : b.length ≤ i := h1
          have h2' : i < b.length := h2
          omega
        · exfalso
          simp [inRgSet] at h
      · rintro ⟨w, ⟨h1, h2⟩, hall⟩
        obtain ⟨x, hx, hx1⟩ := (hipW w).mpr hall
        refine Or.inr (Or.inl ?_)
        rw [inRgSet]
        refine ⟨fromWordPositions br orl x.1 x.2, List.mem_map.mpr ⟨x, hx, rfl⟩, ?_⟩
        rw [show (fromWordPositions br orl x.1 x.2).base = rangeAt br x.1 from rfl]
        rw [show rangeAt br x.1 = rangeAt br w from by rw [hx1]]
        exact ⟨h1, h2⟩

/-- `Diff::with_inputs_and_token_ranges` satisfies the compacted-diff
invariant and reports exactly the characterized unchanged positions,
when the token ranges are well formed. -/
theorem withInputs_spec (cmp : Cmp) (hsym : ∀ a b, cmp a b = cmp b a)
    (htrans : ∀ a b c, cmp a b = true → cmp b c = true → cmp a c = true)
    (b : List Byte) (oi : List (List Byte)) (br : List Rg)
    (orl : List (List Rg)) (hlen : orl.length = oi.length)
    (hbase : TokRangesOK b.length br)
    (hoth : ∀ k, k < oi.length →
      TokRangesOK (oi.getD k []).length (orl.getD k [])) :
    DiffInvC (withInputsAndTokenRanges cmp b oi br orl) ∧
    ∀ i, posUnchanged (withInputsAndTokenRanges cmp b oi br orl) i ↔
      unchangedCharZ cmp b br (oi.zip orl) i := by
  obtain ⟨hne, hOK, hch, hset⟩ := rawRegions_spec cmp hsym htrans b oi br orl
    hlen hbase hoth
  rcases hraw : rawRegions cmp b oi br orl with _ | ⟨r0, rest⟩
  · exact absurd hraw hne
  · rw [hraw] at hOK hch hset
    have hreg0 : (withInputsAndTokenRanges cmp b oi br orl).unchangedRegions =
        compactRegions (rawRegions cmp b oi br orl) := rfl
    rw [hraw] at hreg0
    have hreg : (withInputsAndTokenRanges cmp b oi br orl).unchangedRegions =
        compactGo (some r0) rest := hreg0.trans rfl
    have hbi : (withInputsAndTokenRanges cmp b oi br orl).baseInput = b := rfl
    have hoi' : (withInputsAndTokenRanges cmp b oi br orl).otherInputs = oi := rfl
    obtain ⟨h, t, heq, hhs, hhs2, hOKall, hchain, hnc, hset2⟩ :=
      compactGo_spec b.length (oi.map List.length) rest r0
        (hOK r0 (List.mem_cons_self ..))
        (fun r hr => hOK r (List.mem_cons_of_mem _ hr)) hch
    constructor
    · rw [DiffInvC, hreg, hbi, hoi', heq]
      exact ⟨by simp, hOKall, hchain, hnc⟩
    · intro i
      rw [posUnchanged, hreg, heq]
      rw [hset2 i]
      exact hset i

/-- `Diff::for_tokenizer` always produces a diff satisfying the
compacted-diff invariant, for an equivalence comparator and a well-formed
tokenizer. -/
theorem forTokenizer_spec (cmp : Cmp) (tok : List Byte → List Rg)
    (hsym : ∀ a b, cmp a b = cmp b a)
    (htrans : ∀ a b c, cmp a b = true → cmp b c = true → cmp a c = true)
    (htok : TokOK tok) (inputs : List (List Byte)) :
    DiffInvC (forTokenizer cmp tok inputs) := by
  rcases inputs with _ | ⟨b, others⟩ <;> rw [forTokenizer]
  · refine ⟨by simp, ?_, by simp, by simp⟩
    intro r hr
    rw [List.mem_singleton] at hr
    subst hr
    exact ⟨rfl, Nat.le_refl _, Nat.le_refl _, by simp⟩
  · split
    · refine (withInputs_spec cmp hsym htrans b others []
        (List.replicate others.length []) (by simp) ⟨by simp, by simp⟩ ?_).1
      intro k hk
      rw [getD_replicate others.length [] [] k hk]
      exact ⟨by simp, by simp⟩
    · refine (withInputs_spec cmp hsym htrans b others (tok b)
        (others.map tok) (by simp) (htok b) ?_).1
      intro k hk
      rw [show (others.map tok).getD k [] = tok (others.getD k []) from by
        rw [List.getD_eq_getElem _ _ (by simpa using hk),
          List.getD_eq_getElem _ _ hk, List.getElem_map]]
      exact htok _

/-- `for_tokenizer` keeps the first input as base. -/
theorem forTokenizer_baseInput (cmp : Cmp) (tok : List Byte → List Rg)
    (b : List Byte) (others : List (List Byte)) :
    (forTokenizer cmp tok (b :: others)).baseInput = b := by
  rw [forTokenizer]
  split <;> rfl

/-- `for_tokenizer` keeps the remaining inputs as others. -/
theorem forTokenizer_otherInputs (cmp : Cmp) (tok : List Byte → List Rg)
    (b : List Byte) (others : List (List Byte)) :
    (forTokenizer cmp tok (b :: others)).otherInputs = others := by
  rw [forTokenizer]
  split <;> rfl

/-- Length of a byte slice. -/
theorem sliceTx_length (t : List Byte) (a b : Nat) :
    (sliceTx t a b).length = min (b - a) (t.length - a) := by
  rw [sliceTx]
  simp

/-- Elements of the last position of a list are members. -/
theorem mem_of_getLast? {α : Type} (l : List α) (x : α) (h : x ∈ l.getLast?) :
    x ∈ l := by
  cases l with
  | nil => simp at h
  | cons a l =>
    rw [List.getLast?_eq_getLast _ (by simp)] at h
    rw [Option.mem_def, Option.some_inj] at h
    subst h
    exact List.getLast_mem _

/-- The other-input slices of `hunk_between`, indexed. -/
theorem hunkBetween_others_getD (d : DiffM) (p c : UnchangedRg) (k : Nat)
    (h1 : k < d.otherInputs.length) (h2 : k < p.others.length)
    (h3 : k < c.others.length) :
    ((d.otherInputs.zip (p.others.zip c.others)).map (fun x =>
      sliceTx x.1 x.2.1.stop x.2.2.start)).getD k [] =
    sliceTx (d.otherInputs.getD k []) ((p.others.getD k ⟨0, 0⟩).stop)
      ((c.others.getD k ⟨0, 0⟩).start) := by
  rw [List.getD_eq_getElem _ _ (by simp; omega), List.getElem_map,
    List.getElem_zip, List.getElem_zip]
  rw [List.getD_eq_getElem _ _ h1, List.getD_eq_getElem _ _ h2,
    List.getD_eq_getElem _ _ h3]

/-- The shifted other ranges of `refine_changed_regions`, indexed. -/
theorem shift_getD (rg prev : UnchangedRg) (k : Nat)
    (h1 : k < rg.others.length) (h2 : k < prev.others.length) :
    ((rg.others.zip prev.others).map (fun x =>
      (⟨x.1.start + x.2.stop, x.1.stop + x.2.stop⟩ : Rg))).getD k ⟨0, 0⟩ =
    ⟨(rg.others.getD k ⟨0, 0⟩).start + (prev.others.getD k ⟨0, 0⟩).stop,
      (rg.others.getD k ⟨0, 0⟩).stop + (prev.others.getD k ⟨0, 0⟩).stop⟩ := by
  rw [List.getD_eq_getElem _ _ (by simp; omega), List.getElem_map,
    List.getElem_zip]
  rw [List.getD_eq_getElem _ _ h1, List.getD_eq_getElem _ _ h2]

/-- `getD` over mapped lengths. -/
theorem mapLen_getD {α : Type} (l : List (List α)) (k : Nat) (hk : k < l.length) :
    (l.map List.length).getD k 0 = (l.getD k []).length := by
  rw [List.getD_eq_getElem _ _ (by simpa using hk), List.getD_eq_getElem _ _ hk,
    List.getElem_map]

/-- A membership-aware `Chain'` implication. -/
theorem chain'_imp_of_mem {α : Type} {R S : α → α → Prop} :
    ∀ {l : List α}, (∀ a ∈ l, ∀ b ∈ l, R a b → S a b) →
      List.Chain' R l → List.Chain' S l := by
  intro l
  induction l with
  | nil => intro _ _; simp
  | cons a l ih =>
    intro h hch
    cases l with
    | nil => simp
    | cons b l' =>
      rw [List.chain'_cons] at hch ⊢
      refine ⟨h a (List.mem_cons_self ..) b
        (List.mem_cons_of_mem _ (List.mem_cons_self ..)) hch.1, ?_⟩
      exact ih (fun x hx y hy => h x (List.mem_cons_of_mem _ hx) y
        (List.mem_cons_of_mem _ hy)) hch.2

/-- The refinement loop preserves region well-formedness and ordering:
every spliced sub-region stays between its surrounding regions. -/
theorem refineGo_spec (cmp : Cmp) (tok : List Byte → List Rg)
    (hsym : ∀ a b, cmp a b = cmp b a)
    (htrans : ∀ a b c, cmp a b = true → cmp b c = true → cmp a c = true)
    (htok : TokOK tok) (d : DiffM) :
    ∀ (rest : List UnchangedRg) (prev : UnchangedRg),
      UrgOK d.baseInput.length (d.otherInputs.map List.length) prev →
      (∀ r ∈ rest, UrgOK d.baseInput.length (d.otherInputs.map List.length) r) →
      List.Chain' UrgLe (prev :: rest) →
      (∀ r ∈ refineGo cmp tok d prev rest,
        UrgOK d.baseInput.length (d.otherInputs.map List.length) r) ∧
      List.Chain' UrgLe (prev :: refineGo cmp tok d prev rest) := by
  intro rest
  induction rest with
  | nil =>
    intro prev _ _ _
    rw [refineGo]
    exact ⟨by simp, List.chain'_singleton _⟩
  | cons cur rest ih =>
    intro prev hOKp hOKrs hch
    have hOKc : UrgOK d.baseInput.length (d.otherInputs.map List.length) cur :=
      hOKrs cur (List.mem_cons_self ..)
    have hOKrest : ∀ r ∈ rest, UrgOK d.baseInput.length (d.otherInputs.map List.length) r :=
      fun r hr => hOKrs r (List.mem_cons_of_mem _ hr)
    have hLe : UrgLe prev cur := (List.chain'_cons.mp hch).1
    have hch2 : List.Chain' UrgLe (cur :: rest) := (List.chain'_cons.mp hch).2
    have harp : prev.others.length = d.otherInputs.length := by
      have := hOKp.1
      simpa using this
    have harc : cur.others.length = d.otherInputs.length := by
      have := hOKc.1
      simpa using this
    have hhb : hunkBetween d prev cur =
        sliceTx d.baseInput prev.base.stop cur.base.start ::
          (d.otherInputs.zip (prev.others.zip cur.others)).map (fun x =>
            sliceTx x.1 x.2.1.stop x.2.2.start) := rfl
    obtain ⟨hRne, hROK, hRch, hRnc⟩ :=
      forTokenizer_spec cmp tok hsym htrans htok (hunkBetween d prev cur)
    have hrdB : (forTokenizer cmp tok (hunkBetween d prev cur)).baseInput =
        sliceTx d.baseInput prev.base.stop cur.base.start := by
      rw [hhb]
      exact forTokenizer_baseInput ..
    have hrdO : (forTokenizer cmp tok (hunkBetween d prev cur)).otherInputs =
        (d.otherInputs.zip (prev.others.zip cur.others)).map (fun x =>
          sliceTx x.1 x.2.1.stop x.2.2.start) := by
      rw [hhb]
      exact forTokenizer_otherInputs ..
    have hrdBL : (forTokenizer cmp tok (hunkBetween d prev cur)).baseInput.length =
        cur.base.start - prev.base.stop := by
      rw [hrdB, sliceTx_length]
      have h1 := hLe.1
      have h2 := hOKc.2.1
      have h3 := hOKc.2.2.1
      omega
    have hrdOLen : (forTokenizer cmp tok (hunkBetween d prev cur)).otherInputs.length =
        d.otherInputs.length := by
      rw [hrdO]
      simp only [List.length_map, List.length_zip]
      omega
    have hrdOL : ∀ k, k < d.otherInputs.length →
        ((forTokenizer cmp tok (hunkBetween d prev cur)).otherInputs.map
          List.length).getD k 0 =
        (cur.others.getD k ⟨0, 0⟩).start - (prev.others.getD k ⟨0, 0⟩).stop := by
      intro k hk
      rw [mapLen_getD _ k (by omega)]
      rw [hrdO, hunkBetween_others_getD d prev cur k hk (by omega) (by omega)]
      rw [sliceTx_length]
      have h1 := hLe.2 k (by omega)
      have h2 := (hOKc.2.2.2 k (by simpa using hk)).1
      have h3 := (hOKc.2.2.2 k (by simpa using hk)).2
      rw [mapLen_getD _ k hk] at h3
      omega
    -- facts about each shifted region
    have hROKgd : ∀ rg ∈ (forTokenizer cmp tok (hunkBetween d prev cur)).unchangedRegions,
        rg.others.length = d.otherInputs.length ∧
        rg.base.start ≤ rg.base.stop ∧
        rg.base.stop ≤ cur.base.start - prev.base.stop ∧
        ∀ k, k < d.otherInputs.length →
          (rg.others.getD k ⟨0, 0⟩).start ≤ (rg.others.getD k ⟨0, 0⟩).stop ∧
          (rg.others.getD k ⟨0, 0⟩).stop ≤
            (cur.others.getD k ⟨0, 0⟩).start - (prev.others.getD k ⟨0, 0⟩).stop := by
      intro rg hrg
      obtain ⟨q1, q2, q3, q4⟩ := hROK rg hrg
      refine ⟨by rw [q1]; simp [hrdOLen], q2, by rwa [hrdBL] at q3, ?_⟩
      intro k hk
      have := q4 k (by simp; omega)
      rw [hrdOL k hk] at this
      exact this
    have hshiftOK : ∀ rg ∈ (forTokenizer cmp tok (hunkBetween d prev cur)).unchangedRegions,
        UrgOK d.baseInput.length (d.otherInputs.map List.length)
          ⟨⟨rg.base.start + prev.base.stop, rg.base.stop + prev.base.stop⟩,
            (rg.others.zip prev.others).map (fun x =>
              ⟨x.1.start + x.2.stop, x.1.stop + x.2.stop⟩)⟩ := by
      intro rg hrg
      obtain ⟨q1, q2, q3, q4⟩ := hROKgd rg hrg
      refine ⟨by simp; omega, by
        show rg.base.start + prev.base.stop ≤ rg.base.stop + prev.base.stop
        omega, ?_, ?_⟩
      · show rg.base.stop + prev.base.stop ≤ d.baseInput.length
        have h1 := hLe.1
        have h2 := hOKc.2.1
        have h3 := hOKc.2.2.1
        omega
      · intro k hk
        rw [List.length_map] at hk
        rw [show ((⟨⟨rg.base.start + prev.base.stop, rg.base.stop + prev.base.stop⟩,
            (rg.others.zip prev.others).map (fun x =>
              ⟨x.1.start + x.2.stop, x.1.stop + x.2.stop⟩)⟩ : UnchangedRg).others.getD k
            ⟨0, 0⟩) = _ from shift_getD rg prev k (by omega) (by omega)]
        obtain ⟨w1, w2⟩ := q4 k hk
        have hc := hOKc.2.2.2 k (by simpa using hk)
        have hpc := hLe.2 k (by omega)
        rw [mapLen_getD _ k hk] at hc ⊢
        constructor
        · show (rg.others.getD k ⟨0, 0⟩).start + (prev.others.getD k ⟨0, 0⟩).stop ≤
            (rg.others.getD k ⟨0, 0⟩).stop + (prev.others.getD k ⟨0, 0⟩).stop
          omega
        · show (rg.others.getD k ⟨0, 0⟩).stop + (prev.others.getD k ⟨0, 0⟩).stop ≤
            (d.otherInputs.getD k []).length
          omega
    have hprevLe : ∀ rg ∈ (forTokenizer cmp tok (hunkBetween d prev cur)).unchangedRegions,
        UrgLe prev
          ⟨⟨rg.base.start + prev.base.stop, rg.base.stop + prev.base.stop⟩,
            (rg.others.zip prev.others).map (fun x =>
              ⟨x.1.start + x.2.stop, x.1.stop + x.2.stop⟩)⟩ := by
      intro rg hrg
      obtain ⟨q1, q2, q3, q4⟩ := hROKgd rg hrg
      constructor
      · show prev.base.stop ≤ rg.base.start + prev.base.stop
        omega
      · intro k hk
        rw [show ((⟨⟨rg.base.start + prev.base.stop, rg.base.stop + prev.base.stop⟩,
            (rg.others.zip prev.others).map (fun x =>
              ⟨x.1.start + x.2.stop, x.1.stop + x.2.stop⟩)⟩ : UnchangedRg).others.getD k
            ⟨0, 0⟩) = _ from shift_getD rg prev k (by omega) (by omega)]
        show (prev.others.getD k ⟨0, 0⟩).stop ≤
          (rg.others.getD k ⟨0, 0⟩).start + (prev.others.getD k ⟨0, 0⟩).stop
        omega
    have hcurLe : ∀ rg ∈ (forTokenizer cmp tok (hunkBetween d prev cur)).unchangedRegions,
        UrgLe ⟨⟨rg.base.start + prev.base.stop, rg.base.stop + prev.base.stop⟩,
            (rg.others.zip prev.others).map (fun x =>
              ⟨x.1.start + x.2.stop, x.1.stop + x.2.stop⟩)⟩ cur := by
      intro rg hrg
      obtain ⟨q1, q2, q3, q4⟩ := hROKgd rg hrg
      constructor
      · show rg.base.stop + prev.base.stop ≤ cur.base.start
        have := hLe.1
        omega
      · intro k hk
        rw [show ((⟨⟨rg.base.start + prev.base.stop, rg.base.stop + prev.base.stop⟩,
            (rg.others.zip prev.others).map (fun x =>
              ⟨x.1.start + x.2.stop, x.1.stop + x.2.stop⟩)⟩ : UnchangedRg).others.length) =
            min rg.others.length prev.others.length from by simp] at hk
        rw [show ((⟨⟨rg.base.start + prev.base.stop, rg.base.stop + prev.base.stop⟩,
            (rg.others.zip prev.others).map (fun x =>
              ⟨x.1.start + x.2.stop, x.1.stop + x.2.stop⟩)⟩ : UnchangedRg).others.getD k
            ⟨0, 0⟩) = _ from shift_getD rg prev k (by omega) (by omega)]
        obtain ⟨w1, w2⟩ := q4 k (by omega)
        have hpc := hLe.2 k (by omega)
        show (rg.others.getD k ⟨0, 0⟩).stop + (prev.others.getD k ⟨0, 0⟩).stop ≤
          (cur.others.getD k ⟨0, 0⟩).start
        omega
    obtain ⟨ihOK, ihCh⟩ := ih cur hOKc hOKrest hch2
    rw [refineGo]
    constructor
    · intro r hr
      rcases List.mem_append.mp hr with hr | hr
      · rw [List.mem_map] at hr
        obtain ⟨rg, hrg, rfl⟩ := hr
        exact hshiftOK rg hrg
      · rcases List.mem_cons.mp hr with rfl | hr
        · exact hOKc
        · exact ihOK r hr
    · rw [← List.cons_append]
      rw [List.chain'_append]
      refine ⟨?_, ihCh, ?_⟩
      · rw [List.chain'_cons']
        constructor
        · intro y hy
          have hym := List.mem_of_mem_head? hy
          rw [List.mem_map] at hym
          obtain ⟨rg, hrg, rfl⟩ := hym
          exact hprevLe rg hrg
        · rw [List.chain'_map]
          refine chain'_imp_of_mem ?_ hRch
          intro a ha b hb hab
          obtain ⟨qa1, _, _, _⟩ := hROKgd a ha
          obtain ⟨qb1, _, _, _⟩ := hROKgd b hb
          constructor
          · show a.base.stop + prev.base.stop ≤ b.base.start + prev.base.stop
            have := hab.1
            omega
          · intro k hk
            rw [show ((⟨⟨a.base.start + prev.base.stop, a.base.stop + prev.base.stop⟩,
                (a.others.zip prev.others).map (fun x =>
                  ⟨x.1.start + x.2.stop, x.1.stop + x.2.stop⟩)⟩ : UnchangedRg).others.length) =
                min a.others.length prev.others.length from by simp] at hk
            rw [show ((⟨⟨a.base.start + prev.base.stop, a.base.stop + prev.base.stop⟩,
                (a.others.zip prev.others).map (fun x =>
                  ⟨x.1.start + x.2.stop, x.1.stop + x.2.stop⟩)⟩ : UnchangedRg).others.getD k
                ⟨0, 0⟩) = _ from shift_getD a prev k (by omega) (by omega)]
            rw [show ((⟨⟨b.base.start + prev.base.stop, b.base.stop + prev.base.stop⟩,
                (b.others.zip prev.others).map (fun x =>
                  ⟨x.1.start + x.2.stop, x.1.stop + x.2.stop⟩)⟩ : UnchangedRg).others.getD k
                ⟨0, 0⟩) = _ from shift_getD b prev k (by omega) (by omega)]
            have := hab.2 k (by omega)
            show (a.others.getD k ⟨0, 0⟩).stop + (prev.others.getD k ⟨0, 0⟩).stop ≤
              (b.others.getD k ⟨0, 0⟩).start + (prev.others.getD k ⟨0, 0⟩).stop
            omega
      · intro x hx y hy
        rw [List.head?_cons, Option.mem_def, Option.some_inj] at hy
        subst hy
        have hxm := mem_of_getLast? _ x hx
        rcases List.mem_cons.mp hxm with rfl | hxm
        · exact hLe
        · rw [List.mem_map] at hxm
          obtain ⟨rg, hrg, rfl⟩ := hxm
          exact hcurLe rg hrg

/-- `Diff::refine_changed_regions` preserves the compacted-diff
invariant. -/
theorem refineChangedRegions_spec (cmp : Cmp) (tok : List Byte → List Rg)
    (hsym : ∀ a b, cmp a b = cmp b a)
    (htrans : ∀ a b c, cmp a b = true → cmp b c = true → cmp a c = true)
    (htok : TokOK tok) (d : DiffM) (hinv : DiffInvC d) :
    DiffInvC (refineChangedRegions cmp tok d) := by
  obtain ⟨hne, hOK, hch, hnc⟩ := hinv
  rcases hregs : d.unchangedRegions with _ | ⟨r0, rest⟩
  · exact absurd hregs hne
  · rw [hregs] at hOK hch
    have hu : (refineChangedRegions cmp tok d).unchangedRegions =
        compactGo (some r0) (refineGo cmp tok d r0 rest) := by
      rw [refineChangedRegions, hregs]
      rfl
    have hb : (refineChangedRegions cmp tok d).baseInput = d.baseInput := by
      rw [refineChangedRegions, hregs]
    have ho : (refineChangedRegions cmp tok d).otherInputs = d.otherInputs := by
      rw [refineChangedRegions, hregs]
    obtain ⟨hgOK, hgCh⟩ := refineGo_spec cmp tok hsym htrans htok d rest r0
      (hOK r0 (List.mem_cons_self ..))
      (fun r hr => hOK r (List.mem_cons_of_mem _ hr)) hch
    obtain ⟨h, t, heq, _, _, hOKall, hchain, hncc, _⟩ :=
      compactGo_spec d.baseInput.length (d.otherInputs.map List.length)
        (refineGo cmp tok d r0 rest) r0 (hOK r0 (List.mem_cons_self ..)) hgOK hgCh
    rw [DiffInvC, hu, hb, ho, heq]
    exact ⟨by simp, hOKall, hchain, hncc⟩

/-! ## Hunk stream properties -/

/-- The first hunk the steady-state iterator emits is always a
`Different` hunk. -/
theorem hunksFrom_head_different (d : DiffM) (rest : List UnchangedRg)
    (prev : UnchangedRg) (h : Hunk) (hh : h ∈ (hunksFrom d prev rest).head?) :
    h.kind = HunkKind.different := by
  cases rest with
  | nil => simp [hunksFrom] at hh
  | cons cur rest =>
    rw [hunksFrom, List.head?_cons, Option.mem_def, Option.some_inj] at hh
    subst hh
    rfl

/-- The hunk stream never emits two adjacent `Matching` hunks. -/
theorem hunksFrom_noAdj (d : DiffM) :
    ∀ (rest : List UnchangedRg) (prev : UnchangedRg),
      List.Chain' (fun a b =>
        ¬(a.kind = HunkKind.matching ∧ b.kind = HunkKind.matching))
        (hunksFrom d prev rest) := by
  intro rest
  induction rest with
  | nil => intro prev; simp [hunksFrom]
  | cons cur rest ih =>
    intro prev
    rw [hunksFrom]
    rw [List.chain'_cons']
    constructor
    · intro y _
      rintro ⟨h1, _⟩
      simp at h1
    · split
      · exact ih cur
      · rw [List.chain'_cons']
        refine ⟨?_, ih cur⟩
        intro y hy
        rintro ⟨_, h2⟩
        rw [hunksFrom_head_different d rest cur y hy] at h2
        simp at h2

/-- Adjacent non-contiguous well-formed regions leave a nonempty side in
the `Different` hunk between them. -/
theorem hunkBetween_nonempty (d : DiffM) (p c : UnchangedRg)
    (hOKp : UrgOK d.baseInput.length (d.otherInputs.map List.length) p)
    (hOKc : UrgOK d.baseInput.length (d.otherInputs.map List.length) c)
    (hLe : UrgLe p c) (hnc : contiguousRg p c = false) :
    ∃ s ∈ hunkBetween d p c, s ≠ [] := by
  have harp : p.others.length = d.otherInputs.length := by
    have := hOKp.1; simpa using this
  have harc : c.others.length = d.otherInputs.length := by
    have := hOKc.1; simpa using this
  rw [contiguousRg] at hnc
  by_cases hA : p.base.stop = c.base.start
  swap
  · replace hA : (p.base.stop == c.base.start) = false := by
      rw [beq_eq_false_iff_ne]
      exact hA
    rw [beq_eq_false_iff_ne] at hA
    refine ⟨sliceTx d.baseInput p.base.stop c.base.start, List.mem_cons_self .., ?_⟩
    have hlt : p.base.stop < c.base.start := by
      have := hLe.1
      omega
    have hcb : c.base.start ≤ d.baseInput.length := by
      have h1 := hOKc.2.1
      have h2 := hOKc.2.2.1
      omega
    intro habs
    have := congrArg List.length habs
    rw [sliceTx_length, List.length_nil, Nat.min_eq_zero_iff] at this
    omega
  · replace hA : (p.base.stop == c.base.start) = true := by
      rw [beq_iff_eq]
      exact hA
    rw [hA, Bool.true_and] at hnc
    rw [List.all_eq_false] at hnc
    obtain ⟨x, hx, hpx⟩ := hnc
    obtain ⟨j, hj, hjy⟩ := List.getElem_of_mem hx
    rw [List.length_zip] at hj
    rw [List.getElem_zip] at hjy
    subst hjy
    simp only [Bool.not_eq_true, beq_eq_false_iff_ne] at hpx
    have hjo : j < d.otherInputs.length := by omega
    refine ⟨sliceTx (d.otherInputs.getD j []) ((p.others.getD j ⟨0, 0⟩).stop)
      ((c.others.getD j ⟨0, 0⟩).start), ?_, ?_⟩
    · rw [hunkBetween]
      apply List.mem_cons_of_mem
      have hmem : (d.otherInputs.getD j [],
          (p.others.getD j ⟨0, 0⟩, c.others.getD j ⟨0, 0⟩)) ∈
          d.otherInputs.zip (p.others.zip c.others) := by
        have hjz : j < (d.otherInputs.zip (p.others.zip c.others)).length := by
          simp
          omega
        have hz : (d.otherInputs.zip (p.others.zip c.others))[j] =
            (d.otherInputs.getD j [],
              (p.others.getD j ⟨0, 0⟩, c.others.getD j ⟨0, 0⟩)) := by
          rw [List.getElem_zip, List.getElem_zip]
          rw [List.getD_eq_getElem _ _ hjo, List.getD_eq_getElem _ _ (by omega),
            List.getD_eq_getElem _ _ (by omega)]
        rw [← hz]
        exact List.getElem_mem _
      exact List.mem_map.mpr ⟨_, hmem, rfl⟩
    · have hne : (p.others.getD j ⟨0, 0⟩).stop ≠ (c.others.getD j ⟨0, 0⟩).start := by
        rw [List.getD_eq_getElem _ _ (by omega : j < p.others.length),
          List.getD_eq_getElem _ _ (by omega : j < c.others.length)]
        exact hpx
      have hlt : (p.others.getD j ⟨0, 0⟩).stop < (c.others.getD j ⟨0, 0⟩).start := by
        have := hLe.2 j (by omega)
        omega
      have hcb : (c.others.getD j ⟨0, 0⟩).start ≤ (d.otherInputs.getD j []).length := by
        have h1 := (hOKc.2.2.2 j (by simpa using hjo)).1
        have h2 := (hOKc.2.2.2 j (by simpa using hjo)).2
        rw [mapLen_getD _ j hjo] at h2
        omega
      intro habs
      have := congrArg List.length habs
      rw [sliceTx_length, List.length_nil, Nat.min_eq_zero_iff] at this
      omega

/-- Against the diff invariant, `Different` hunks in the steady state
always have a nonempty side. -/
theorem hunksFrom_different_nonempty (d : DiffM) :
    ∀ (rest : List UnchangedRg) (prev : UnchangedRg),
      UrgOK d.baseInput.length (d.otherInputs.map List.length) prev →
      (∀ r ∈ rest, UrgOK d.baseInput.length (d.otherInputs.map List.length) r) →
      List.Chain' UrgLe (prev :: rest) →
      List.Chain' (fun a b => contiguousRg a b = false) (prev :: rest) →
      ∀ h ∈ hunksFrom d prev rest, h.kind = HunkKind.different →
        ∃ s ∈ h.contents, s ≠ [] := by
  intro rest
  induction rest with
  | nil => intro prev _ _ _ _ h hh; simp [hunksFrom] at hh
  | cons cur rest ih =>
    intro prev hOKp hOKrs hch hnc h hh hkind
    have hOKc := hOKrs cur (List.mem_cons_self ..)
    have htail := ih cur hOKc (fun r hr => hOKrs r (List.mem_cons_of_mem _ hr))
      (List.chain'_cons.mp hch).2 (List.chain'_cons.mp hnc).2
    rw [hunksFrom] at hh
    rcases List.mem_cons.mp hh with rfl | hh
    · exact hunkBetween_nonempty d prev cur hOKp hOKc
        (List.chain'_cons.mp hch).1 (List.chain'_cons.mp hnc).1
    · split at hh
      · exact htail h hh hkind
      · rcases List.mem_cons.mp hh with rfl | hh
        · simp at hkind
        · exact htail h hh hkind

/-- A clean hunk stream: no all-empty `Different` hunk, and no two
adjacent `Matching` hunks. -/
def NoBadHunks (hs : List Hunk) : Prop :=
  (∀ h ∈ hs, h.kind = HunkKind.different → ∃ s ∈ h.contents, s ≠ []) ∧
  List.Chain' (fun a b =>
    ¬(a.kind = HunkKind.matching ∧ b.kind = HunkKind.matching)) hs

/-- A diff satisfying the compacted-diff invariant yields a clean hunk
stream. -/
theorem hunksOf_ok (d : DiffM) (hinv : DiffInvC d) : NoBadHunks (hunksOf d) := by
  obtain ⟨hne, hOK, hch, hnc⟩ := hinv
  constructor
  · intro h hh hkind
    rcases hregs : d.unchangedRegions with _ | ⟨r0, rest⟩
    · have hh' : h ∈ ([] : List Hunk) := by rw [hunksOf, hregs] at hh; exact hh
      simp at hh'
    · rw [hregs] at hOK hch hnc
      have hh' : h ∈ (if allEmptyRg r0 then hunksFrom d r0 rest
          else ⟨HunkKind.matching, hunkAt d r0⟩ :: hunksFrom d r0 rest) := by
        rw [hunksOf, hregs] at hh
        exact hh
      have hmain := hunksFrom_different_nonempty d rest r0
        (hOK r0 (List.mem_cons_self ..))
        (fun r hr => hOK r (List.mem_cons_of_mem _ hr)) hch hnc
      by_cases hae : allEmptyRg r0 = true
      · rw [if_pos hae] at hh'
        exact hmain h hh' hkind
      · rw [if_neg hae] at hh'
        rcases List.mem_cons.mp hh' with rfl | hh'
        · simp at hkind
        · exact hmain h hh' hkind
  · rcases hregs : d.unchangedRegions with _ | ⟨r0, rest⟩
    · have hred : hunksOf d = [] := by rw [hunksOf, hregs]
      rw [hred]
      simp
    · have hred : hunksOf d = (if allEmptyRg r0 then hunksFrom d r0 rest
          else ⟨HunkKind.matching, hunkAt d r0⟩ :: hunksFrom d r0 rest) := by
        rw [hunksOf, hregs]
      rw [hred]
      by_cases hae : allEmptyRg r0 = true
      · rw [if_pos hae]
        exact hunksFrom_noAdj d rest r0
      · rw [if_neg hae]
        rw [List.chain'_cons']
        refine ⟨?_, hunksFrom_noAdj d rest r0⟩
        intro y hy
        rintro ⟨_, h2⟩
        rw [hunksFrom_head_different d rest r0 y hy] at h2
        simp at h2

/-- C1. For every `Diff` built by `for_tokenizer`, `by_line`, `by_word`,
or refined by `refine_changed_regions`, the hunk stream of
`Diff::hunks()` never contains a `Different` hunk whose sides are all
empty, and never two adjacent `Matching` hunks; `cmp` ranges over
equivalence comparators and `tok`, `tok2` over well-formed tokenizers,
which covers the comparators and tokenizers of the source. -/
theorem claim_C1_hunks_clean (cmp : Cmp) (tok tok2 : List Byte → List Rg)
    (hsym : ∀ a b, cmp a b = cmp b a)
    (htrans : ∀ a b c, cmp a b = true → cmp b c = true → cmp a c = true)
    (htok : TokOK tok) (htok2 : TokOK tok2) (inputs : List (List Byte)) :
    NoBadHunks (hunksOf (forTokenizer cmp tok inputs)) ∧
    NoBadHunks (hunksOf (byLineDiff inputs)) ∧
    NoBadHunks (hunksOf (byWordDiff inputs)) ∧
    NoBadHunks (hunksOf (refineChangedRegions cmp tok2 (forTokenizer cmp tok inputs))) := by
  refine ⟨?_, ?_, ?_, ?_⟩
  · exact hunksOf_ok _ (forTokenizer_spec cmp tok hsym htrans htok inputs)
  · exact hunksOf_ok _ (forTokenizer_spec cmpExact findLineRanges cmpExact_sym
      cmpExact_trans findLineRanges_ok inputs)
  · exact hunksOf_ok _ (refineChangedRegions_spec cmpExact findNonwordRanges
      cmpExact_sym cmpExact_trans findNonwordRanges_ok _
      (forTokenizer_spec cmpExact findWordRanges cmpExact_sym cmpExact_trans
        findWordRanges_ok inputs))
  · exact hunksOf_ok _ (refineChangedRegions_spec cmp tok2 hsym htrans htok2 _
      (forTokenizer_spec cmp tok hsym htrans htok inputs))

/-- Witness for C1 at the exact line comparator and tokenizers on a
concrete two-line input pair. -/
theorem claim_C1_witness :
    NoBadHunks (hunksOf (forTokenizer cmpExact findLineRanges [[97], [98]])) ∧
    NoBadHunks (hunksOf (byLineDiff [[97], [98]])) ∧
    NoBadHunks (hunksOf (byWordDiff [[97], [98]])) ∧
    NoBadHunks (hunksOf (refineChangedRegions cmpExact findNonwordRanges
      (forTokenizer cmpExact findLineRanges [[97], [98]]))) :=
  claim_C1_hunks_clean cmpExact findLineRanges findNonwordRanges cmpExact_sym
    cmpExact_trans findLineRanges_ok findNonwordRanges_ok [[97], [98]]

/-- Zipping a list with its own map pairs each element with its image. -/
theorem zip_map_self {α β : Type} (l : List α) (f : α → β) :
    l.zip (l.map f) = l.map (fun x => (x, f x)) := by
  induction l with
  | nil => rfl
  | cons a l ih => simp [ih]

/-- With no token ranges on the base there are no characterized
unchanged positions. -/
theorem charZ_empty_br (cmp : Cmp) (b : List Byte)
    (zs : List (List Byte × List Rg)) (i : Nat) (hzs : zs ≠ []) :
    ¬ unchangedCharZ cmp b [] zs i := by
  rcases zs with _ | ⟨z, zs⟩
  · exact absurd rfl hzs
  · rw [unchangedCharZ]
    rintro ⟨w, ⟨h1, h2⟩, _⟩
    have h2' : i < (0 : Nat) := h2
    omega

/-- C2. For a diff of one base against two or more other inputs, a base
byte position is reported unchanged only if it has an unchanged-word
partner in the pairwise diff of the base against every single other
input; consequently dropping any one non-base input preserves or grows
the unchanged position set.  `cmp` ranges over equivalence comparators
and `tok` over well-formed tokenizers, covering the source's
instantiations. -/
theorem claim_C2_unchanged_intersection (cmp : Cmp) (tok : List Byte → List Rg)
    (hsym : ∀ a b, cmp a b = cmp b a)
    (htrans : ∀ a b c, cmp a b = true → cmp b c = true → cmp a c = true)
    (htok : TokOK tok) (base : List Byte) (others : List (List Byte))
    (k i : Nat) (hlen2 : 2 ≤ others.length) (hk : k < others.length)
    (hpos : posUnchanged (forTokenizer cmp tok (base :: others)) i) :
    (∀ other ∈ others, posUnchanged (forTokenizer cmp tok [base, other]) i) ∧
    posUnchanged (forTokenizer cmp tok (base :: others.eraseIdx k)) i := by
  rcases others with _ | ⟨o0, orest⟩
  · simp at hlen2
  rw [forTokenizer] at hpos
  by_cases hskip : (base.isEmpty || (o0 :: orest).any (fun x => x.isEmpty)) = true
  · rw [if_pos hskip] at hpos
    have hchar := ((withInputs_spec cmp hsym htrans base (o0 :: orest) []
      (List.replicate (o0 :: orest).length []) (by simp) ⟨by simp, by simp⟩
      (fun j hj => by
        rw [getD_replicate (o0 :: orest).length [] [] j hj]
        exact ⟨by simp, by simp⟩)).2 i).mp hpos
    exact absurd hchar (charZ_empty_br cmp base _ i (by
      intro habs
      have := congrArg List.length habs
      rw [List.length_zip] at this
      simp at this))
  · rw [if_neg hskip] at hpos
    have hbe : base.isEmpty = false ∧ ∀ x ∈ o0 :: orest, x.isEmpty = false := by
      constructor
      · cases hb : base.isEmpty with
        | false => rfl
        | true => exact absurd (by rw [Bool.or_eq_true]; exact Or.inl hb) hskip
      · intro x hx
        cases hx2 : x.isEmpty with
        | false => rfl
        | true => exact absurd (by
            rw [Bool.or_eq_true]
            exact Or.inr (List.any_eq_true.mpr ⟨x, hx, hx2⟩)) hskip
    have hoth : ∀ j, j < (o0 :: orest).length →
        TokRangesOK (((o0 :: orest).getD j []).length)
          (((o0 :: orest).map tok).getD j []) := by
      intro j hj
      rw [show ((o0 :: orest).map tok).getD j [] = tok ((o0 :: orest).getD j [])
        from by
          rw [List.getD_eq_getElem _ _ (by simpa using hj),
            List.getD_eq_getElem _ _ hj, List.getElem_map]]
      exact htok _
    have hchar := ((withInputs_spec cmp hsym htrans base (o0 :: orest) (tok base)
      ((o0 :: orest).map tok) (by simp) (htok base) hoth).2 i).mp hpos
    rw [zip_map_self] at hchar
    rw [List.map_cons, unchangedCharZ] at hchar
    obtain ⟨w, hw, hall⟩ := hchar
    have hallm : ∀ o ∈ o0 :: orest, ∃ q ∈ collectWords cmp (collectFuel (tok base))
        (mkLocal base (tok base)) (mkLocal o (tok o)), q.1 = w := by
      intro o ho
      have hmem : ((o, tok o) : List Byte × List Rg) ∈
          (o0 :: orest).map (fun o => (o, tok o)) :=
        List.mem_map.mpr ⟨o, ho, rfl⟩
      exact hall _ hmem
    have hsub : ∀ x ∈ (o0 :: orest).eraseIdx k, x ∈ o0 :: orest :=
      fun x hx => (List.eraseIdx_sublist _ k).mem hx
    constructor
    · intro other hother
      have hone : other.isEmpty = false := hbe.2 other hother
      have hcond : (base.isEmpty || [other].any (fun x => x.isEmpty)) = false := by
        simp [hbe.1, hone]
      rw [forTokenizer, if_neg (by rw [hcond]; exact Bool.false_ne_true)]
      apply ((withInputs_spec cmp hsym htrans base [other] (tok base)
        [tok other] (by simp) (htok base) (by
          intro j hj
          have hj0 : j = 0 := by simp at hj; omega
          subst hj0
          show TokRangesOK other.length (tok other)
          exact htok other)).2 i).mpr
      rw [show ([other].zip [tok other] : List (List Byte × List Rg)) =
        [(other, tok other)] from rfl]
      rw [unchangedCharZ]
      refine ⟨w, hw, ?_⟩
      intro z hz
      rw [List.mem_singleton] at hz
      subst hz
      exact hallm other hother
    · have hcond : (base.isEmpty ||
          ((o0 :: orest).eraseIdx k).any (fun x => x.isEmpty)) = false := by
        rw [hbe.1, Bool.false_or]
        cases hany : ((o0 :: orest).eraseIdx k).any (fun x => x.isEmpty) with
        | false => rfl
        | true =>
          obtain ⟨x, hx, hxe⟩ := List.any_eq_true.mp hany
          rw [hbe.2 x (hsub x hx)] at hxe
          simp at hxe
      have hoth' : ∀ j, j < ((o0 :: orest).eraseIdx k).length →
          TokRangesOK ((((o0 :: orest).eraseIdx k).getD j []).length)
            ((((o0 :: orest).eraseIdx k).map tok).getD j []) := by
        intro j hj
        rw [show (((o0 :: orest).eraseIdx k).map tok).getD j [] =
          tok (((o0 :: orest).eraseIdx k).getD j []) from by
            rw [List.getD_eq_getElem _ _ (by simpa using hj),
              List.getD_eq_getElem _ _ hj, List.getElem_map]]
        exact htok _
      rw [forTokenizer, if_neg (by rw [hcond]; exact Bool.false_ne_true)]
      apply ((withInputs_spec cmp hsym htrans base ((o0 :: orest).eraseIdx k)
        (tok base) (((o0 :: orest).eraseIdx k).map tok) (by simp) (htok base)
        hoth').2 i).mpr
      rw [zip_map_self]
      rcases her : (o0 :: orest).eraseIdx k with _ | ⟨e0, erest⟩
      · exfalso
        have hle : ((o0 :: orest).eraseIdx k).length = orest.length := by
          rw [List.length_eraseIdx]
          rw [if_pos hk]
          simp
        rw [her] at hle
        have hl2 : 2 ≤ orest.length + 1 := by simpa using hlen2
        simp at hle
        omega
      · rw [List.map_cons, unchangedCharZ]
        refine ⟨w, hw, ?_⟩
        intro z hz
        have hz' : z ∈ (e0 :: erest).map (fun o => (o, tok o)) := hz
        rw [List.mem_map] at hz'
        obtain ⟨o, ho, rfl⟩ := hz'
        rw [← her] at ho
        exact hallm o (hsub o ho)

/-- Witness for C2 on a three-input one-line diff in which every input
is the same line, so byte 0 is unchanged everywhere. -/
theorem claim_C2_witness :
    (∀ other ∈ ([[97, 10], [97, 10]] : List (List Byte)),
      posUnchanged (forTokenizer cmpExact findLineRanges [[97, 10], other]) 0) ∧
    posUnchanged (forTokenizer cmpExact findLineRanges
      ([97, 10] :: ([[97, 10], [97, 10]] : List (List Byte)).eraseIdx 0)) 0 :=
  claim_C2_unchanged_intersection cmpExact findLineRanges cmpExact_sym
    cmpExact_trans findLineRanges_ok [97, 10] [[97, 10], [97, 10]] 0 0
    (by decide) (by decide) (by rw [posUnchanged, inRgSet]; decide)
